import Mathlib

/-!
# tbank-api: verification development

Shallow embedding of the hand-written logic of the repository:

* `example/main.go`: `jsonSessionStorage` (`open`, `LoadSession`, `UpdateSession`),
  `authorizer.GetConfirmationCode`, `httpTransport.RoundTrip`;
* `invest/dto.go`: `DateTimeMilliOffset.UnmarshalJSON`, `Date.UnmarshalJSON`.

The identities of the session registry and the keys of its map are Go strings:
sequences of bytes that need not be valid UTF-8.  The text read from standard input,
the content of files and the JSON documents given to the decoders are modelled as lists
of Unicode characters.  The pieces of the Go standard library the code calls
(`strings.Trim`, `bufio.Reader.ReadString`, `os.MkdirAll`, `os.OpenFile`,
`encoding/json`, `unicode/utf8`, `time.Parse`, `time.Time.Format`) are executable
functions that follow the library's algorithms.
-/

namespace TBank

/-! ## Go values shared by all components -/

/-- The `syscall.Errno` values that can reach the code. -/
inductive Errno where
  | ENOENT
  | ENOTDIR
  | EACCES
  | EISDIR
  | EEXIST
  | ENOSPC
  | EPERM
  | EROFS
  deriving DecidableEq, Repr

/-- Go `error` values, as far as the code can tell them apart: `io.EOF`, an
`*fs.PathError` carrying an errno, a failure of `encoding/json` to decode a value
(`*json.SyntaxError`, `*json.UnmarshalTypeError` or `io.ErrUnexpectedEOF`, which the code
treats alike), a `*time.ParseError`, any other error, and `errors.Wrap(cause, msg)` of
`github.com/pkg/errors`. -/
inductive GoError where
  | eof
  | pathError (op : String) (path : List String) (errno : Errno)
  | jsonDecode
  | timeParse (msg : String)
  | other (msg : String)
  | wrapped (cause : GoError) (msg : String)
  deriving DecidableEq, Repr

/-- Outcome of a Go call that may panic instead of returning. -/
inductive Run (α : Type) where
  | ret (a : α)
  | panicked (msg : String)
  deriving DecidableEq, Repr

/-! ## `authorizer.GetConfirmationCode` (example/main.go, lines 105-114) -/

/-- `bufio.Reader.ReadString(delim)` on the unread content of the stream: the text up to
and including the first `delim`; when the stream ends before a delimiter, the text read
so far together with `io.EOF`. -/
def readString (delim : Char) : List Char → List Char × Option GoError
  | [] => ([], some GoError.eof)
  | c :: cs =>
    if c = delim then ([c], none)
    else ((c :: (readString delim cs).1), (readString delim cs).2)

/-- `trimRightASCII` of package `strings`: drop bytes of the cutset from the end. -/
def trimRightASCII (s cutset : List Char) : List Char :=
  (s.reverse.dropWhile (fun c => decide (c ∈ cutset))).reverse

/-- `trimLeftASCII` of package `strings`: drop bytes of the cutset from the start. -/
def trimLeftASCII (s cutset : List Char) : List Char :=
  s.dropWhile (fun c => decide (c ∈ cutset))

/-- `strings.Trim(s, cutset)` for a cutset of ASCII characters, the only kind the code
passes: `trimLeftASCII(trimRightASCII(s, &as), &as)`. -/
def stringsTrim (s cutset : List Char) : List Char :=
  if s = [] ∨ cutset = [] then s
  else trimLeftASCII (trimRightASCII s cutset) cutset

/-- The cutset literal `" \n\t\v"` of `GetConfirmationCode`. -/
def confirmationCutset : List Char := [' ', '\n', '\t', Char.ofNat 11]

/-- What one call of `GetConfirmationCode` does: the prompt it prints and the pair
`(string, error)` it returns. -/
structure CodePrompt where
  (printed : List Char)
  (code : List Char)
  (err : Option GoError)
  deriving DecidableEq, Repr

/-- `authorizer.GetConfirmationCode(ctx, phone)` run on the unread content of stdin. -/
def GetConfirmationCode (phone : List Char) (stdin : List Char) : CodePrompt :=
  let printed := "Enter confirmation code for ".toList ++ phone ++ ": ".toList
  match readString '\n' stdin with
  | (_, some err) => ⟨printed, [], some (GoError.wrapped err "read line from stdin")⟩
  | (text, none) => ⟨printed, stringsTrim text confirmationCutset, none⟩

/-- Spec wording, "whitespace and control characters": Unicode white space
(`unicode.IsSpace` on Latin-1 and the common Unicode spaces) or a control character
(`unicode.IsControl`: U+0000..U+001F and U+007F..U+009F). -/
def isSpaceOrControl (c : Char) : Bool :=
  c.toNat ≤ 0x20 || (0x7f ≤ c.toNat && c.toNat ≤ 0xa0) || c.toNat = 0x1680
    || (0x2000 ≤ c.toNat && c.toNat ≤ 0x200a) || c.toNat = 0x2028 || c.toNat = 0x2029
    || c.toNat = 0x202f || c.toNat = 0x205f || c.toNat = 0x3000

/-- Spec wording of the confirmation code: the line with every leading and trailing
whitespace or control character removed. -/
def trimSpaceControl (s : List Char) : List Char :=
  ((s.dropWhile isSpaceOrControl).reverse.dropWhile isSpaceOrControl).reverse

/-! ## `httpTransport.RoundTrip` (example/main.go, lines 116-141) -/

/-- The capabilities `RoundTrip` calls, over abstract request and response types:
`httputil.DumpRequestOut(req, true)`, `t.client.Do(req)` (a Go pair of a possibly nil
response and a possibly nil error) and `httputil.DumpResponse(resp, true)`. -/
structure HttpEnv (Req Resp : Type) where
  (dumpRequestOut : Req → Except GoError (List Char))
  (clientDo : Req → Option Resp × Option GoError)
  (dumpResponse : Resp → Except GoError (List Char))

/-- What one call of `RoundTrip` does: the lines it prints and the Go pair it returns. -/
structure RoundTripResult (Resp : Type) where
  (printed : List (List Char))
  (resp : Option Resp)
  (err : Option GoError)

/-- `(*httpTransport).RoundTrip(req)`.  `DumpResponse` dereferences its argument, so a
client answering `(nil, nil)` makes the call panic. -/
def RoundTrip {Req Resp : Type} (env : HttpEnv Req Resp) (req : Req) :
    Run (RoundTripResult Resp) :=
  match env.dumpRequestOut req with
  | .error err => .ret ⟨[], none, some (GoError.wrapped err "dump request")⟩
  | .ok reqData =>
    match env.clientDo req with
    | (_, some err) => .ret ⟨[reqData], none, some err⟩
    | (none, none) => .panicked "invalid memory address or nil pointer dereference"
    | (some resp, none) =>
      match env.dumpResponse resp with
      | .error err => .ret ⟨[reqData], none, some (GoError.wrapped err "dump response")⟩
      | .ok respData => .ret ⟨[reqData, respData], some resp, none⟩

/-- A wrapped client that fails while still handing back a response, as `http.Client.Do`
does when `CheckRedirect` fails: requests are unit, responses are status codes. -/
def redirectFailureEnv : HttpEnv Unit Nat where
  dumpRequestOut := fun _ => .ok "GET / HTTP/1.1".toList
  clientDo := fun _ => (some 302, some (GoError.other "stopped after 10 redirects"))
  dumpResponse := fun _ => .ok "HTTP/1.1 302 Found".toList

/-- A wrapped client that answers every request with status 200. -/
def okEnv : HttpEnv Unit Nat where
  dumpRequestOut := fun _ => .ok "GET / HTTP/1.1".toList
  clientDo := fun _ => (some 200, none)
  dumpResponse := fun _ => .ok "HTTP/1.1 200 OK".toList

/-! ## The file system seen by `os.MkdirAll` and `os.OpenFile`

Paths are absolute and cleaned, given by their components.  Every node carries its
permission bits; the calling process owns the nodes it meets, so the owner bits decide,
and a privileged process (uid 0) passes every permission check.  The umask is taken to
leave the owner bits alone. -/

/-- An absolute, cleaned path: its components below the root. -/
abbrev Path := List String

/-- A directory or a regular file with its textual content. -/
inductive Node where
  | dir (mode : Nat)
  | file (mode : Nat) (content : List Char)
  deriving DecidableEq, Repr

/-- The file system: the node, if any, at each path. -/
structure FS where
  (nodes : Path → Option Node)

/-- The calling process. -/
structure Proc where
  (privileged : Bool)
  deriving DecidableEq, Repr

/-- The file system with the node at `p` replaced. -/
def FS.set (fs : FS) (p : Path) (n : Node) : FS :=
  ⟨fun q => if q = p then some n else fs.nodes q⟩

/-- Owner read bit `0400`, or a privileged process. -/
def mayRead (proc : Proc) (mode : Nat) : Bool :=
  proc.privileged || mode / 256 % 2 == 1

/-- Owner write bit `0200`, or a privileged process. -/
def mayWrite (proc : Proc) (mode : Nat) : Bool :=
  proc.privileged || mode / 128 % 2 == 1

/-- Owner search bit `0100`, or a privileged process. -/
def maySearch (proc : Proc) (mode : Nat) : Bool :=
  proc.privileged || mode / 64 % 2 == 1

/-- Path resolution below the node `node` found at `cur`: every directory on the way
must be searchable, every component must exist. -/
def walk (proc : Proc) (fs : FS) (cur : Path) (node : Node) :
    List String → Except Errno Node
  | [] => .ok node
  | c :: cs =>
    match node with
    | .file _ _ => .error .ENOTDIR
    | .dir mode =>
      if maySearch proc mode then
        match fs.nodes (cur ++ [c]) with
        | none => .error .ENOENT
        | some child => walk proc fs (cur ++ [c]) child cs
      else .error .EACCES

/-- `os.Stat(p)` (and `os.Lstat`, there being no symbolic links in the model). -/
def osStat (proc : Proc) (fs : FS) (p : Path) : Except Errno Node :=
  match fs.nodes [] with
  | none => .error .ENOENT
  | some root => walk proc fs [] root p

/-- `os.Mkdir(p, perm)`: the parent must resolve to a searchable, writable directory
and `p` must not exist; the new directory gets the permission bits of `perm`. -/
def osMkdir (proc : Proc) (fs : FS) (p : Path) (perm : Nat) : FS × Option Errno :=
  match osStat proc fs p.dropLast with
  | .error e => (fs, some e)
  | .ok (.file _ _) => (fs, some .ENOTDIR)
  | .ok (.dir mode) =>
    if maySearch proc mode then
      match fs.nodes p with
      | some _ => (fs, some .EEXIST)
      | none =>
        if mayWrite proc mode then (fs.set p (.dir (perm % 512)), none)
        else (fs, some .EACCES)
    else (fs, some .EACCES)

/-- `os.MkdirAll(p, perm)` on the reversed path `rev`: the fast path through `Stat`,
then the parent first and `Mkdir` for `p`, with the `Lstat` double check when `Mkdir`
fails. -/
def mkdirAllRev (proc : Proc) (perm : Nat) : List String → FS → FS × Option GoError
  | [], fs =>
    match osStat proc fs [] with
    | .ok (.dir _) => (fs, none)
    | .ok (.file _ _) => (fs, some (.pathError "mkdir" [] .ENOTDIR))
    | .error e => (fs, some (.pathError "mkdir" [] e))
  | c :: parentRev, fs =>
    match osStat proc fs (c :: parentRev).reverse with
    | .ok (.dir _) => (fs, none)
    | .ok (.file _ _) => (fs, some (.pathError "mkdir" (c :: parentRev).reverse .ENOTDIR))
    | .error _ =>
      match mkdirAllRev proc perm parentRev fs with
      | (fs1, some err) => (fs1, some err)
      | (fs1, none) =>
        match osMkdir proc fs1 (c :: parentRev).reverse perm with
        | (fs2, none) => (fs2, none)
        | (fs2, some e) =>
          match osStat proc fs2 (c :: parentRev).reverse with
          | .ok (.dir _) => (fs2, none)
          | _ => (fs2, some (.pathError "mkdir" (c :: parentRev).reverse e))

/-- `os.MkdirAll(p, perm)`. -/
def osMkdirAll (proc : Proc) (fs : FS) (p : Path) (perm : Nat) : FS × Option GoError :=
  mkdirAllRev proc perm p.reverse fs

/-- The two flag combinations the code passes to `os.OpenFile`. -/
inductive OpenFlag where
  | O_RDONLY
  | O_RDWR_CREATE
  deriving DecidableEq, Repr

/-- `os.OpenFile(p, flag, perm)`: the open handle is named by its path.  A missing file
is created, empty, only under `O_CREATE`; a directory opens read-only but not for
writing. -/
def osOpenFile (proc : Proc) (fs : FS) (p : Path) (flag : OpenFlag) (perm : Nat) :
    FS × Except Errno Path :=
  match osStat proc fs p.dropLast with
  | .error e => (fs, .error e)
  | .ok (.file _ _) => (fs, .error .ENOTDIR)
  | .ok (.dir dmode) =>
    if maySearch proc dmode then
      match fs.nodes p, flag with
      | none, .O_RDONLY => (fs, .error .ENOENT)
      | none, .O_RDWR_CREATE =>
        if mayWrite proc dmode then (fs.set p (.file (perm % 512) []), .ok p)
        else (fs, .error .EACCES)
      | some (.dir mode), .O_RDONLY =>
        if mayRead proc mode then (fs, .ok p) else (fs, .error .EACCES)
      | some (.dir _), .O_RDWR_CREATE => (fs, .error .EISDIR)
      | some (.file mode _), .O_RDONLY =>
        if mayRead proc mode then (fs, .ok p) else (fs, .error .EACCES)
      | some (.file mode _), .O_RDWR_CREATE =>
        if mayRead proc mode && mayWrite proc mode then (fs, .ok p)
        else (fs, .error .EACCES)
    else (fs, .error .EACCES)

/-- I/O failures the environment may inject into the calls made on an open file:
`Stat`, reading, `Truncate`, `Seek`, and a `Write` that fails after `n` bytes. -/
structure IOFaults where
  (stat : Option Errno)
  (read : Option Errno)
  (truncate : Option Errno)
  (seek : Option Errno)
  (write : Option (Nat × Errno))
  deriving DecidableEq, Repr

/-- No injected failure. -/
def IOFaults.none : IOFaults := ⟨Option.none, Option.none, Option.none, Option.none, Option.none⟩

/-- `file.Stat()` followed by `Size()`. -/
def fileSize (io : IOFaults) (fs : FS) (file : Path) : Except GoError Nat :=
  match io.stat with
  | some e => .error (.pathError "stat" file e)
  | none =>
    match fs.nodes file with
    | some (.file _ content) => .ok content.length
    | some (.dir _) => .ok 4096
    | none => .error (.pathError "stat" file .ENOENT)

/-- Reading the open file from its start, as the JSON decoder does. -/
def fileRead (io : IOFaults) (fs : FS) (file : Path) : Except GoError (List Char) :=
  match io.read with
  | some e => .error (.pathError "read" file e)
  | none =>
    match fs.nodes file with
    | some (.file _ content) => .ok content
    | some (.dir _) => .error (.pathError "read" file .EISDIR)
    | none => .error (.pathError "read" file .ENOENT)

/-- `file.Truncate(0)`. -/
def fileTruncate (io : IOFaults) (fs : FS) (file : Path) : FS × Option GoError :=
  match io.truncate with
  | some e => (fs, some (.pathError "truncate" file e))
  | none =>
    match fs.nodes file with
    | some (.file mode _) => (fs.set file (.file mode []), none)
    | _ => (fs, some (.pathError "truncate" file .EISDIR))

/-- `file.Seek(0, 0)`. -/
def fileSeekStart (io : IOFaults) (file : Path) : Option GoError :=
  match io.seek with
  | some e => some (.pathError "seek" file e)
  | none => none

/-- `file.Write(data)` at offset 0 of the truncated file; an injected failure leaves the
first `n` bytes written. -/
def fileWrite (io : IOFaults) (fs : FS) (file : Path) (data : List Char) :
    FS × Option GoError :=
  match fs.nodes file with
  | some (.file mode _) =>
    match io.write with
    | some (n, e) => (fs.set file (.file mode (data.take n)), some (.pathError "write" file e))
    | none => (fs.set file (.file mode data), none)
  | _ => (fs, some (.pathError "write" file .EISDIR))

/-! ## Go strings and UTF-8 (`unicode/utf8`)

A Go `string` is a sequence of bytes that need not be valid UTF-8.  The identities
(`phone`) and the keys of the registry map are such strings.  The content of a file and
the JSON text the decoders are given are modelled as Unicode text. -/

/-- A byte. -/
abbrev Byte := Fin 256

/-- A Go `string`: any sequence of bytes. -/
abbrev GoString := List Byte

/-- The byte with value `n`, for `n` below 256. -/
def byte (n : Nat) : Byte := ⟨n % 256, Nat.mod_lt n (by decide)⟩

/-- The function `utf8.AppendRune` on a Unicode scalar value: one to four bytes.  The
`|` and `>>` of the code are written as sums and quotients. -/
def encodeRune (c : Char) : GoString :=
  let r := c.toNat
  if r < 0x80 then [byte r]
  else if r ≤ 0x7FF then [byte (0xC0 + r / 64), byte (0x80 + r % 64)]
  else if r ≤ 0xFFFF then
    [byte (0xE0 + r / 4096), byte (0x80 + r / 64 % 64), byte (0x80 + r % 64)]
  else
    [byte (0xF0 + r / 262144), byte (0x80 + r / 4096 % 64), byte (0x80 + r / 64 % 64),
      byte (0x80 + r % 64)]

/-- The Go string holding a text: its UTF-8 encoding (`string(runes)`). -/
def utf8Encode : List Char → GoString
  | [] => []
  | c :: cs => encodeRune c ++ utf8Encode cs

/-- A Go string that is valid UTF-8 (`utf8.ValidString`): the encoding of a text. -/
def ValidUTF8 (s : GoString) : Prop :=
  ∃ text : List Char, s = utf8Encode text

/-- The function `utf8.DecodeRuneInString`: the first rune of a string and the number
of bytes it takes; `(RuneError, 1)`, that is `(0xFFFD, 1)`, for a byte that does not
begin a valid encoding, and `(RuneError, 0)` for the empty string.  The table `first`
and the `acceptRanges` of the code are written as comparisons. -/
def decodeRune : GoString → Nat × Nat
  | [] => (0xFFFD, 0)
  | s0 :: rest =>
    if s0.val < 0x80 then (s0.val, 1)
    else if s0.val < 0xC2 ∨ 0xF4 < s0.val then (0xFFFD, 1)
    else
      let size := if s0.val < 0xE0 then 2 else if s0.val < 0xF0 then 3 else 4
      let lo := if s0.val = 0xE0 then 0xA0 else if s0.val = 0xF0 then 0x90 else 0x80
      let hi := if s0.val = 0xED then 0x9F else if s0.val = 0xF4 then 0x8F else 0xBF
      if rest.length + 1 < size then (0xFFFD, 1)
      else
        match rest with
        | [] => (0xFFFD, 1)
        | s1 :: rest1 =>
          if s1.val < lo ∨ hi < s1.val then (0xFFFD, 1)
          else if size ≤ 2 then (s0.val % 32 * 64 + s1.val % 64, 2)
          else
            match rest1 with
            | [] => (0xFFFD, 1)
            | s2 :: rest2 =>
              if s2.val < 0x80 ∨ 0xBF < s2.val then (0xFFFD, 1)
              else if size ≤ 3 then
                (s0.val % 16 * 4096 + s1.val % 64 * 64 + s2.val % 64, 3)
              else
                match rest2 with
                | [] => (0xFFFD, 1)
                | s3 :: _ =>
                  if s3.val < 0x80 ∨ 0xBF < s3.val then (0xFFFD, 1)
                  else
                    (s0.val % 8 * 262144 + s1.val % 64 * 4096 + s2.val % 64 * 64 +
                      s3.val % 64, 4)

/-! ## `encoding/json` on `map[string]tbank.Session`

`tbank.Session` is declared outside the two source files, so the session type and its
JSON encoding are parameters.  Everything around a session value, the object syntax,
the string keys and the stream behaviour of `json.Decoder`, is modelled here. -/

/-- How a `tbank.Session` is marshalled, and how one JSON value at the head of a text
(after optional white space) is unmarshalled into a session, giving the session and
the text after the value. -/
structure SessionCodec (S : Type) where
  (encode : S → List Char)
  (decode : List Char → Except GoError (S × List Char))

/-- The assumption that the session record's JSON encoding round-trips: decoding the
encoding of a session, whatever follows it, gives the session back and stops right
after it. -/
def SessionCodec.RoundTrips {S : Type} (codec : SessionCodec S) : Prop :=
  ∀ (s : S) (rest : List Char), codec.decode (codec.encode s ++ rest) = .ok (s, rest)

/-- A Go map from strings to sessions that has been made: its entries, each key once. -/
abbrev Entries (S : Type) := List (GoString × S)

/-- A Go value of type `map[string]tbank.Session`: `none` is the nil map. -/
abbrev GoMap (S : Type) := Option (Entries S)

/-- Look up a key among the entries. -/
def entriesLookup {S : Type} : Entries S → GoString → Option S
  | [], _ => none
  | (k, v) :: m, key => if k = key then some v else entriesLookup m key

/-- Remove a key from the entries. -/
def entriesDelete {S : Type} (m : Entries S) (key : GoString) : Entries S :=
  m.filter (fun kv => decide (kv.1 ≠ key))

/-- Set a key of the entries. -/
def entriesInsert {S : Type} (m : Entries S) (key : GoString) (v : S) : Entries S :=
  (key, v) :: entriesDelete m key

/-- The Go expression `contents[phone]` with the comma-ok form. -/
def goMapLookup {S : Type} (m : GoMap S) (key : GoString) : Option S :=
  match m with
  | none => none
  | some entries => entriesLookup entries key

/-- The Go statement `contents[phone] = v`: assignment to an entry of a nil map panics. -/
def goMapAssign {S : Type} (m : GoMap S) (key : GoString) (v : S) : Run (GoMap S) :=
  match m with
  | none => .panicked "assignment to entry in nil map"
  | some entries => .ret (some (entriesInsert entries key v))

/-- The Go statement `delete(contents, phone)`: a no-op on a nil map. -/
def goMapDelete {S : Type} (m : GoMap S) (key : GoString) : GoMap S :=
  match m with
  | none => none
  | some entries => some (entriesDelete entries key)

/-- The white space of JSON. -/
def isJSONSpace (c : Char) : Bool :=
  c = ' ' || c = '\t' || c = '\r' || c = '\n'

/-- Skip JSON white space. -/
def skipSpace (text : List Char) : List Char :=
  text.dropWhile isJSONSpace

/-- Lower-case hexadecimal digit of a number below 16. -/
def hexDigit (n : Nat) : Char :=
  if n < 10 then Char.ofNat (48 + n) else Char.ofNat (87 + n)

/-- How the encoder (with HTML escaping, the default of `json.Encoder`) writes one
character that `appendString` has found in a string: the escapes of the ASCII branch,
the escapes of U+2028 and U+2029, and every other character as it is. -/
def appendStringChar (c : Char) : List Char :=
  if c = '\\' ∨ c = '"' then ['\\', c]
  else if c = Char.ofNat 8 then ['\\', 'b']
  else if c = Char.ofNat 12 then ['\\', 'f']
  else if c = '\n' then ['\\', 'n']
  else if c = '\r' then ['\\', 'r']
  else if c = '\t' then ['\\', 't']
  else if c.toNat < 32 ∨ c = '<' ∨ c = '>' ∨ c = '&' then
    ['\\', 'u', '0', '0', hexDigit (c.toNat / 16), hexDigit (c.toNat % 16)]
  else if c.toNat = 0x2028 ∨ c.toNat = 0x2029 then
    ['\\', 'u', '2', '0', '2', hexDigit (c.toNat % 16)]
  else [c]

/-- The loop of the encoder's `appendString` over the bytes of a Go string: an ASCII
byte is written by the ASCII branch; otherwise `utf8.DecodeRuneInString` is called, and
a byte that does not begin a valid encoding (`RuneError` with size 1) is written as the
escape `\\ufffd`, a valid character as itself or as its escape.  The fuel bounds the
number of iterations and suffices when it is the length of the string. -/
def appendStringBytes : Nat → GoString → List Char
  | 0, _ => []
  | _ + 1, [] => []
  | fuel + 1, b :: rest =>
    if b.val < 0x80 then appendStringChar (Char.ofNat b.val) ++ appendStringBytes fuel rest
    else
      match decodeRune (b :: rest) with
      | (c, size) =>
        if c = 0xFFFD ∧ size = 1 then
          ['\\', 'u', 'f', 'f', 'f', 'd'] ++ appendStringBytes fuel rest
        else appendStringChar (Char.ofNat c) ++ appendStringBytes fuel ((b :: rest).drop size)

/-- The encoder's `appendString`: the JSON string literal of a Go string. -/
def appendString (s : GoString) : List Char :=
  '"' :: (appendStringBytes s.length s ++ ['"'])

/-- What the encoder writes between the quotes for a string that is valid UTF-8, in
terms of the text the string holds. -/
def appendStringBody : List Char → List Char
  | [] => []
  | c :: cs => appendStringChar c ++ appendStringBody cs

/-- The JSON string literal the encoder writes for a text. -/
def appendStringText (s : List Char) : List Char :=
  '"' :: (appendStringBody s ++ ['"'])

/-- Value of a hexadecimal digit, either case. -/
def hexVal (c : Char) : Option Nat :=
  if 48 ≤ c.toNat ∧ c.toNat ≤ 57 then some (c.toNat - 48)
  else if 97 ≤ c.toNat ∧ c.toNat ≤ 102 then some (c.toNat - 87)
  else if 65 ≤ c.toNat ∧ c.toNat ≤ 70 then some (c.toNat - 55)
  else none

/-- The decoder's `getu4`: the number written by four hexadecimal digits. -/
def getu4 (a b c d : Char) : Option Nat :=
  match hexVal a, hexVal b, hexVal c, hexVal d with
  | some x, some y, some z, some w => some (((x * 16 + y) * 16 + z) * 16 + w)
  | _, _, _, _ => none

/-- The single-character escapes of JSON. -/
def simpleEscape (e : Char) : Option Char :=
  if e = '"' then some '"'
  else if e = '\\' then some '\\'
  else if e = '/' then some '/'
  else if e = 'b' then some (Char.ofNat 8)
  else if e = 'f' then some (Char.ofNat 12)
  else if e = 'n' then some '\n'
  else if e = 'r' then some '\r'
  else if e = 't' then some '\t'
  else none

/-- The low half of a surrogate pair: a second `\\uXXXX` escape right after the high
half `rr`, combined with it by `utf16.DecodeRune`. -/
def pairedSurrogate (rr : Nat) : List Char → Option (Char × List Char)
  | x1 :: x2 :: a :: b :: c :: d :: rest =>
    if x1 = '\\' ∧ x2 = 'u' ∧ rr < 0xdc00 then
      match getu4 a b c d with
      | some r2 =>
        if 0xdc00 ≤ r2 ∧ r2 < 0xe000 then
          some (Char.ofNat ((rr - 0xd800) * 1024 + (r2 - 0xdc00) + 0x10000), rest)
        else none
      | none => none
    else none
  | _ => none

/-- The escape `\\uXXXX` whose `\\u` has been read: four hexadecimal digits; a surrogate
is combined with its partner or, without one, replaced by U+FFFD. -/
def unquoteEscapeU : List Char → Option (Char × List Char)
  | a :: b :: c :: d :: rest =>
    match getu4 a b c d with
    | none => none
    | some rr =>
      if 0xd800 ≤ rr ∧ rr < 0xe000 then
        match pairedSurrogate rr rest with
        | some (ch, rest1) => some (ch, rest1)
        | none => some (Char.ofNat 0xfffd, rest)
      else some (Char.ofNat rr, rest)
  | _ => none

/-- One character of a string literal, `c` not being the closing quote: a raw character
(control characters are a syntax error) or an escape. -/
def unquoteChar (c : Char) (rest : List Char) : Option (Char × List Char) :=
  if c = '\\' then
    match rest with
    | [] => none
    | e :: rest1 =>
      if e = 'u' then unquoteEscapeU rest1
      else
        match simpleEscape e with
        | none => none
        | some ch => some (ch, rest1)
  else if c.toNat < 32 then none
  else some (c, rest)

/-- The decoder on the inside of a string literal (scanner and `unquote` together): the
text up to the closing quote with its escapes resolved, and the text after the quote.
A raw control character, a bad escape or a missing closing quote is a syntax error.
The fuel bounds the number of characters read and suffices when it is the length of
the text. -/
def unquoteBody : Nat → List Char → Option (List Char × List Char)
  | 0, _ => none
  | _ + 1, [] => none
  | fuel + 1, c :: rest =>
    if c = '"' then some ([], rest)
    else
      match unquoteChar c rest with
      | none => none
      | some (ch, rest1) =>
        match unquoteBody fuel rest1 with
        | none => none
        | some (s, t) => some (ch :: s, t)

/-- A string literal whose opening quote has been read. -/
def unquote (text : List Char) : Option (List Char × List Char) :=
  unquoteBody text.length text

/-- The members of an object whose opening brace has been read, from the first
character of a key on: `"key" : value` separated by commas up to the closing brace.
Every member is stored into the map in turn, under the unquoted key as a Go string, so
a repeated key keeps its last value.
The fuel bounds the number of members and is never exhausted when it is the length of
the text. -/
def decodeMembers {S : Type} (codec : SessionCodec S) :
    Nat → List Char → Entries S → Except GoError (Entries S × List Char)
  | 0, _, _ => .error .jsonDecode
  | fuel + 1, text, acc =>
    match text with
    | [] => .error .jsonDecode
    | q :: t1 =>
      if q = '"' then
        match unquote t1 with
        | none => .error .jsonDecode
        | some (key, t2) =>
          match skipSpace t2 with
          | [] => .error .jsonDecode
          | colon :: t3 =>
            if colon = ':' then
              match codec.decode t3 with
              | .error err => .error err
              | .ok (s, t4) =>
                match skipSpace t4 with
                | [] => .error .jsonDecode
                | sep :: t5 =>
                  if sep = ',' then
                    decodeMembers codec fuel (skipSpace t5) (entriesInsert acc (utf8Encode key) s)
                  else if sep = '}' then .ok (entriesInsert acc (utf8Encode key) s, t5)
                  else .error .jsonDecode
            else .error .jsonDecode
      else .error .jsonDecode

/-- One `Decode(&contents)` of a fresh `json.Decoder` into a made, empty map: the first
JSON value of the text is read and unmarshalled, and the text after it is returned
unread.  No value at all is `io.EOF`; the literal `null` makes the map nil; an object
fills the map; any other value, or a malformed or truncated one, is an error. -/
def decodeValue {S : Type} (codec : SessionCodec S) (text : List Char) :
    Except GoError (GoMap S × List Char) :=
  match skipSpace text with
  | [] => .error .eof
  | c :: t1 =>
    if c = '{' then
      match skipSpace t1 with
      | [] => .error .jsonDecode
      | c2 :: t2 =>
        if c2 = '}' then .ok (some [], t2)
        else
          match decodeMembers codec (c2 :: t2).length (c2 :: t2) [] with
          | .error err => .error err
          | .ok (m, rest) => .ok (some m, rest)
    else if c = 'n' then
      match t1 with
      | u :: l1 :: l2 :: rest =>
        if u = 'u' ∧ l1 = 'l' ∧ l2 = 'l' then .ok (none, rest) else .error .jsonDecode
      | _ => .error .jsonDecode
    else .error .jsonDecode

/-- The value `json.NewDecoder(file).Decode(&contents)` leaves in `contents`. -/
def decodeRegistry {S : Type} (codec : SessionCodec S) (text : List Char) :
    Except GoError (GoMap S) :=
  match decodeValue codec text with
  | .error err => .error err
  | .ok (m, _) => .ok m

/-- Keys in the order the encoder writes them: sorted as byte strings. -/
def keyLE {S : Type} (a b : GoString × S) : Prop :=
  a.1 ≤ b.1

instance keyLE_decidable {S : Type} : DecidableRel (keyLE : (GoString × S) → _ → Prop) :=
  fun a b => inferInstanceAs (Decidable (a.1 ≤ b.1))

/-- The members of an encoded object, comma separated. -/
def encodeMembers {S : Type} (codec : SessionCodec S) : Entries S → List Char
  | [] => []
  | [(k, v)] => appendString k ++ ':' :: codec.encode v
  | (k, v) :: kv :: m =>
    appendString k ++ ':' :: codec.encode v ++ ',' :: encodeMembers codec (kv :: m)

/-- What `json.NewEncoder(file).Encode(&contents)` writes: `null` for the nil map,
otherwise the object with its keys sorted; the encoder ends the value with a newline. -/
def encodeRegistry {S : Type} (codec : SessionCodec S) : GoMap S → List Char
  | none => "null\n".toList
  | some m => '{' :: (encodeMembers codec (m.insertionSort keyLE) ++ "\x7d\n".toList)

/-- Every key occurs once among the entries, as in a Go map. -/
def KeysNodup {S : Type} (m : Entries S) : Prop :=
  (m.map Prod.fst).Nodup

/-- A Go map value is nil or has every key once. -/
def GoMap.WF {S : Type} : GoMap S → Prop
  | none => True
  | some m => KeysNodup m

/-- Storing a list of members one after the other, as the decoder does. -/
def storeAll {S : Type} (acc : Entries S) (l : Entries S) : Entries S :=
  l.foldl (fun a kv => entriesInsert a kv.1 kv.2) acc


/-- Every key among the entries is valid UTF-8. -/
def KeysValid {S : Type} (m : Entries S) : Prop :=
  ∀ kv ∈ m, ValidUTF8 kv.1

/-- A Go map value is nil or has only keys that are valid UTF-8. -/
def GoMap.KeysValid {S : Type} : GoMap S → Prop
  | none => True
  | some m => TBank.KeysValid m
/-! ## `jsonSessionStorage` (example/main.go, lines 24-101) -/

/-- The Go struct `jsonSessionStorage`. -/
structure jsonSessionStorage where
  (path : Path)
  deriving DecidableEq, Repr

/-- The permission argument `os.ModeDir` (bit 31 of `fs.FileMode`) the code passes to
`os.MkdirAll`. -/
def osModeDir : Nat := 2 ^ 31

/-- `errors.Is(err, os.ErrNotExist)`: unwraps `errors.Wrap` layers and the path error
down to the errno, which matches exactly when it is `ENOENT`. -/
def isNotExist : GoError → Bool
  | .wrapped cause _ => isNotExist cause
  | .pathError _ _ errno => decide (errno = Errno.ENOENT)
  | _ => false

/-- `jsonSessionStorage.open(flag)`: `os.MkdirAll(filepath.Dir(s.path), os.ModeDir)`,
then `os.OpenFile(s.path, flag, 0644)`. -/
def jsonSessionStorage.openFile (s : jsonSessionStorage) (proc : Proc) (fs : FS)
    (flag : OpenFlag) : FS × Except GoError Path :=
  match osMkdirAll proc fs s.path.dropLast osModeDir with
  | (fs1, some err) => (fs1, .error (.wrapped err "create parent directory"))
  | (fs1, none) =>
    match osOpenFile proc fs1 s.path flag 0o644 with
    | (fs2, .error errno) =>
      (fs2, .error (.wrapped (.pathError "open" s.path errno) "open file"))
    | (fs2, .ok file) => (fs2, .ok file)

/-- `json.NewDecoder(file).Decode(&contents)` on a freshly opened file. -/
def fileDecode {S : Type} (codec : SessionCodec S) (io : IOFaults) (fs : FS)
    (file : Path) : Except GoError (GoMap S) :=
  match fileRead io fs file with
  | .error err => .error err
  | .ok text => decodeRegistry codec text

/-- What a call of `LoadSession` leaves behind and returns: the file system after the
call and the Go pair `(*tbank.Session, error)`. -/
structure LoadResult (S : Type) where
  (fs : FS)
  (session : Option S)
  (err : Option GoError)

/-- `jsonSessionStorage.LoadSession(ctx, phone)`. -/
def jsonSessionStorage.LoadSession {S : Type} (codec : SessionCodec S) (io : IOFaults)
    (proc : Proc) (fs : FS) (s : jsonSessionStorage) (phone : GoString) : LoadResult S :=
  match s.openFile proc fs .O_RDONLY with
  | (fs1, .error err) =>
    if isNotExist err then ⟨fs1, none, none⟩ else ⟨fs1, none, some err⟩
  | (fs1, .ok file) =>
    match fileDecode codec io fs1 file with
    | .error err => ⟨fs1, none, some (.wrapped err "decode json")⟩
    | .ok contents =>
      match goMapLookup contents phone with
      | some session => ⟨fs1, some session, none⟩
      | none => ⟨fs1, none, none⟩

/-- What a call of `UpdateSession` leaves behind and returns. -/
structure UpdateResult where
  (fs : FS)
  (err : Option GoError)

/-- `jsonSessionStorage.UpdateSession(ctx, phone, session)`; `session = none` is the nil
pointer. -/
def jsonSessionStorage.UpdateSession {S : Type} (codec : SessionCodec S) (io : IOFaults)
    (proc : Proc) (fs : FS) (s : jsonSessionStorage) (phone : GoString)
    (session : Option S) : Run UpdateResult :=
  match s.openFile proc fs .O_RDWR_CREATE with
  | (fs1, .error err) => .ret ⟨fs1, some err⟩
  | (fs1, .ok file) =>
    match fileSize io fs1 file with
    | .error err => .ret ⟨fs1, some (.wrapped err "stat")⟩
    | .ok size =>
      match (if size > 0 then fileDecode codec io fs1 file else .ok (some [])) with
      | .error err => .ret ⟨fs1, some (.wrapped err "decode json")⟩
      | .ok contents =>
        match (match session with
               | some v => goMapAssign contents phone v
               | none => Run.ret (goMapDelete contents phone)) with
        | .panicked msg => .panicked msg
        | .ret contents1 =>
          match fileTruncate io fs1 file with
          | (fs2, some err) => .ret ⟨fs2, some (.wrapped err "truncate file")⟩
          | (fs2, none) =>
            match fileSeekStart io file with
            | some err => .ret ⟨fs2, some (.wrapped err "seek to the start of file")⟩
            | none =>
              match fileWrite io fs2 file (encodeRegistry codec contents1) with
              | (fs3, some err) => .ret ⟨fs3, some (.wrapped err "encode json")⟩
              | (fs3, none) => .ret ⟨fs3, none⟩

/-! ### A concrete session type for examples -/

/-- A session record with a single field holding a text, marshalled as `{"id":"..."}`. -/
structure TokenSession where
  (id : List Char)
  deriving DecidableEq, Repr

/-- Marshalling of `TokenSession`. -/
def TokenSession.encode (s : TokenSession) : List Char :=
  "\x7b\"id\":".toList ++ appendStringText s.id ++ ['}']

/-- Unmarshalling of `TokenSession` from the head of a text. -/
def TokenSession.decode (text : List Char) : Except GoError (TokenSession × List Char) :=
  match skipSpace text with
  | '{' :: '"' :: 'i' :: 'd' :: '"' :: ':' :: '"' :: t =>
    match unquote t with
    | some (id, c :: rest) => if c = '}' then .ok (⟨id⟩, rest) else .error .jsonDecode
    | _ => .error .jsonDecode
  | _ => .error .jsonDecode

/-- The codec of `TokenSession`. -/
def tokenCodec : SessionCodec TokenSession :=
  ⟨TokenSession.encode, TokenSession.decode⟩

/-- A file system holding only the root directory and `/data`, both `0755`. -/
def baseFS : FS :=
  ⟨fun p => if p = [] ∨ p = ["data"] then some (.dir 0o755) else none⟩

/-- The storage at `/data/sessions.json`. -/
def demoStorage : jsonSessionStorage := ⟨["data", "sessions.json"]⟩

/-- An unprivileged process. -/
def user : Proc := ⟨false⟩

/-- A sequence of `UpdateSession` calls, oldest first, each of which returns a nil
error: the file system after the last call. -/
def runUpdates {S : Type} (codec : SessionCodec S) (io : IOFaults) (proc : Proc)
    (s : jsonSessionStorage) : List (GoString × Option S) → FS → Option FS
  | [], fs => some fs
  | (phone, v) :: ops, fs =>
    match s.UpdateSession codec io proc fs phone v with
    | .ret ⟨fs1, none⟩ => runUpdates codec io proc s ops fs1
    | _ => none

/-- The value of the most recent update for `phone` in a sequence of updates, oldest
first, if there is one. -/
def lastWrite {S : Type} : List (GoString × Option S) → GoString → Option (Option S)
  | [], _ => none
  | (p, v) :: ops, phone =>
    match lastWrite ops phone with
    | some w => some w
    | none => if p = phone then some v else none

/-- Two logins, a logout and a re-login against the empty data directory. -/
def demoUpdates : List (GoString × Option TokenSession) :=
  [(utf8Encode "+79001234567".toList, some ⟨"first".toList⟩),
   (utf8Encode "+79007654321".toList, some ⟨"other".toList⟩),
   (utf8Encode "+79001234567".toList, none),
   (utf8Encode "+79001234567".toList, some ⟨"second".toList⟩)]

/-- The file system after `demoUpdates`. -/
def demoFS : FS :=
  match runUpdates tokenCodec IOFaults.none user demoStorage demoUpdates baseFS with
  | some fs => fs
  | none => baseFS

/-- The file system after the first two of `demoUpdates`. -/
def demoFS2 : FS :=
  match runUpdates tokenCodec IOFaults.none user demoStorage (demoUpdates.take 2) baseFS with
  | some fs => fs
  | none => baseFS

/-- The file system after the logout of the first identity that follows `demoFS2`. -/
def demoFS3 : FS :=
  match demoStorage.UpdateSession tokenCodec IOFaults.none user demoFS2
      (utf8Encode "+79001234567".toList) none with
  | .ret ⟨fs, _⟩ => fs
  | .panicked _ => demoFS2


/-- A string that is not valid UTF-8: the single byte `0xff`. -/
def invalidPhone : GoString := [0xff]

/-- The string holding the single character U+FFFD, in UTF-8 the bytes `ef bf bd`. -/
def replacementPhone : GoString := utf8Encode [Char.ofNat 0xFFFD]

/-- The file system after a login of the identity `"\xff"` against the empty data
directory. -/
def invalidFS : FS :=
  match demoStorage.UpdateSession tokenCodec IOFaults.none user baseFS invalidPhone
      (some ⟨"first".toList⟩) with
  | .ret ⟨fs, _⟩ => fs
  | .panicked _ => baseFS

/-- The file system after a login of the identity U+FFFD against the empty data
directory. -/
def replacementFS : FS :=
  match demoStorage.UpdateSession tokenCodec IOFaults.none user baseFS replacementPhone
      (some ⟨"first".toList⟩) with
  | .ret ⟨fs, _⟩ => fs
  | .panicked _ => baseFS

/-- The file system after a login of the identity `"\xff"` that follows
`replacementFS`. -/
def collisionFS : FS :=
  match demoStorage.UpdateSession tokenCodec IOFaults.none user replacementFS invalidPhone
      (some ⟨"other".toList⟩) with
  | .ret ⟨fs, _⟩ => fs
  | .panicked _ => replacementFS
/-- A regular file with the given mode and content is at `path`, below a parent
directory that resolves and that the process may search. -/
def FileAt (proc : Proc) (fs : FS) (path : Path) (mode : Nat) (content : List Char) : Prop :=
  ∃ dmode, osStat proc fs path.dropLast = .ok (.dir dmode) ∧ maySearch proc dmode = true ∧
    fs.nodes path = some (.file mode content)

/-- Nothing is at `path`, below a parent directory that resolves and that the process
may search. -/
def NoFileAt (proc : Proc) (fs : FS) (path : Path) : Prop :=
  ∃ dmode, osStat proc fs path.dropLast = .ok (.dir dmode) ∧ maySearch proc dmode = true ∧
    fs.nodes path = none

/-- A file system in which `/data` is a regular file, not a directory. -/
def dataIsFileFS : FS :=
  ⟨fun p => if p = [] then some (.dir 0o755)
    else if p = ["data"] then some (.file 0o644 "not a directory".toList) else none⟩

/-- A file system holding only the root directory, mode `0755`. -/
def rootOnlyFS : FS :=
  ⟨fun p => if p = [] then some (.dir 0o755) else none⟩

/-- The privileged process. -/
def superuser : Proc := ⟨true⟩

/-- The file system `baseFS` with the given text in `/data/sessions.json`. -/
def fsWithRegistry (text : String) : FS :=
  baseFS.set demoStorage.path (.file 0o644 text.toList)

/-- A write that fails with `ENOSPC` after five bytes. -/
def writeFails : IOFaults := ⟨none, none, none, none, some (5, .ENOSPC)⟩

/-- The steps of `UpdateSession` that come before the file has been truncated, named
by the message the code wraps their error in. -/
def beforeTruncation (msg : String) : Prop :=
  msg = "create parent directory" ∨ msg = "open file" ∨ msg = "stat" ∨
    msg = "decode json" ∨ msg = "truncate file"

/-- A truncation that fails with `EPERM`. -/
def truncateFails : IOFaults := ⟨none, none, some .EPERM, none, none⟩

/-- The registry file holding one session. -/
def oneSessionFS : FS :=
  fsWithRegistry "\x7b\"+79001234567\":\x7b\"id\":\"first\"\x7d\x7d\n"

/-- The file system left by a login of a second identity whose write fails. -/
def brokenFS : FS :=
  match demoStorage.UpdateSession tokenCodec writeFails user oneSessionFS
      (utf8Encode "+79007654321".toList) (some ⟨"other".toList⟩) with
  | .ret ⟨fs, _⟩ => fs
  | .panicked _ => oneSessionFS

/-! ### What the decoder accepts, as a grammar -/

/-- Spec wording, "a mapping from identity strings to session records": the text, from
the opening quote of a key on, consists of members `"key" : session` separated by commas
and closed by a brace, white space being allowed around the colon, the comma and the
brace.  What follows the closing brace is not looked at. -/
inductive MembersText {S : Type} (codec : SessionCodec S) : List Char → Prop where
  | last (t1 key t2 t3 : List Char) (s : S) (t4 rest : List Char)
      (hkey : unquote t1 = some (key, t2)) (hcolon : skipSpace t2 = ':' :: t3)
      (hval : codec.decode t3 = .ok (s, t4)) (hclose : skipSpace t4 = '}' :: rest) :
      MembersText codec ('"' :: t1)
  | more (t1 key t2 t3 : List Char) (s : S) (t4 t5 : List Char)
      (hkey : unquote t1 = some (key, t2)) (hcolon : skipSpace t2 = ':' :: t3)
      (hval : codec.decode t3 = .ok (s, t4)) (hcomma : skipSpace t4 = ',' :: t5)
      (hrest : MembersText codec (skipSpace t5)) :
      MembersText codec ('"' :: t1)

/-- The text begins, after optional white space, with the literal `null` or with a
complete JSON object mapping strings to session records. -/
def BeginsWithRegistry {S : Type} (codec : SessionCodec S) (text : List Char) : Prop :=
  (∃ rest, skipSpace text = 'n' :: 'u' :: 'l' :: 'l' :: rest) ∨
  (∃ t, skipSpace text = '{' :: t ∧
    ((∃ rest, skipSpace t = '}' :: rest) ∨ MembersText codec (skipSpace t)))

/-! ## Package `time`: locations, `Date`, `Parse`

The calendar computations follow the Go standard library (`time/time.go`,
`time/format.go`, `time/zoneinfo.go`).  Go `int` values are integers; the one place
where Go computes in wrapping 64-bit arithmetic, the conversion from absolute to Unix
seconds, is modelled with the wrap. -/

/-- A `*time.Location`: its name, the offset (seconds east of UTC) in force before the
first transition, and the transitions `(when, offset)` in increasing order of their Unix
time `when`. -/
structure Location where
  (name : String)
  (firstOffset : Int)
  (tx : List (Int × Int))
  deriving DecidableEq, Repr

/-- The location `time.UTC`. -/
def UTC : Location := ⟨"UTC", 0, []⟩

/-- The function `time.FixedZone(name, offset)`. -/
def FixedZone (name : String) (offset : Int) : Location := ⟨name, offset, []⟩

/-- The constant `alpha` of `zoneinfo.go`: the beginning of time. -/
def alpha : Int := -(2 ^ 63)

/-- The constant `omega` of `zoneinfo.go`: the end of time. -/
def omega : Int := 2 ^ 63 - 1

/-- What `Location.lookup` returns: the offset in force and the interval
`[start, end)` of Unix times over which it is. -/
structure ZoneSpan where
  (offset : Int)
  (start : Int)
  (stop : Int)
  deriving DecidableEq, Repr

/-- The search of `Location.lookup` for the last transition not after `sec`. -/
def lookupFrom (sec : Int) : Int → Int → List (Int × Int) → ZoneSpan
  | offset, start, [] => ⟨offset, start, omega⟩
  | offset, start, (w, o) :: rest =>
    if sec < w then ⟨offset, start, w⟩ else lookupFrom sec o w rest

/-- The method `Location.lookup(sec)`. -/
def Location.lookup (l : Location) (sec : Int) : ZoneSpan :=
  lookupFrom sec l.firstOffset alpha l.tx

/-- A `time.Time`: Unix seconds, nanoseconds within the second, and the location used
for presentation.  Two times are the same instant when seconds and nanoseconds agree. -/
structure Time where
  (sec : Int)
  (nsec : Int)
  (loc : Location)
  deriving DecidableEq, Repr

/-- The instant of a time in nanoseconds since the Unix epoch, as `Time.UnixNano` would
give it without overflow. -/
def Time.unixNano (t : Time) : Int :=
  t.sec * 1000000000 + t.nsec

/-- The method `Time.Equal`: the same instant, whatever the locations. -/
def Time.Equal (t u : Time) : Bool :=
  decide (t.sec = u.sec ∧ t.nsec = u.nsec)

/-- The constant `absoluteZeroYear`. -/
def absoluteZeroYear : Int := -292277022399

/-- The sum `absoluteToInternal + internalToUnix`: Unix seconds of the absolute epoch. -/
def absoluteToUnix : Int := -9223371966579724800 + -62135596800

/-- Conversion to `int64` with wrap-around. -/
def wrapInt64 (x : Int) : Int :=
  (x + 2 ^ 63) % 2 ^ 64 - 2 ^ 63

/-- The function `isLeap`. -/
def isLeap (year : Int) : Bool :=
  year % 4 == 0 && (year % 100 != 0 || year % 400 == 0)

/-- The table `daysBefore`: days in a non-leap year before month `m + 1`. -/
def daysBefore (m : Int) : Int :=
  ([0, 31, 59, 90, 120, 151, 181, 212, 243, 273, 304, 334, 365] : List Int).getD m.toNat 0

/-- The function `daysIn(month, year)`. -/
def daysIn (month year : Int) : Int :=
  if month = 2 ∧ isLeap year = true then 29 else daysBefore month - daysBefore (month - 1)

/-- The function `norm(hi, lo, base)`: carry `lo` into `hi` so that `0 ≤ lo < base`. -/
def norm (hi lo base : Int) : Int × Int :=
  let n1 := if lo < 0 then (-lo - 1) / base + 1 else 0
  let hi1 := hi - n1
  let lo1 := lo + n1 * base
  let n2 := if lo1 ≥ base then lo1 / base else 0
  (hi1 + n2, lo1 - n2 * base)

/-- The function `daysSinceEpoch(year)`: days from the absolute epoch to January 1 of
`year`, by 400-, 100- and 4-year cycles. -/
def daysSinceEpoch (year : Int) : Int :=
  let y := year - absoluteZeroYear
  let n400 := y / 400
  let y1 := y - 400 * n400
  let n100 := y1 / 100
  let y2 := y1 - 100 * n100
  let n4 := y2 / 4
  let y3 := y2 - 4 * n4
  146097 * n400 + 36524 * n100 + 1461 * n4 + 365 * y3

/-- The last step of `time.Date`: `unix` is the wanted clock reading taken as UTC; look
up the zone offset in force at that time and subtract it, and when the result falls
outside the span of that zone, subtract the offset in force at the result instead. -/
def zoneAdjust (loc : Location) (unix : Int) : Int :=
  let span := loc.lookup unix
  if span.offset ≠ 0 then
    let utc := unix - span.offset
    if utc < span.start ∨ utc ≥ span.stop then unix - (loc.lookup utc).offset
    else unix - span.offset
  else unix

/-- The function `time.Date`: the instant at which the clock of `loc` shows the given
date and time, fields out of range being carried over. -/
def Date (year month day hour min sec nsec : Int) (loc : Location) : Time :=
  let (year, m) := norm year (month - 1) 12
  let month := m + 1
  let (sec, nsec) := norm sec nsec 1000000000
  let (min, sec) := norm min sec 60
  let (hour, min) := norm hour min 60
  let (day, hour) := norm day hour 24
  let d := daysSinceEpoch year + daysBefore (month - 1) +
    (if isLeap year = true ∧ month ≥ 3 then 1 else 0) + (day - 1)
  let abs := d * 86400 + (hour * 3600 + min * 60 + sec)
  let unix := wrapInt64 (wrapInt64 abs + absoluteToUnix)
  ⟨zoneAdjust loc unix, nsec, loc⟩

/-! ### `time.Parse` -/

/-- A decimal digit. -/
def isDigitChar (c : Char) : Bool :=
  '0' ≤ c && c ≤ '9'

/-- The value of a decimal digit. -/
def digitVal (c : Char) : Int :=
  (c.toNat : Int) - 48

/-- The function `getnum(s, fixed)`: one or two digits, exactly two when `fixed`. -/
def getnum (s : List Char) (fixed : Bool) : Option (Int × List Char) :=
  match s with
  | [] => none
  | c0 :: s1 =>
    if isDigitChar c0 then
      match s1 with
      | [] => if fixed then none else some (digitVal c0, s1)
      | c1 :: s2 =>
        if isDigitChar c1 then some (digitVal c0 * 10 + digitVal c1, s2)
        else if fixed then none else some (digitVal c0, s1)
    else none

/-- The function `leadingInt`: the number written by the leading digits and the rest.
Its overflow guard cannot trigger on the at most nine digits it is given here. -/
def leadingInt : List Char → Int → Int × List Char
  | [], x => (x, [])
  | c :: s, x => if isDigitChar c then leadingInt s (x * 10 + digitVal c) else (x, c :: s)

/-- The function `atoi`: an optional sign and digits up to the end of the text. -/
def atoi (s : List Char) : Option Int :=
  match s with
  | c :: r =>
    if c = '-' then
      match leadingInt r 0 with
      | (q, []) => some (-q)
      | _ => none
    else if c = '+' then
      match leadingInt r 0 with
      | (q, []) => some q
      | _ => none
    else
      match leadingInt (c :: r) 0 with
      | (q, []) => some q
      | _ => none
  | [] => some 0

/-- The function `skip(value, prefix)` for a prefix without spaces. -/
def skip : List Char → List Char → Option (List Char)
  | value, [] => some value
  | [], _ :: _ => none
  | v :: value, p :: pre => if v = p then skip value pre else none

/-- The function `commaOrPeriod`. -/
def commaOrPeriod (c : Char) : Bool :=
  c = '.' || c = ','

/-- The function `parseNanoseconds(value, nbytes)` on the digits after the separator:
at most nine digits count, and they are scaled to nanoseconds. -/
def parseNanoseconds (digits : List Char) : Option Int :=
  match atoi (digits.take 9) with
  | none => none
  | some ns => if ns < 0 then none else some (ns * 10 ^ (9 - (digits.take 9).length))

/-- The layout elements (`std...` constants) that occur in the two layouts. -/
inductive Std where
  | stdLongYear
  | stdZeroMonth
  | stdZeroDay
  | stdHour
  | stdZeroMinute
  | stdZeroSecond
  | stdFracSecond9 (digits : Nat)
  | stdNumColonTZ
  deriving DecidableEq, Repr

/-- The fields `parse` collects, with their initial values. -/
structure ParseState where
  (year : Int)
  (month : Int)
  (day : Int)
  (hour : Int)
  (min : Int)
  (sec : Int)
  (nsec : Int)
  (zoneOffset : Int)
  deriving DecidableEq, Repr

/-- The initial values of the fields in `parse`. -/
def ParseState.init : ParseState := ⟨0, -1, -1, 0, 0, 0, 0, -1⟩

/-- A `*time.ParseError`. -/
def parseError (msg : String) : GoError := GoError.timeParse msg

/-- One iteration of the loop of `parse` for the layout element `std`, the following
element being `next`. -/
def parseStd (std : Std) (next : Option Std) (st : ParseState) (value : List Char) :
    Except GoError (ParseState × List Char) :=
  match std with
  | .stdLongYear =>
    match value with
    | c0 :: c1 :: c2 :: c3 :: rest =>
      if isDigitChar c0 then
        match atoi [c0, c1, c2, c3] with
        | some year => .ok ({ st with year := year }, rest)
        | none => .error (parseError "cannot parse year")
      else .error (parseError "cannot parse year")
    | _ => .error (parseError "cannot parse year")
  | .stdZeroMonth =>
    match getnum value true with
    | none => .error (parseError "cannot parse month")
    | some (month, rest) =>
      if month ≤ 0 ∨ 12 < month then .error (parseError "month out of range")
      else .ok ({ st with month := month }, rest)
  | .stdZeroDay =>
    match getnum value true with
    | none => .error (parseError "cannot parse day")
    | some (day, rest) => .ok ({ st with day := day }, rest)
  | .stdHour =>
    match getnum value false with
    | none => .error (parseError "cannot parse hour")
    | some (hour, rest) =>
      if hour < 0 ∨ 24 ≤ hour then .error (parseError "hour out of range")
      else .ok ({ st with hour := hour }, rest)
  | .stdZeroMinute =>
    match getnum value true with
    | none => .error (parseError "cannot parse minute")
    | some (min, rest) =>
      if min < 0 ∨ 60 ≤ min then .error (parseError "minute out of range")
      else .ok ({ st with min := min }, rest)
  | .stdZeroSecond =>
    match getnum value true with
    | none => .error (parseError "cannot parse second")
    | some (sec, rest) =>
      if sec < 0 ∨ 60 ≤ sec then .error (parseError "second out of range")
      else
        match next, rest with
        | some (.stdFracSecond9 _), _ => .ok ({ st with sec := sec }, rest)
        | _, sep :: c :: rest1 =>
          if commaOrPeriod sep && isDigitChar c then
            match parseNanoseconds ((c :: rest1).takeWhile isDigitChar) with
            | none => .error (parseError "cannot parse fractional second")
            | some nsec =>
              .ok ({ st with sec := sec, nsec := nsec }, (c :: rest1).dropWhile isDigitChar)
          else .ok ({ st with sec := sec }, rest)
        | _, _ => .ok ({ st with sec := sec }, rest)
  | .stdFracSecond9 _ =>
    match value with
    | sep :: c :: rest1 =>
      if commaOrPeriod sep && isDigitChar c then
        match parseNanoseconds ((c :: rest1).takeWhile isDigitChar) with
        | none => .error (parseError "cannot parse fractional second")
        | some nsec => .ok ({ st with nsec := nsec }, (c :: rest1).dropWhile isDigitChar)
      else .ok (st, value)
    | _ => .ok (st, value)
  | .stdNumColonTZ =>
    match value with
    | sign :: h0 :: h1 :: colon :: m0 :: m1 :: rest =>
      if colon = ':' then
        match getnum [h0, h1] true, getnum [m0, m1] true with
        | some (hr, _), some (mm, _) =>
          if mm > 60 then .error (parseError "time zone offset minute out of range")
          else if hr > 24 then .error (parseError "time zone offset hour out of range")
          else if sign = '+' then .ok ({ st with zoneOffset := (hr * 60 + mm) * 60 }, rest)
          else if sign = '-' then .ok ({ st with zoneOffset := -((hr * 60 + mm) * 60) }, rest)
          else .error (parseError "cannot parse time zone offset")
        | _, _ => .error (parseError "cannot parse time zone offset")
      else .error (parseError "cannot parse time zone offset")
    | _ => .error (parseError "cannot parse time zone offset")

/-- The end of `parse`: defaults for a missing month or day, validation of the day of
the month, and the choice of the location.  With an offset in the text the time is
computed in UTC and moved by the offset, and it is presented in the local location when
that has this offset at that instant, otherwise in a fixed zone; without one the fields
are read in the default location. -/
def parseFinish (st : ParseState) (defaultLocation localLocation : Location) :
    Except GoError Time :=
  let month := if st.month < 0 then 1 else st.month
  let day := if st.day < 0 then 1 else st.day
  if day < 1 ∨ day > daysIn month st.year then .error (parseError "day out of range")
  else if st.zoneOffset ≠ -1 then
    let t := Date st.year month day st.hour st.min st.sec st.nsec UTC
    let sec := t.sec - st.zoneOffset
    if (localLocation.lookup sec).offset = st.zoneOffset then .ok ⟨sec, t.nsec, localLocation⟩
    else .ok ⟨sec, t.nsec, FixedZone "" st.zoneOffset⟩
  else .ok (Date st.year month day st.hour st.min st.sec st.nsec defaultLocation)

/-- The loop of `parse` over the elements of a layout, each with the literal text that
precedes it; after the last element the value must be used up. -/
def parseChunks (defaultLocation localLocation : Location) :
    List (List Char × Std) → ParseState → List Char → Except GoError Time
  | [], st, value =>
    if value = [] then parseFinish st defaultLocation localLocation
    else .error (parseError "extra text")
  | (pre, std) :: rest, st, value =>
    match skip value pre with
    | none => .error (parseError "cannot parse literal")
    | some value1 =>
      match parseStd std (rest.head?.map Prod.snd) st value1 with
      | .error err => .error err
      | .ok (st1, value2) => parseChunks defaultLocation localLocation rest st1 value2

/-- The layout `"2006-01-02T15:04:05.999-07:00"` as `nextStdChunk` splits it. -/
def layoutDateTimeMilliOffset : List (List Char × Std) :=
  [([], .stdLongYear), (['-'], .stdZeroMonth), (['-'], .stdZeroDay), (['T'], .stdHour),
   ([':'], .stdZeroMinute), ([':'], .stdZeroSecond), ([], .stdFracSecond9 3),
   ([], .stdNumColonTZ)]

/-- The layout `"2006-01-02"` as `nextStdChunk` splits it. -/
def layoutDate : List (List Char × Std) :=
  [([], .stdLongYear), (['-'], .stdZeroMonth), (['-'], .stdZeroDay)]

/-- The function `time.Parse(layout, value)`: default location UTC, local location the
machine's. -/
def timeParse (localLocation : Location) (layout : List (List Char × Std))
    (value : List Char) : Except GoError Time :=
  parseChunks UTC localLocation layout ParseState.init value

/-- The function `time.ParseInLocation(layout, value, loc)`. -/
def timeParseInLocation (layout : List (List Char × Std)) (value : List Char)
    (loc : Location) : Except GoError Time :=
  parseChunks loc loc layout ParseState.init value

/-! ## `invest/dto.go`: the two date decoders -/

/-- The call `json.Unmarshal(data, &str)` for a string variable holding `""`: a string
literal is unquoted, `null` leaves the variable alone, anything else is an error. -/
def jsonUnmarshalString (data : List Char) : Except GoError (List Char) :=
  match skipSpace data with
  | c :: t =>
    if c = '"' then
      match unquote t with
      | some (s, rest) => if skipSpace rest = [] then .ok s else .error .jsonDecode
      | none => .error .jsonDecode
    else if c = 'n' then
      match t with
      | u :: l1 :: l2 :: rest =>
        if u = 'u' ∧ l1 = 'l' ∧ l2 = 'l' ∧ skipSpace rest = [] then .ok []
        else .error .jsonDecode
      | _ => .error .jsonDecode
    else .error .jsonDecode
  | [] => .error .jsonDecode

/-- What the decoders depend on outside the program: the machine's local time zone and
the zone database behind `time.LoadLocation`. -/
structure TimeEnv where
  (localLocation : Location)
  (loadLocation : String → Except GoError Location)

/-- `DateTimeMilliOffset.UnmarshalJSON(data)`: the decoded time, or the error. -/
def DateTimeMilliOffset.UnmarshalJSON (env : TimeEnv) (data : List Char) :
    Except GoError Time :=
  match jsonUnmarshalString data with
  | .error err => .error err
  | .ok str =>
    match timeParse env.localLocation layoutDateTimeMilliOffset str with
    | .error err => .error err
    | .ok value => .ok value

/-- The lazy value `dateLocation`: `time.LoadLocation("Europe/Moscow")`, computed on the
first `Get` and replayed afterwards. -/
def dateLocation (env : TimeEnv) : Except GoError Location :=
  env.loadLocation "Europe/Moscow"

/-- `Date.UnmarshalJSON(data)`: the decoded time, or the error. -/
def Date.UnmarshalJSON (env : TimeEnv) (data : List Char) : Except GoError Time :=
  match dateLocation env with
  | .error err => .error (.wrapped err "load location")
  | .ok location =>
    match jsonUnmarshalString data with
    | .error err => .error err
    | .ok str =>
      match timeParseInLocation layoutDate str location with
      | .error err => .error err
      | .ok value => .ok value

/-! ### Spec wording: timestamps as text and the instants they denote -/

/-- The decimal digit with value `d`. -/
def digitChar (d : Nat) : Char := Char.ofNat (48 + d % 10)

/-- A number below 100 written with two digits. -/
def pad2 (n : Nat) : List Char := [digitChar (n / 10), digitChar n]

/-- A number below 1000 written with three digits. -/
def pad3 (n : Nat) : List Char := [digitChar (n / 100), digitChar (n / 10), digitChar n]

/-- A number below 10000 written with four digits. -/
def pad4 (n : Nat) : List Char :=
  [digitChar (n / 1000), digitChar (n / 100), digitChar (n / 10), digitChar n]

/-- The text `YYYY-MM-DDTHH:MM:SS.mmm+hh:mm` (or `-hh:mm` when `west`). -/
def offsetTimestampText (year month day hour min sec milli : Nat) (west : Bool)
    (offHour offMin : Nat) : List Char :=
  pad4 year ++ '-' :: pad2 month ++ '-' :: pad2 day ++ 'T' :: pad2 hour ++ ':' :: pad2 min ++
    ':' :: pad2 sec ++ '.' :: pad3 milli ++ (if west then '-' else '+') :: pad2 offHour ++
    ':' :: pad2 offMin

/-- The text `YYYY-MM-DD`. -/
def dateText (year month day : Nat) : List Char :=
  pad4 year ++ '-' :: pad2 month ++ '-' :: pad2 day

/-- A text as a JSON string literal, no character of it needing an escape. -/
def jsonQuote (text : List Char) : List Char :=
  '"' :: (text ++ ['"'])

/-- Leap years of the Gregorian calendar. -/
def isLeapYear (y : Nat) : Bool :=
  y % 4 == 0 && (y % 100 != 0 || y % 400 == 0)

/-- Days of a year. -/
def yearLength (y : Nat) : Nat :=
  if isLeapYear y then 366 else 365

/-- Days of a month. -/
def monthLength (y m : Nat) : Nat :=
  if m = 2 then (if isLeapYear y then 29 else 28)
  else if m = 4 ∨ m = 6 ∨ m = 9 ∨ m = 11 then 30
  else 31

/-- Days from January 1 of year 0 to January 1 of year `y`, counted year by year. -/
def daysBeforeYear : Nat → Nat
  | 0 => 0
  | y + 1 => daysBeforeYear y + yearLength y

/-- Days of year `y` in its first `m` months, counted month by month. -/
def daysInMonths (y : Nat) : Nat → Nat
  | 0 => 0
  | m + 1 => daysInMonths y m + monthLength y (m + 1)

/-- A valid calendar date. -/
def ValidDate (year month day : Nat) : Prop :=
  year ≤ 9999 ∧ 1 ≤ month ∧ month ≤ 12 ∧ 1 ≤ day ∧ day ≤ monthLength year month

instance ValidDate.decidable (year month day : Nat) : Decidable (ValidDate year month day) :=
  inferInstanceAs (Decidable (_ ∧ _))

/-- A valid time of day. -/
def ValidClock (hour min sec : Nat) : Prop :=
  hour ≤ 23 ∧ min ≤ 59 ∧ sec ≤ 59

instance ValidClock.decidable (hour min sec : Nat) : Decidable (ValidClock hour min sec) :=
  inferInstanceAs (Decidable (_ ∧ _))

/-- Days from 1970-01-01 to the given date. -/
def civilDays (year month day : Nat) : Int :=
  (daysBeforeYear year : Int) + daysInMonths year (month - 1) + (day - 1) -
    daysBeforeYear 1970

/-- Seconds from 1970-01-01T00:00:00 to the given civil date and time, read as UTC. -/
def civilSeconds (year month day hour min sec : Nat) : Int :=
  civilDays year month day * 86400 + hour * 3600 + min * 60 + sec

/-- The UTC offset written `+hh:mm` or `-hh:mm`, in seconds east of UTC. -/
def offsetSeconds (west : Bool) (offHour offMin : Nat) : Int :=
  if west then -(((offHour : Int) * 60 + offMin) * 60) else ((offHour : Int) * 60 + offMin) * 60

/-! ### `time.Time.Format` -/

/-- The sum `unixToInternal + internalToAbsolute`: absolute seconds of the Unix epoch. -/
def unixToAbsolute : Int := 62135596800 + 9223371966579724800

/-- The method `Time.locabs` for a time presented in its own location: the zone offset
in force and the absolute seconds of the clock reading, a `uint64`. -/
def Time.locabs (t : Time) : Int × Int :=
  let offset := (t.loc.lookup t.sec).offset
  (offset, (t.sec + offset + unixToAbsolute) % 2 ^ 64)

/-- The month and day of the `yday`-th day (from 0) of a year, as in `absDate`: the
leap day is set apart, then the month is estimated as `day / 31` and corrected by the
table `daysBefore`. -/
def monthDay (leap : Bool) (yday : Int) : Int × Int :=
  if leap ∧ yday = 31 + 29 - 1 then (2, 29)
  else
    let day := if leap ∧ yday > 31 + 29 - 1 then yday - 1 else yday
    let month := day / 31
    let stop := daysBefore (month + 1)
    if day ≥ stop then (month + 1 + 1, day - stop + 1)
    else (month + 1, day - daysBefore month + 1)

/-- The first half of `absDate`: the number of years a day count holds, by 400-, 100-,
4- and 1-year cycles, and the day within the year.  The last day of a cycle would land
in a cycle too many, which `n - n / 4` (`n -= n >> 2`) takes back. -/
def daysToYear (d : Int) : Int × Int :=
  let n400 := d / 146097
  let d1 := d - 146097 * n400
  let n100 := d1 / 36524 - d1 / 36524 / 4
  let d2 := d1 - 36524 * n100
  let n4 := d2 / 1461
  let d3 := d2 - 1461 * n4
  let n := d3 / 365 - d3 / 365 / 4
  (400 * n400 + 100 * n100 + 4 * n4 + n, d3 - 365 * n)

/-- The function `absDate(abs, true)`: year, month and day of the absolute time `abs`. -/
def absDate (abs : Int) : Int × Int × Int :=
  let yd := daysToYear (abs / 86400)
  let year := yd.1 + absoluteZeroYear
  let md := monthDay (isLeap year) yd.2
  (year, md.1, md.2)

/-- The function `absClock(abs)`: hour, minute and second within the day. -/
def absClock (abs : Int) : Int × Int × Int :=
  let sec := abs % 86400
  let hour := sec / 3600
  let sec1 := sec - hour * 3600
  let min := sec1 / 60
  (hour, min, sec1 - min * 60)

/-- The decimal digits of `u`, the last one first; a `uint` has at most twenty. -/
def digitsRev : Nat → Nat → List Char
  | 0, _ => []
  | fuel + 1, u => if u < 10 then [digitChar u] else digitChar u :: digitsRev fuel (u / 10)

/-- The function `appendInt(b, x, width)`: the decimal form of `x`, padded with zeros
to `width` digits, after a minus sign when `x` is negative. -/
def appendInt (x : Int) (width : Nat) : List Char :=
  let digits := (digitsRev 20 x.natAbs).reverse
  (if x < 0 then ['-'] else []) ++ List.replicate (width - digits.length) '0' ++ digits

/-- The function `appendNano(b, nanosec, std)` for `stdFracSecond9` with `n` digits:
nothing for a zero fraction; otherwise a period and the first `n` of the nine digits,
trailing zeros removed, the period too when no digit is left. -/
def appendNano (nanosec : Int) (n : Nat) : List Char :=
  if n = 0 ∨ nanosec = 0 then []
  else
    let digits := ((appendInt nanosec 9).take n).reverse.dropWhile (fun c => c = '0')
    if digits = [] then [] else '.' :: digits.reverse

/-- Integer division of Go: the quotient truncated toward zero. -/
def goDiv (a b : Int) : Int :=
  if a < 0 then -((-a) / b) else a / b

/-- What `Time.Format` appends for one layout element. -/
def formatStd (std : Std) (t : Time) : List Char :=
  let date := absDate t.locabs.2
  let clock := absClock t.locabs.2
  match std with
  | .stdLongYear => appendInt date.1 4
  | .stdZeroMonth => appendInt date.2.1 2
  | .stdZeroDay => appendInt date.2.2 2
  | .stdHour => appendInt clock.1 2
  | .stdZeroMinute => appendInt clock.2.1 2
  | .stdZeroSecond => appendInt clock.2.2 2
  | .stdFracSecond9 n => appendNano t.nsec n
  | .stdNumColonTZ =>
    let zone := goDiv t.locabs.1 60
    (if zone < 0 then '-' else '+') ::
      (appendInt (goDiv zone.natAbs 60) 2 ++ ':' :: appendInt ((zone.natAbs : Int) % 60) 2)

/-- The method `Time.Format(layout)`: the literal text and the elements of the layout in
turn. -/
def Time.Format (t : Time) : List (List Char × Std) → List Char
  | [] => []
  | (pre, std) :: rest => pre ++ formatStd std t ++ Time.Format t rest

/-- Re-encoding of a decoded offset timestamp: the JSON string of
`Time().Format("2006-01-02T15:04:05.999-07:00")`. -/
def reencodeDateTimeMilliOffset (t : Time) : List Char :=
  jsonQuote (t.Format layoutDateTimeMilliOffset)

/-- Re-encoding of a decoded calendar date: the JSON string of
`Time().Format("2006-01-02")`, the time being presented in the fixed time zone. -/
def reencodeDate (t : Time) : List Char :=
  jsonQuote (t.Format layoutDate)

/-- Days of a month, the year being leap or not. -/
def monthLengthOf (leap : Bool) (m : Nat) : Nat :=
  if m = 2 then (if leap then 29 else 28)
  else if m = 4 ∨ m = 6 ∨ m = 9 ∨ m = 11 then 30
  else 31

/-- Days of a year before its month `m`, the year being leap or not. -/
def daysBeforeMonthOf (leap : Bool) (m : Nat) : Int :=
  daysBefore ((m : Int) - 1) + (if leap = true ∧ (m : Int) ≥ 3 then 1 else 0)

/-- The check of `monthDay` against the lengths of the months, for every day of a leap
and of a common year. -/
def monthDayCheck : Bool :=
  [true, false].all fun leap => (List.range 13).all fun m => (List.range 32).all fun d =>
    !(decide (1 ≤ m) && decide (1 ≤ d) && decide (d ≤ monthLengthOf leap m)) ||
      decide (monthDay leap (daysBeforeMonthOf leap m + (d : Int) - 1) = ((m : Int), (d : Int)))

/-! ### The time zone `Europe/Moscow` -/

/-- The location `Europe/Moscow` as `time.LoadLocation` reads it from the IANA time zone
database (release 2023c): local mean time, 2:30:17 east of UTC, before 1880, then the
transitions with the offset in force from each of them on. -/
def europeMoscow : Location :=
  ⟨"Europe/Moscow", 9017,
    [(-2840149817, 9017), (-1688265017, 9079), (-1656819079, 12679), (-1641353479, 9079),
    (-1627965079, 16279), (-1618716679, 12679), (-1596429079, 16279), (-1593820800, 14400),
    (-1589860800, 10800), (-1542427200, 14400), (-1539493200, 18000), (-1525323600, 14400),
    (-1522728000, 10800), (-1491188400, 7200), (-1247536800, 10800), (354920400, 14400),
    (370728000, 10800), (386456400, 14400), (402264000, 10800), (417992400, 14400),
    (433800000, 10800), (449614800, 14400), (465346800, 10800), (481071600, 14400),
    (496796400, 10800), (512521200, 14400), (528246000, 10800), (543970800, 14400),
    (559695600, 10800), (575420400, 14400), (591145200, 10800), (606870000, 14400),
    (622594800, 10800), (638319600, 14400), (654649200, 10800), (670374000, 10800),
    (686102400, 7200), (695779200, 10800), (701823600, 14400), (717548400, 10800),
    (733273200, 14400), (748998000, 10800), (764722800, 14400), (780447600, 10800),
    (796172400, 14400), (811897200, 10800), (828226800, 14400), (846370800, 10800),
    (859676400, 14400), (877820400, 10800), (891126000, 14400), (909270000, 10800),
    (922575600, 14400), (941324400, 10800), (954025200, 14400), (972774000, 10800),
    (985474800, 14400), (1004223600, 10800), (1017529200, 14400), (1035673200, 10800),
    (1048978800, 14400), (1067122800, 10800), (1080428400, 14400), (1099177200, 10800),
    (1111878000, 14400), (1130626800, 10800), (1143327600, 14400), (1162076400, 10800),
    (1174777200, 14400), (1193526000, 10800), (1206831600, 14400), (1224975600, 10800),
    (1238281200, 14400), (1256425200, 10800), (1269730800, 14400), (1288479600, 10800),
    (1301180400, 14400), (1414274400, 10800)]⟩

/-- An environment whose zone database knows `Europe/Moscow`, on a machine whose local
time zone is `localLocation`. -/
def moscowEnv (localLocation : Location) : TimeEnv :=
  ⟨localLocation, fun name =>
    if name = "Europe/Moscow" then .ok europeMoscow else .error (.other "unknown time zone")⟩

/-- The clock reading of a time in its location, in civil seconds: what `Time.Date` and
`Time.Clock` decompose. -/
def Time.localSeconds (t : Time) : Int :=
  t.sec + (t.loc.lookup t.sec).offset

/-- The transitions of a location are in increasing order of time. -/
def Location.Sorted (l : Location) : Prop :=
  l.tx.Pairwise (fun a b => a.1 < b.1)

/-- Every offset of a location is positive and below a day. -/
def Location.EastOfUTC (l : Location) : Prop :=
  (0 < l.firstOffset ∧ l.firstOffset < 86400) ∧ ∀ p ∈ l.tx, 0 < p.2 ∧ p.2 < 86400

/-- By how much the clock of Moscow is past midnight at the instant `time.Date` gives
for midnight of a day, the day being counted from 1970-01-01: on the six days whose
midnight the clock skipped, it is the length of the skip. -/
def moscowSkipOfDay (k : Int) : Int :=
  if k = -19540 then 62
  else if k = -14439 ∨ k = 4108 ∨ k = 4473 ∨ k = 4838 ∨ k = 5204 then 3600
  else 0

/-- The same for a calendar date: 62 seconds on 1916-07-03, an hour on 1930-06-21 and on
April 1 of 1981 to 1984, nothing on any other date. -/
def moscowMidnightSkip (year month day : Nat) : Int :=
  if year = 1916 ∧ month = 7 ∧ day = 3 then 62
  else if (year = 1930 ∧ month = 6 ∧ day = 21) ∨
      (1981 ≤ year ∧ year ≤ 1984 ∧ month = 4 ∧ day = 1) then 3600
  else 0

/-- The instant `time.Date` gives in Moscow for midnight of day `k` shows the clock at
midnight of that day plus the skip. -/
def moscowDayOK (k : Int) : Bool :=
  decide (zoneAdjust europeMoscow (86400 * k) +
    (europeMoscow.lookup (zoneAdjust europeMoscow (86400 * k))).offset =
      86400 * k + moscowSkipOfDay k)

/-- The days whose midnight, taken as UTC, falls less than the new offset after a
transition of Moscow: the only days on which `time.Date` has to look twice. -/
def moscowCandidateDays : List Int :=
  europeMoscow.tx.map fun p => (p.1 + p.2 - 1) / 86400

/-! ### Spec wording: what the decoders return, and re-encoding -/

/-- The time `time.Parse` returns for a civil date and time written with an offset: the
instant is the civil time minus the offset, and it is presented in the local location
when that has this offset at the instant, otherwise in a fixed zone. -/
def offsetTime (localLocation : Location) (year month day hour min sec : Nat) (nsec : Int)
    (offset : Int) : Time :=
  ⟨civilSeconds year month day hour min sec - offset, nsec,
    if (localLocation.lookup (civilSeconds year month day hour min sec - offset)).offset = offset
    then localLocation else FixedZone "" offset⟩

/-- The `k` low decimal digits of `u`, the last one first. -/
def lowDigits : Nat → Nat → List Char
  | 0, _ => []
  | k + 1, u => digitChar u :: lowDigits k (u / 10)

/-- The fraction the layout element `.999` writes for `ms` milliseconds: nothing for
zero, otherwise a period and the three digits without trailing zeros. -/
def fracText (ms : Nat) : List Char :=
  let digits := (pad3 ms).reverse.dropWhile (fun c => c = '0')
  if digits = [] then [] else '.' :: digits.reverse

/-- The check that the written fraction of `ms` milliseconds is empty for zero, and
otherwise a period and digits that `parseNanoseconds` reads as `ms` milliseconds, no
character of it needing an escape in JSON. -/
def fracCheck (ms : Nat) : Bool :=
  match fracText ms with
  | [] => ms == 0
  | sep :: digits =>
    sep == '.' && !digits.isEmpty && digits.all isDigitChar &&
      parseNanoseconds digits == some ((ms : Int) * 1000000) &&
      digits.all (fun c => appendStringChar c == [c])

/-- The offset timestamp `Time.Format` writes: as `offsetTimestampText`, with the
fraction as the layout element `.999` writes it. -/
def formattedTimestampText (year month day hour min sec milli : Nat) (west : Bool)
    (offHour offMin : Nat) : List Char :=
  pad4 year ++ '-' :: pad2 month ++ '-' :: pad2 day ++ 'T' :: pad2 hour ++ ':' :: pad2 min ++
    ':' :: pad2 sec ++ fracText milli ++ (if west then '-' else '+') :: pad2 offHour ++
    ':' :: pad2 offMin

/-! ## Theorems: `authorizer.GetConfirmationCode` -/

theorem readString_line (line rest : List Char) (h : '\n' ∉ line) :
    readString '\n' (line ++ '\n' :: rest) = (line ++ ['\n'], none) := by
  induction line with
  | nil => simp [readString]
  | cons c cs ih =>
    have hc : c ≠ '\n' := fun e => h (by simp [e])
    have hcs : '\n' ∉ cs := fun e => h (by simp [e])
    simp [readString, hc, ih hcs]

theorem dropWhile_decomp (p : Char → Bool) (s : List Char) :
    ∃ pre, s = pre ++ s.dropWhile p ∧ (∀ c ∈ pre, p c = true) ∧
      (∀ c, (s.dropWhile p).head? = some c → p c = false) := by
  induction s with
  | nil => exact ⟨[], by simp⟩
  | cons a t ih =>
    by_cases ha : p a = true
    · obtain ⟨pre, h1, h2, h3⟩ := ih
      refine ⟨a :: pre, ?_, ?_, ?_⟩
      · simp only [List.dropWhile_cons, ha, if_true, List.cons_append]
        exact congrArg (List.cons a) h1
      · intro c hc
        rcases List.mem_cons.mp hc with rfl | hc
        · exact ha
        · exact h2 c hc
      · simpa only [List.dropWhile_cons, ha, if_true] using h3
    · have hd : List.dropWhile p (a :: t) = a :: t := by
        simp [List.dropWhile_cons, ha]
      refine ⟨[], ?_, ?_, ?_⟩
      · rw [hd]
        rfl
      · intro c hc
        cases hc
      · intro c hc
        rw [hd] at hc
        simp only [List.head?_cons, Option.some.injEq] at hc
        subst hc
        simpa using ha

/-- Characterisation of `strings.Trim` with an ASCII cutset: the result is the input
with a prefix and a suffix of cutset characters removed, and neither its first nor its
last character is in the cutset. -/
theorem stringsTrim_spec (s cutset : List Char) (hc : cutset ≠ []) :
    ∃ pre suf, s = pre ++ stringsTrim s cutset ++ suf ∧
      (∀ c ∈ pre, c ∈ cutset) ∧ (∀ c ∈ suf, c ∈ cutset) ∧
      (∀ c, (stringsTrim s cutset).head? = some c → c ∉ cutset) ∧
      (∀ c, (stringsTrim s cutset).getLast? = some c → c ∉ cutset) := by
  by_cases hs : s = []
  · subst hs
    exact ⟨[], [], by simp [stringsTrim]⟩
  · have hdef : stringsTrim s cutset = trimLeftASCII (trimRightASCII s cutset) cutset := by
      simp [stringsTrim, hs, hc]
    rw [hdef]
    obtain ⟨sufr, hr1, hr2, hr3⟩ :=
      dropWhile_decomp (fun c => decide (c ∈ cutset)) s.reverse
    obtain ⟨pre, hl1, hl2, hl3⟩ :=
      dropWhile_decomp (fun c => decide (c ∈ cutset)) (trimRightASCII s cutset)
    have hs1 : s = trimRightASCII s cutset ++ sufr.reverse := by
      have := congrArg List.reverse hr1
      simpa [trimRightASCII] using this
    refine ⟨pre, sufr.reverse, ?_, ?_, ?_, ?_, ?_⟩
    · unfold trimLeftASCII
      rw [← hl1]
      exact hs1
    · intro c hcm
      simpa using hl2 c hcm
    · intro c hcm
      simpa using hr2 c (List.mem_reverse.mp hcm)
    · intro c hcm
      simpa [trimLeftASCII] using hl3 c hcm
    · intro c hcm
      -- the last character of the result is the last character of the right-trimmed text
      have hne : trimLeftASCII (trimRightASCII s cutset) cutset ≠ [] := by
        intro e
        rw [e] at hcm
        simp at hcm
      have hlast : (trimRightASCII s cutset).getLast? = some c := by
        have h2 : trimRightASCII s cutset =
            pre ++ trimLeftASCII (trimRightASCII s cutset) cutset := hl1
        rw [h2, List.getLast?_append_of_ne_nil _ hne]
        exact hcm
      have hhead : (s.reverse.dropWhile (fun c => decide (c ∈ cutset))).head? = some c := by
        have := hlast
        simpa [trimRightASCII, List.getLast?_reverse] using this
      simpa using hr3 c hhead

/-- C6 (amended): for every stdin content whose first line ends in a newline,
`GetConfirmationCode` returns no error and the line (newline included) with a prefix
and a suffix of characters of the cutset space, newline, tab, vertical tab removed;
the interior is untouched and the code neither starts nor ends with a cutset
character.  Characters outside the cutset, such as a carriage return, are kept. -/
theorem GetConfirmationCode_trims_cutset (phone line rest : List Char)
    (h : '\n' ∉ line) :
    (GetConfirmationCode phone (line ++ '\n' :: rest)).err = none ∧
    ∃ pre suf,
      line ++ ['\n'] = pre ++ (GetConfirmationCode phone (line ++ '\n' :: rest)).code ++ suf ∧
      (∀ c ∈ pre, c ∈ confirmationCutset) ∧ (∀ c ∈ suf, c ∈ confirmationCutset) ∧
      (∀ c, (GetConfirmationCode phone (line ++ '\n' :: rest)).code.head? = some c →
        c ∉ confirmationCutset) ∧
      (∀ c, (GetConfirmationCode phone (line ++ '\n' :: rest)).code.getLast? = some c →
        c ∉ confirmationCutset) := by
  have hcode : GetConfirmationCode phone (line ++ '\n' :: rest) =
      ⟨"Enter confirmation code for ".toList ++ phone ++ ": ".toList,
        stringsTrim (line ++ ['\n']) confirmationCutset, none⟩ := by
    simp only [GetConfirmationCode, readString_line line rest h]
  rw [hcode]
  refine ⟨rfl, ?_⟩
  exact stringsTrim_spec (line ++ ['\n']) confirmationCutset (by decide)

theorem GetConfirmationCode_trims_cutset_witness :
    '\n' ∉ "  123456".toList ∧
    (GetConfirmationCode "+79001234567".toList ("  123456".toList ++ '\n' :: [])).err = none ∧
    ∃ pre suf,
      "  123456".toList ++ ['\n'] = pre ++
        (GetConfirmationCode "+79001234567".toList ("  123456".toList ++ '\n' :: [])).code
          ++ suf ∧
      (∀ c ∈ pre, c ∈ confirmationCutset) ∧ (∀ c ∈ suf, c ∈ confirmationCutset) ∧
      (∀ c, (GetConfirmationCode "+79001234567".toList
          ("  123456".toList ++ '\n' :: [])).code.head? = some c → c ∉ confirmationCutset) ∧
      (∀ c, (GetConfirmationCode "+79001234567".toList
          ("  123456".toList ++ '\n' :: [])).code.getLast? = some c →
        c ∉ confirmationCutset) :=
  ⟨by decide, GetConfirmationCode_trims_cutset _ _ _ (by decide)⟩

/-- The spec's example P9: the input `"  123456\n"` yields the code `"123456"`. -/
theorem GetConfirmationCode_example :
    GetConfirmationCode "+79001234567".toList "  123456\n".toList =
      ⟨"Enter confirmation code for +79001234567: ".toList, "123456".toList, none⟩ := by
  decide

/-- C6 (counterexample): on the line `"123456\r\n"` the code returned is `"123456\r"`:
it still ends in the carriage return, a control character, whereas the line with all
surrounding whitespace and control characters removed is `"123456"`. -/
theorem GetConfirmationCode_keeps_carriage_return :
    GetConfirmationCode "+79001234567".toList "123456\r\n".toList =
      ⟨"Enter confirmation code for +79001234567: ".toList, "123456\r".toList, none⟩ ∧
    isSpaceOrControl '\r' = true ∧
    trimSpaceControl "123456\r\n".toList = "123456".toList ∧
    (GetConfirmationCode "+79001234567".toList "123456\r\n".toList).code ≠
      trimSpaceControl "123456\r\n".toList := by
  decide

/-! ## Theorems: `httpTransport.RoundTrip` -/

/-- C7 (amended): when the request dump succeeds, `RoundTrip` returns the client's
response with a nil error if the client succeeded and the response dump succeeds, and
returns a nil response with the client's own error, unmodified, if the client failed,
whatever response the client handed back with that error. -/
theorem RoundTrip_passes_client_outcome {Req Resp : Type} (env : HttpEnv Req Resp)
    (req : Req) (reqData : List Char) (hreq : env.dumpRequestOut req = .ok reqData) :
    (∀ resp respData, env.clientDo req = (some resp, none) →
        env.dumpResponse resp = .ok respData →
        RoundTrip env req = .ret ⟨[reqData, respData], some resp, none⟩) ∧
    (∀ resp err, env.clientDo req = (resp, some err) →
        RoundTrip env req = .ret ⟨[reqData], none, some err⟩) := by
  constructor
  · intro resp respData hdo hdump
    simp only [RoundTrip, hreq, hdo, hdump]
  · intro resp err hdo
    simp only [RoundTrip, hreq, hdo]

theorem RoundTrip_passes_client_outcome_witness :
    okEnv.dumpRequestOut () = .ok "GET / HTTP/1.1".toList ∧
    (∀ resp respData, okEnv.clientDo () = (some resp, none) →
        okEnv.dumpResponse resp = .ok respData →
        RoundTrip okEnv () = .ret ⟨["GET / HTTP/1.1".toList, respData], some resp, none⟩) ∧
    (∀ resp err, okEnv.clientDo () = (resp, some err) →
        RoundTrip okEnv () = .ret ⟨["GET / HTTP/1.1".toList], none, some err⟩) :=
  ⟨rfl, RoundTrip_passes_client_outcome okEnv () _ rfl⟩

/-- C7 (counterexample): the wrapped client returns the response 302 together with an
error and both dumps succeed, yet `RoundTrip` returns a nil response with that error:
the client's response is dropped, so the pair is not passed on unmodified. -/
theorem RoundTrip_drops_response_on_error :
    redirectFailureEnv.clientDo () =
      (some 302, some (GoError.other "stopped after 10 redirects")) ∧
    redirectFailureEnv.dumpRequestOut () = .ok "GET / HTTP/1.1".toList ∧
    redirectFailureEnv.dumpResponse 302 = .ok "HTTP/1.1 302 Found".toList ∧
    RoundTrip redirectFailureEnv () =
      .ret ⟨["GET / HTTP/1.1".toList], none,
        some (GoError.other "stopped after 10 redirects")⟩ :=
  ⟨rfl, rfl, rfl, rfl⟩

/-! ## Theorems: the JSON encoding of string keys round-trips -/

theorem hexVal_hexDigit : ∀ n, n < 16 → hexVal (hexDigit n) = some n := by
  decide

theorem getu4_low (n : Nat) (h : n < 256) :
    getu4 '0' '0' (hexDigit (n / 16)) (hexDigit (n % 16)) = some n := by
  have h1 := hexVal_hexDigit (n / 16) (by omega)
  have h2 := hexVal_hexDigit (n % 16) (Nat.mod_lt _ (by decide))
  have h0 : hexVal '0' = some 0 := by decide
  simp only [getu4, h0, h1, h2]
  congr 1
  omega

theorem unquoteChar_simple (e ch : Char) (t : List Char) (he : e ≠ 'u')
    (hs : simpleEscape e = some ch) :
    unquoteChar '\\' (e :: t) = some (ch, t) := by
  simp [unquoteChar, he, hs]

theorem unquoteChar_u (a b c d : Char) (n : Nat) (t : List Char)
    (hg : getu4 a b c d = some n) (hn : n < 0xd800) :
    unquoteChar '\\' ('u' :: a :: b :: c :: d :: t) = some (Char.ofNat n, t) := by
  have h : ¬ (0xd800 ≤ n ∧ n < 0xe000) := by omega
  simp [unquoteChar, unquoteEscapeU, hg, h]

theorem char_eq_of_toNat (c : Char) (n : Nat) (h : c.toNat = n) : c = Char.ofNat n := by
  rw [← h]
  exact (Char.ofNat_toNat c).symm

/-- One character written by the encoder: it is not empty, does not start with a quote,
and the decoder reads the character back. -/
theorem unquoteChar_appendStringChar (c : Char) (t : List Char) :
    ∃ x xs, appendStringChar c ++ t = x :: xs ∧ x ≠ '"' ∧ unquoteChar x xs = some (c, t) := by
  unfold appendStringChar
  split_ifs with h1 h2 h3 h4 h5 h6 h7 h8
  · refine ⟨'\\', c :: t, rfl, by decide, ?_⟩
    rcases h1 with rfl | rfl
    · exact unquoteChar_simple _ _ t (by decide) (by decide)
    · exact unquoteChar_simple _ _ t (by decide) (by decide)
  · subst h2
    exact ⟨'\\', _, rfl, by decide, unquoteChar_simple _ _ t (by decide) (by decide)⟩
  · subst h3
    exact ⟨'\\', _, rfl, by decide, unquoteChar_simple _ _ t (by decide) (by decide)⟩
  · subst h4
    exact ⟨'\\', _, rfl, by decide, unquoteChar_simple _ _ t (by decide) (by decide)⟩
  · subst h5
    exact ⟨'\\', _, rfl, by decide, unquoteChar_simple _ _ t (by decide) (by decide)⟩
  · subst h6
    exact ⟨'\\', _, rfl, by decide, unquoteChar_simple _ _ t (by decide) (by decide)⟩
  · have hlt : c.toNat < 256 := by
      rcases h7 with h | rfl | rfl | rfl
      · omega
      · decide
      · decide
      · decide
    have := unquoteChar_u '0' '0' (hexDigit (c.toNat / 16)) (hexDigit (c.toNat % 16))
      c.toNat t (getu4_low _ hlt) (by omega)
    rw [Char.ofNat_toNat] at this
    exact ⟨'\\', _, rfl, by decide, this⟩
  · have hc : c = Char.ofNat 0x2028 ∨ c = Char.ofNat 0x2029 := by
      rcases h8 with h | h
      · exact Or.inl (char_eq_of_toNat c _ h)
      · exact Or.inr (char_eq_of_toNat c _ h)
    rcases hc with rfl | rfl
    · exact ⟨'\\', _, rfl, by decide,
        unquoteChar_u '2' '0' '2' _ 0x2028 t (by decide) (by decide)⟩
    · exact ⟨'\\', _, rfl, by decide,
        unquoteChar_u '2' '0' '2' _ 0x2029 t (by decide) (by decide)⟩
  · have hq : c ≠ '"' := fun e => h1 (Or.inr e)
    have hb : c ≠ '\\' := fun e => h1 (Or.inl e)
    have hn : ¬ c.toNat < 32 := fun e => h7 (Or.inl e)
    refine ⟨c, t, rfl, hq, ?_⟩
    simp [unquoteChar, hb, hn]

/-- A string literal written by the encoder is read back by the decoder, which stops
right after the closing quote, given fuel for every character. -/
theorem unquoteBody_appendStringBody (k rest : List Char) (fuel : Nat)
    (hf : k.length < fuel) :
    unquoteBody fuel (appendStringBody k ++ '"' :: rest) = some (k, rest) := by
  induction k generalizing fuel with
  | nil =>
    obtain ⟨f, rfl⟩ : ∃ f, fuel = f + 1 := ⟨fuel - 1, by simp at hf; omega⟩
    show unquoteBody (f + 1) ('"' :: rest) = some ([], rest)
    simp [unquoteBody]
  | cons c cs ih =>
    obtain ⟨f, rfl⟩ : ∃ f, fuel = f + 1 := ⟨fuel - 1, by simp at hf; omega⟩
    have hf1 : cs.length < f := by simp at hf; omega
    obtain ⟨x, xs, hx, hq, hu⟩ :=
      unquoteChar_appendStringChar c (appendStringBody cs ++ '"' :: rest)
    show unquoteBody (f + 1) ((appendStringChar c ++ appendStringBody cs) ++ '"' :: rest) = _
    rw [List.append_assoc, hx]
    simp only [unquoteBody, hq, if_false, hu, ih f hf1]

theorem length_appendStringBody (k : List Char) : k.length ≤ (appendStringBody k).length := by
  induction k with
  | nil => simp [appendStringBody]
  | cons c cs ih =>
    obtain ⟨x, xs, hx, _, _⟩ := unquoteChar_appendStringChar c []
    have h1 : 1 ≤ (appendStringChar c).length := by
      have := congrArg List.length hx
      simp at this
      omega
    simp only [appendStringBody, List.length_append, List.length_cons]
    omega

/-- The decoder reads back a string literal written by the encoder. -/
theorem unquote_appendStringBody (k rest : List Char) :
    unquote (appendStringBody k ++ '"' :: rest) = some (k, rest) := by
  unfold unquote
  apply unquoteBody_appendStringBody
  have := length_appendStringBody k
  simp only [List.length_append, List.length_cons]
  omega

theorem skipSpace_cons_of_not_space (c : Char) (t : List Char) (h : isJSONSpace c = false) :
    skipSpace (c :: t) = c :: t := by
  simp [skipSpace, List.dropWhile_cons, h]

/-! ## Theorems: the encoder on strings that are valid UTF-8 -/

theorem byte_val (n : Nat) : (byte n).val = n % 256 := rfl

theorem char_range (c : Char) :
    c.toNat < 0xD800 ∨ (0xDFFF < c.toNat ∧ c.toNat < 0x110000) := by
  have h := c.valid
  simp only [UInt32.isValidChar, Nat.isValidChar] at h
  exact h

/-- `utf8.DecodeRuneInString` reads back a character that `utf8.AppendRune` wrote in
more than one byte, with its size, which is not the outcome for an invalid byte. -/
theorem decodeRune_encodeRune (c : Char) (rest : GoString) (h : 0x80 ≤ c.toNat) :
    ∃ b tail, encodeRune c = b :: tail ∧ 0x80 ≤ b.val ∧
      decodeRune (b :: (tail ++ rest)) = (c.toNat, tail.length + 1) ∧ 1 ≤ tail.length := by
  have hr := char_range c
  have hn1 : ¬ c.toNat < 0x80 := by omega
  generalize hcr : c.toNat = r at *
  by_cases h2 : r ≤ 0x7FF
  · refine ⟨byte (0xC0 + r / 64), [byte (0x80 + r % 64)], ?_, ?_, ?_, ?_⟩
    · simp only [encodeRune, hcr, hn1, h2, if_true, if_false]
    · rw [byte_val]
      omega
    · have e0 : (byte (0xC0 + r / 64)).val = 0xC0 + r / 64 := by
        rw [byte_val]
        omega
      have e1 : (byte (0x80 + r % 64)).val = 0x80 + r % 64 := by
        rw [byte_val]
        omega
      have c1 : ¬ (0xC0 + r / 64 < 0x80) := by omega
      have c2 : ¬ (0xC0 + r / 64 < 0xC2 ∨ 0xF4 < 0xC0 + r / 64) := by omega
      have c3 : 0xC0 + r / 64 < 0xE0 := by omega
      have c4 : ¬ (0xC0 + r / 64 = 0xE0) := by omega
      have c5 : ¬ (0xC0 + r / 64 = 0xF0) := by omega
      have c6 : ¬ (0xC0 + r / 64 = 0xED) := by omega
      have c7 : ¬ (0xC0 + r / 64 = 0xF4) := by omega
      have c8 : ¬ (0x80 + r % 64 < 0x80 ∨ 0xBF < 0x80 + r % 64) := by omega
      have c9 : ¬ (rest.length + 1 + 1 < 2) := by omega
      simp only [decodeRune, e0, e1, c1, c2, c3, c4, c5, c6, c7, c8, c9, if_true, if_false,
        List.singleton_append, List.length_cons, List.length_nil, le_refl,
        Prod.mk.injEq, and_true]
      omega
    · simp
  · by_cases h3 : r ≤ 0xFFFF
    · refine ⟨byte (0xE0 + r / 4096), [byte (0x80 + r / 64 % 64), byte (0x80 + r % 64)],
        ?_, ?_, ?_, ?_⟩
      · simp only [encodeRune, hcr, hn1, h2, h3, if_true, if_false]
      · rw [byte_val]
        omega
      · have e0 : (byte (0xE0 + r / 4096)).val = 0xE0 + r / 4096 := by
          rw [byte_val]
          omega
        have e1 : (byte (0x80 + r / 64 % 64)).val = 0x80 + r / 64 % 64 := by
          rw [byte_val]
          omega
        have e2 : (byte (0x80 + r % 64)).val = 0x80 + r % 64 := by
          rw [byte_val]
          omega
        have c1 : ¬ (0xE0 + r / 4096 < 0x80) := by omega
        have c2 : ¬ (0xE0 + r / 4096 < 0xC2 ∨ 0xF4 < 0xE0 + r / 4096) := by omega
        have c3 : ¬ (0xE0 + r / 4096 < 0xE0) := by omega
        have c3b : 0xE0 + r / 4096 < 0xF0 := by omega
        have c5 : ¬ (0xE0 + r / 4096 = 0xF0) := by omega
        have c7 : ¬ (0xE0 + r / 4096 = 0xF4) := by omega
        have c8 : ¬ (0x80 + r % 64 < 0x80 ∨ 0xBF < 0x80 + r % 64) := by omega
        have c9 : ¬ (rest.length + 1 + 1 + 1 < 3) := by omega
        have c10 : ¬ ((3 : Nat) ≤ 2) := by omega
        have c11 : ¬ (0x80 + r / 64 % 64 <
            (if 0xE0 + r / 4096 = 0xE0 then 0xA0 else 0x80) ∨
            (if 0xE0 + r / 4096 = 0xED then 0x9F else 0xBF) < 0x80 + r / 64 % 64) := by
          split_ifs <;> omega
        simp only [decodeRune, e0, e1, e2, c1, c2, c3, c3b, c5, c7, c8, c9, c10, c11, if_true,
          if_false, List.cons_append, List.nil_append, List.length_cons, List.length_nil,
          List.length_append, le_refl, Prod.mk.injEq, and_true]
        omega
      · simp
    · refine ⟨byte (0xF0 + r / 262144),
        [byte (0x80 + r / 4096 % 64), byte (0x80 + r / 64 % 64), byte (0x80 + r % 64)],
        ?_, ?_, ?_, ?_⟩
      · simp only [encodeRune, hcr, hn1, h2, h3, if_true, if_false]
      · rw [byte_val]
        omega
      · have e0 : (byte (0xF0 + r / 262144)).val = 0xF0 + r / 262144 := by
          rw [byte_val]
          omega
        have e1 : (byte (0x80 + r / 4096 % 64)).val = 0x80 + r / 4096 % 64 := by
          rw [byte_val]
          omega
        have e2 : (byte (0x80 + r / 64 % 64)).val = 0x80 + r / 64 % 64 := by
          rw [byte_val]
          omega
        have e3 : (byte (0x80 + r % 64)).val = 0x80 + r % 64 := by
          rw [byte_val]
          omega
        have c1 : ¬ (0xF0 + r / 262144 < 0x80) := by omega
        have c2 : ¬ (0xF0 + r / 262144 < 0xC2 ∨ 0xF4 < 0xF0 + r / 262144) := by omega
        have c3 : ¬ (0xF0 + r / 262144 < 0xE0) := by omega
        have c3b : ¬ (0xF0 + r / 262144 < 0xF0) := by omega
        have c4 : ¬ (0xF0 + r / 262144 = 0xE0) := by omega
        have c6 : ¬ (0xF0 + r / 262144 = 0xED) := by omega
        have c8 : ¬ (0x80 + r % 64 < 0x80 ∨ 0xBF < 0x80 + r % 64) := by omega
        have c8b : ¬ (0x80 + r / 64 % 64 < 0x80 ∨ 0xBF < 0x80 + r / 64 % 64) := by omega
        have c9 : ¬ (rest.length + 1 + 1 + 1 + 1 < 4) := by omega
        have c10 : ¬ ((4 : Nat) ≤ 2) := by omega
        have c10b : ¬ ((4 : Nat) ≤ 3) := by omega
        have c11 : ¬ (0x80 + r / 4096 % 64 <
            (if 0xF0 + r / 262144 = 0xF0 then 0x90 else 0x80) ∨
            (if 0xF0 + r / 262144 = 0xF4 then 0x8F else 0xBF) < 0x80 + r / 4096 % 64) := by
          split_ifs <;> omega
        simp only [decodeRune, e0, e1, e2, e3, c1, c2, c3, c3b, c4, c6, c8, c8b, c9, c10, c10b,
          c11, if_true, if_false, List.cons_append, List.nil_append, List.length_cons,
          List.length_nil, List.length_append, le_refl, Prod.mk.injEq, and_true]
        omega
      · simp

theorem encodeRune_ascii (c : Char) (h : c.toNat < 0x80) :
    encodeRune c = [byte c.toNat] ∧ (byte c.toNat).val = c.toNat := by
  constructor
  · simp only [encodeRune, h, if_true]
  · rw [byte_val]
    omega

/-- On the UTF-8 encoding of a text the loop of `appendString` writes the characters of
the text one by one. -/
theorem appendStringBytes_utf8Encode (text : List Char) :
    ∀ fuel, (utf8Encode text).length ≤ fuel →
      appendStringBytes fuel (utf8Encode text) = appendStringBody text := by
  induction text with
  | nil =>
    intro fuel _
    cases fuel <;> rfl
  | cons c cs ih =>
    intro fuel hf
    by_cases ha : c.toNat < 0x80
    · obtain ⟨he, hv⟩ := encodeRune_ascii c ha
      simp only [utf8Encode, he, List.singleton_append, List.length_cons] at hf ⊢
      obtain ⟨f, rfl⟩ : ∃ f, fuel = f + 1 := ⟨fuel - 1, by omega⟩
      have hlt : (byte c.toNat).val < 0x80 := by
        rw [hv]
        exact ha
      simp only [appendStringBytes, hlt, ha, if_true, hv, Char.ofNat_toNat, appendStringBody,
        ih f (by omega)]
    · obtain ⟨b, tail, he, hb, hdec, hlen⟩ := decodeRune_encodeRune c (utf8Encode cs) (by omega)
      simp only [utf8Encode, he, List.cons_append, List.length_cons, List.length_append] at hf ⊢
      obtain ⟨f, rfl⟩ : ∃ f, fuel = f + 1 := ⟨fuel - 1, by omega⟩
      have hnlt : ¬ b.val < 0x80 := by omega
      have hninv : ¬ (c.toNat = 0xFFFD ∧ tail.length + 1 = 1) := by omega
      have hdrop : List.drop (tail.length + 1) (b :: (tail ++ utf8Encode cs)) = utf8Encode cs := by
        simp
      simp only [appendStringBytes, hnlt, if_false, hdec, hninv, hdrop, Char.ofNat_toNat,
        appendStringBody, ih f (by omega)]

theorem appendString_utf8Encode (text : List Char) :
    appendString (utf8Encode text) = '"' :: (appendStringBody text ++ ['"']) := by
  simp only [appendString, appendStringBytes_utf8Encode text _ (le_refl _)]

/-! ## Theorems: maps and the registry encoding -/

theorem entriesDelete_cons {S : Type} (k1 : GoString) (v1 : S) (m : Entries S)
    (k : GoString) :
    entriesDelete ((k1, v1) :: m) k =
      if k1 = k then entriesDelete m k else (k1, v1) :: entriesDelete m k := by
  unfold entriesDelete
  by_cases h : k1 = k
  · simp [List.filter_cons, h]
  · simp [List.filter_cons, h]

theorem entriesLookup_delete_same {S : Type} (m : Entries S) (k : GoString) :
    entriesLookup (entriesDelete m k) k = none := by
  induction m with
  | nil => rfl
  | cons kv m ih =>
    obtain ⟨k1, v1⟩ := kv
    rw [entriesDelete_cons]
    by_cases h : k1 = k
    · rw [if_pos h]
      exact ih
    · rw [if_neg h]
      simp only [entriesLookup, h, if_false]
      exact ih

theorem entriesLookup_delete_other {S : Type} (m : Entries S) (k q : GoString)
    (hq : q ≠ k) : entriesLookup (entriesDelete m k) q = entriesLookup m q := by
  induction m with
  | nil => rfl
  | cons kv m ih =>
    obtain ⟨k1, v1⟩ := kv
    rw [entriesDelete_cons]
    by_cases h : k1 = k
    · have h1 : k1 ≠ q := fun e => hq (e ▸ h)
      rw [if_pos h]
      simp only [entriesLookup, h1, if_false]
      exact ih
    · rw [if_neg h]
      by_cases h2 : k1 = q
      · simp only [entriesLookup, h2, if_true]
      · simp only [entriesLookup, h2, if_false]
        exact ih

theorem entriesLookup_insert_same {S : Type} (m : Entries S) (k : GoString) (v : S) :
    entriesLookup (entriesInsert m k v) k = some v := by
  simp [entriesInsert, entriesLookup]

theorem entriesLookup_insert_other {S : Type} (m : Entries S) (k q : GoString) (v : S)
    (hq : q ≠ k) : entriesLookup (entriesInsert m k v) q = entriesLookup m q := by
  have h : k ≠ q := fun e => hq e.symm
  simp [entriesInsert, entriesLookup, h, entriesLookup_delete_other m k q hq]

theorem keys_delete_subset {S : Type} (m : Entries S) (k x : GoString)
    (hx : x ∈ (entriesDelete m k).map Prod.fst) : x ∈ m.map Prod.fst ∧ x ≠ k := by
  simp only [entriesDelete, List.mem_map, List.mem_filter, decide_eq_true_eq] at hx
  obtain ⟨kv, ⟨hmem, hne⟩, rfl⟩ := hx
  exact ⟨List.mem_map.mpr ⟨kv, hmem, rfl⟩, hne⟩

theorem keysNodup_delete {S : Type} (m : Entries S) (k : GoString) (h : KeysNodup m) :
    KeysNodup (entriesDelete m k) := by
  unfold KeysNodup entriesDelete at *
  exact (List.filter_sublist m).map Prod.fst |>.nodup h

theorem keysNodup_insert {S : Type} (m : Entries S) (k : GoString) (v : S)
    (h : KeysNodup m) : KeysNodup (entriesInsert m k v) := by
  have hd := keysNodup_delete m k h
  unfold KeysNodup entriesInsert at *
  rw [List.map_cons, List.nodup_cons]
  exact ⟨fun hx => (keys_delete_subset m k k hx).2 rfl, hd⟩

theorem entriesLookup_eq_some_iff {S : Type} (m : Entries S) (h : KeysNodup m)
    (k : GoString) (v : S) : entriesLookup m k = some v ↔ (k, v) ∈ m := by
  induction m with
  | nil => simp [entriesLookup]
  | cons kv m ih =>
    obtain ⟨k1, v1⟩ := kv
    have hn : k1 ∉ m.map Prod.fst ∧ KeysNodup m := by
      unfold KeysNodup at h
      rw [List.map_cons, List.nodup_cons] at h
      exact h
    by_cases hk : k1 = k
    · subst hk
      have hnot : ∀ w, (k1, w) ∉ m := fun w hw => hn.1 (List.mem_map.mpr ⟨(k1, w), hw, rfl⟩)
      simp only [entriesLookup, if_true, Option.some.injEq, List.mem_cons, Prod.mk.injEq,
        true_and]
      constructor
      · intro e
        exact Or.inl e.symm
      · rintro (e | e)
        · exact e.symm
        · exact absurd e (hnot v)
    · simp only [entriesLookup, hk, if_false, List.mem_cons, Prod.mk.injEq]
      rw [ih hn.2]
      constructor
      · exact Or.inr
      · rintro (⟨e, _⟩ | e)
        · exact absurd e.symm hk
        · exact e

/-- Lookup in a map does not depend on the order of its entries. -/
theorem entriesLookup_perm {S : Type} (m1 m2 : Entries S) (hp : m1.Perm m2)
    (h1 : KeysNodup m1) (k : GoString) : entriesLookup m1 k = entriesLookup m2 k := by
  have h2 : KeysNodup m2 := by
    unfold KeysNodup at *
    exact (hp.map Prod.fst).nodup_iff.mp h1
  apply Option.ext
  intro v
  show entriesLookup m1 k = some v ↔ entriesLookup m2 k = some v
  rw [entriesLookup_eq_some_iff m1 h1, entriesLookup_eq_some_iff m2 h2]
  exact hp.mem_iff

theorem entriesDelete_of_not_mem {S : Type} (m : Entries S) (k : GoString)
    (h : k ∉ m.map Prod.fst) : entriesDelete m k = m := by
  unfold entriesDelete
  rw [List.filter_eq_self]
  intro kv hkv
  simp only [decide_eq_true_eq]
  intro e
  exact h (List.mem_map.mpr ⟨kv, hkv, e⟩)

/-- Storing members with distinct keys none of which is in the map yet keeps them all. -/
theorem storeAll_of_nodup {S : Type} (l acc : Entries S) (hl : KeysNodup l)
    (hd : ∀ k, k ∈ l.map Prod.fst → k ∉ acc.map Prod.fst) :
    storeAll acc l = l.reverse ++ acc := by
  induction l generalizing acc with
  | nil => simp [storeAll]
  | cons kv l ih =>
    obtain ⟨k1, v1⟩ := kv
    have hn : k1 ∉ l.map Prod.fst ∧ KeysNodup l := by
      unfold KeysNodup at hl
      rw [List.map_cons, List.nodup_cons] at hl
      exact hl
    have hk : k1 ∉ acc.map Prod.fst :=
      hd k1 (by rw [List.map_cons]; exact List.mem_cons_self _ _)
    have hins : entriesInsert acc k1 v1 = (k1, v1) :: acc := by
      unfold entriesInsert
      rw [entriesDelete_of_not_mem acc k1 hk]
    have hd2 : ∀ k, k ∈ l.map Prod.fst → k ∉ (entriesInsert acc k1 v1).map Prod.fst := by
      intro k hkl
      rw [hins, List.map_cons, List.mem_cons, not_or]
      refine ⟨?_, hd k (by rw [List.map_cons]; exact List.mem_cons_of_mem _ hkl)⟩
      intro e
      apply hn.1
      have e2 : k = k1 := e
      rw [← e2]
      exact hkl
    have h3 := ih (entriesInsert acc k1 v1) hn.2 hd2
    unfold storeAll at h3 ⊢
    rw [List.foldl_cons, h3, hins]
    simp

theorem storeAll_keysNodup {S : Type} (l acc : Entries S) (h : KeysNodup acc) :
    KeysNodup (storeAll acc l) := by
  induction l generalizing acc with
  | nil => exact h
  | cons kv l ih => exact ih _ (keysNodup_insert acc kv.1 kv.2 h)

/-! ## Theorems: the registry written by the encoder is read back by the decoder -/

theorem encodeMembers_single {S : Type} (codec : SessionCodec S) (k : GoString) (v : S)
    (t : List Char) :
    encodeMembers codec [(k, v)] ++ t =
      '"' :: (appendStringBytes k.length k ++ '"' :: ':' :: (codec.encode v ++ t)) := by
  simp [encodeMembers, appendString, List.append_assoc]

theorem encodeMembers_cons {S : Type} (codec : SessionCodec S) (k : GoString) (v : S)
    (kv : GoString × S) (m : Entries S) (t : List Char) :
    encodeMembers codec ((k, v) :: kv :: m) ++ t =
      '"' :: (appendStringBytes k.length k ++ '"' :: ':' ::
        (codec.encode v ++ ',' :: (encodeMembers codec (kv :: m) ++ t))) := by
  simp [encodeMembers, appendString, List.append_assoc]

theorem decodeMembers_member_last {S : Type} (codec : SessionCodec S)
    (hrt : codec.RoundTrips) (k : List Char) (v : S) (t : List Char) (acc : Entries S)
    (fuel : Nat) :
    decodeMembers codec (fuel + 1)
        ('"' :: (appendStringBody k ++ '"' :: ':' :: (codec.encode v ++ '}' :: t))) acc =
      .ok (entriesInsert acc (utf8Encode k) v, t) := by
  have hs1 : skipSpace (':' :: (codec.encode v ++ '}' :: t)) =
      ':' :: (codec.encode v ++ '}' :: t) := skipSpace_cons_of_not_space _ _ (by decide)
  have hs2 : skipSpace ('}' :: t) = '}' :: t := skipSpace_cons_of_not_space _ _ (by decide)
  have hne : ('}' : Char) ≠ ',' := by decide
  simp only [decodeMembers, if_true, unquote_appendStringBody, hs1, hrt v ('}' :: t), hs2,
    hne, if_false]

theorem decodeMembers_member_more {S : Type} (codec : SessionCodec S)
    (hrt : codec.RoundTrips) (k : List Char) (v : S) (t : List Char) (acc : Entries S)
    (fuel : Nat) :
    decodeMembers codec (fuel + 1)
        ('"' :: (appendStringBody k ++ '"' :: ':' :: (codec.encode v ++ ',' :: t))) acc =
      decodeMembers codec fuel (skipSpace t) (entriesInsert acc (utf8Encode k) v) := by
  have hs1 : skipSpace (':' :: (codec.encode v ++ ',' :: t)) =
      ':' :: (codec.encode v ++ ',' :: t) := skipSpace_cons_of_not_space _ _ (by decide)
  have hs2 : skipSpace (',' :: t) = ',' :: t := skipSpace_cons_of_not_space _ _ (by decide)
  simp only [decodeMembers, if_true, unquote_appendStringBody, hs1, hrt v (',' :: t), hs2]

/-- The members of an object written by the encoder, their keys being valid UTF-8, are
read back, in order, by the decoder, which stops right after the closing brace. -/
theorem decodeMembers_encodeMembers {S : Type} (codec : SessionCodec S)
    (hrt : codec.RoundTrips) (kv : GoString × S) (l : Entries S) (rest : List Char)
    (acc : Entries S) (fuel : Nat) (hf : l.length < fuel) (hval : KeysValid (kv :: l)) :
    decodeMembers codec fuel (encodeMembers codec (kv :: l) ++ '}' :: rest) acc =
      .ok (storeAll acc (kv :: l), rest) := by
  induction l generalizing kv acc fuel with
  | nil =>
    obtain ⟨f, rfl⟩ : ∃ f, fuel = f + 1 := ⟨fuel - 1, by simp at hf; omega⟩
    obtain ⟨k, v⟩ := kv
    obtain ⟨text, rfl⟩ : ValidUTF8 k := hval (k, v) (List.mem_cons_self _ _)
    rw [encodeMembers_single, appendStringBytes_utf8Encode text _ (le_refl _),
      decodeMembers_member_last codec hrt]
    rfl
  | cons kv2 l ih =>
    obtain ⟨f, rfl⟩ : ∃ f, fuel = f + 1 := ⟨fuel - 1, by simp at hf; omega⟩
    obtain ⟨k, v⟩ := kv
    obtain ⟨text, rfl⟩ : ValidUTF8 k := hval (k, v) (List.mem_cons_self _ _)
    have hval2 : KeysValid (kv2 :: l) := fun e he => hval e (List.mem_cons_of_mem _ he)
    have hf1 : l.length < f := by simp at hf; omega
    rw [encodeMembers_cons, appendStringBytes_utf8Encode text _ (le_refl _),
      decodeMembers_member_more codec hrt]
    have hhead : skipSpace (encodeMembers codec (kv2 :: l) ++ '}' :: rest) =
        encodeMembers codec (kv2 :: l) ++ '}' :: rest := by
      obtain ⟨k2, v2⟩ := kv2
      cases l with
      | nil =>
        rw [encodeMembers_single]
        exact skipSpace_cons_of_not_space _ _ (by decide)
      | cons kv3 l3 =>
        rw [encodeMembers_cons]
        exact skipSpace_cons_of_not_space _ _ (by decide)
    rw [hhead, ih kv2 (entriesInsert acc (utf8Encode text) v) f hf1 hval2]
    rfl

theorem length_encodeMembers {S : Type} (codec : SessionCodec S) (l : Entries S) :
    l.length ≤ (encodeMembers codec l).length := by
  induction l with
  | nil => simp
  | cons kv l ih =>
    obtain ⟨k, v⟩ := kv
    cases l with
    | nil =>
      have := congrArg List.length (encodeMembers_single codec k v [])
      simp at this ⊢
      omega
    | cons kv2 l2 =>
      have := congrArg List.length (encodeMembers_cons codec k v kv2 l2 [])
      simp at this ih ⊢
      omega

/-- Decoding what the encoder wrote for a map whose keys are valid UTF-8 gives a map
with the same entries, and leaves only the final newline unread. -/
theorem decodeValue_encodeRegistry {S : Type} (codec : SessionCodec S)
    (hrt : codec.RoundTrips) (m : GoMap S) (hwf : m.WF) (hval : m.KeysValid) :
    ∃ m2 : GoMap S, decodeValue codec (encodeRegistry codec m) = .ok (m2, ['\n']) ∧
      m2.WF ∧ ∀ k, goMapLookup m2 k = goMapLookup m k := by
  cases m with
  | none => exact ⟨none, rfl, trivial, fun _ => rfl⟩
  | some m =>
    have hperm : (m.insertionSort keyLE).Perm m := List.perm_insertionSort keyLE m
    have hnd : KeysNodup (m.insertionSort keyLE) := by
      unfold KeysNodup
      exact (hperm.map Prod.fst).nodup_iff.mpr hwf
    cases hsort : m.insertionSort keyLE with
    | nil =>
      have hm : m = [] := by
        have := hperm.length_eq
        rw [hsort] at this
        exact List.length_eq_zero.mp this.symm
      subst hm
      exact ⟨some [], rfl, List.nodup_nil, fun _ => rfl⟩
    | cons kv l =>
      refine ⟨some (storeAll [] (kv :: l)), ?_, ?_, ?_⟩
      · have hlen : l.length < (encodeMembers codec (kv :: l) ++ '}' :: ['\n']).length := by
          have := length_encodeMembers codec (kv :: l)
          simp only [List.length_append, List.length_cons] at this ⊢
          omega
        have hval2 : KeysValid (kv :: l) := by
          intro e he
          rw [← hsort] at he
          exact hval e (hperm.mem_iff.mp he)
        have hdec := decodeMembers_encodeMembers codec hrt kv l ['\n'] [] _ hlen hval2
        have hhead : ∃ xs, encodeMembers codec (kv :: l) ++ '}' :: ['\n'] = '"' :: xs := by
          obtain ⟨k, v⟩ := kv
          cases l with
          | nil => exact ⟨_, encodeMembers_single codec k v _⟩
          | cons kv3 l3 => exact ⟨_, encodeMembers_cons codec k v kv3 l3 _⟩
        obtain ⟨xs, hxs⟩ := hhead
        have henc : encodeRegistry codec (some m) =
            '{' :: (encodeMembers codec (kv :: l) ++ '}' :: ['\n']) := by
          simp [encodeRegistry, hsort]
        rw [henc]
        have hs0 : skipSpace ('{' :: (encodeMembers codec (kv :: l) ++ '}' :: ['\n'])) =
            '{' :: (encodeMembers codec (kv :: l) ++ '}' :: ['\n']) :=
          skipSpace_cons_of_not_space _ _ (by decide)
        rw [hxs] at hdec ⊢
        have hs1 : skipSpace ('"' :: xs) = '"' :: xs :=
          skipSpace_cons_of_not_space _ _ (by decide)
        have hq : ('"' : Char) ≠ '}' := by decide
        unfold decodeValue
        rw [skipSpace_cons_of_not_space _ _ (by decide)]
        simp only [if_true, hs1, hq, if_false, hdec]
      · exact storeAll_keysNodup _ _ List.nodup_nil
      · intro k
        rw [hsort] at hnd hperm
        have hst : storeAll [] (kv :: l) = (kv :: l).reverse ++ [] :=
          storeAll_of_nodup (kv :: l) [] hnd (fun k _ h => List.not_mem_nil k h)
        rw [hst, List.append_nil]
        show entriesLookup (kv :: l).reverse k = entriesLookup m k
        have hp2 : ((kv :: l).reverse).Perm m := (List.reverse_perm _).trans hperm
        have hnd2 : KeysNodup (kv :: l).reverse := by
          unfold KeysNodup at *
          exact ((List.reverse_perm _).map Prod.fst).nodup_iff.mpr hnd
        exact entriesLookup_perm _ _ hp2 hnd2 k

theorem decodeRegistry_encodeRegistry {S : Type} (codec : SessionCodec S)
    (hrt : codec.RoundTrips) (m : GoMap S) (hwf : m.WF) (hval : m.KeysValid) :
    ∃ m2 : GoMap S, decodeRegistry codec (encodeRegistry codec m ) = .ok m2 ∧
      m2.WF ∧ ∀ k, goMapLookup m2 k = goMapLookup m k := by
  obtain ⟨m2, h1, h2, h3⟩ := decodeValue_encodeRegistry codec hrt m hwf hval
  exact ⟨m2, by simp [decodeRegistry, h1], h2, h3⟩

/-! ## Theorems: the file system -/

theorem FS.set_nodes_same (fs : FS) (p : Path) (n : Node) : (fs.set p n).nodes p = some n := by
  simp [FS.set]

theorem FS.set_nodes_other (fs : FS) (p q : Path) (n : Node) (h : q ≠ p) :
    (fs.set p n).nodes q = fs.nodes q := by
  simp [FS.set, h]

/-- Path resolution only looks at the nodes along the path. -/
theorem walk_congr (proc : Proc) (fs1 fs2 : FS) (cur : Path) (node : Node)
    (comps : List String)
    (h : ∀ q : Path, q.length ≤ (cur ++ comps).length → fs1.nodes q = fs2.nodes q) :
    walk proc fs1 cur node comps = walk proc fs2 cur node comps := by
  induction comps generalizing cur node with
  | nil => rfl
  | cons c cs ih =>
    cases node with
    | file mode content => rfl
    | dir mode =>
      have hq : fs1.nodes (cur ++ [c]) = fs2.nodes (cur ++ [c]) := by
        apply h
        simp
      have hrec : ∀ child, walk proc fs1 (cur ++ [c]) child cs =
          walk proc fs2 (cur ++ [c]) child cs := by
        intro child
        apply ih
        intro q hlen
        apply h
        simpa using hlen
      simp only [walk, hq]
      split
      · cases hn : fs2.nodes (cur ++ [c]) with
        | none => rfl
        | some child => exact hrec child
      · rfl

theorem osStat_congr (proc : Proc) (fs1 fs2 : FS) (p : Path)
    (h : ∀ q : Path, q.length ≤ p.length → fs1.nodes q = fs2.nodes q) :
    osStat proc fs1 p = osStat proc fs2 p := by
  unfold osStat
  rw [h [] (Nat.zero_le _)]
  cases fs2.nodes [] with
  | none => rfl
  | some root => exact walk_congr proc fs1 fs2 [] root p (by simpa using h)

/-- Replacing a node does not change how shorter paths resolve. -/
theorem osStat_set_longer (proc : Proc) (fs : FS) (p q : Path) (n : Node)
    (h : q.length < p.length) : osStat proc (fs.set p n) q = osStat proc fs q := by
  apply osStat_congr
  intro r hr
  apply FS.set_nodes_other
  intro e
  rw [e] at hr
  omega

/-- The fast path of `os.MkdirAll`: an existing directory is left alone. -/
theorem osMkdirAll_of_dir (proc : Proc) (fs : FS) (p : Path) (perm mode : Nat)
    (h : osStat proc fs p = .ok (.dir mode)) : osMkdirAll proc fs p perm = (fs, none) := by
  unfold osMkdirAll
  cases hr : p.reverse with
  | nil =>
    have hp : p = [] := List.reverse_eq_nil_iff.mp hr
    subst hp
    simp only [mkdirAllRev, h]
  | cons c rev =>
    have hp : (c :: rev).reverse = p := by rw [← hr, List.reverse_reverse]
    simp only [mkdirAllRev, hp, h]

theorem length_dropLast_lt (p : Path) (h : p ≠ []) : p.dropLast.length < p.length := by
  rw [List.length_dropLast]
  have : 0 < p.length := List.length_pos.mpr h
  omega

/-! ## Theorems: `jsonSessionStorage` -/

/-- What is known of the file system when `os.OpenFile` succeeded with
`O_RDWR|O_CREATE`: the parent is a searchable directory and the path now holds a
readable regular file, either the one that was there or a new, empty one. -/
theorem osOpenFile_create_ok (proc : Proc) (fs fs1 : FS) (p file : Path) (perm : Nat)
    (h : osOpenFile proc fs p .O_RDWR_CREATE perm = (fs1, .ok file)) :
    file = p ∧ ∃ dmode, osStat proc fs p.dropLast = .ok (.dir dmode) ∧
      maySearch proc dmode = true ∧
      ((fs.nodes p = none ∧ fs1 = fs.set p (.file (perm % 512) [])) ∨
        (∃ mode c, fs.nodes p = some (.file mode c) ∧ mayRead proc mode = true ∧ fs1 = fs)) := by
  unfold osOpenFile at h
  cases hst : osStat proc fs p.dropLast with
  | error e => simp [hst] at h
  | ok nd =>
    cases nd with
    | file m c => simp [hst] at h
    | dir dmode =>
      simp only [hst] at h
      by_cases hs : maySearch proc dmode = true
      · simp only [hs, if_true] at h
        cases hn : fs.nodes p with
        | none =>
          simp only [hn] at h
          by_cases hw : mayWrite proc dmode = true
          · simp only [hw, if_true, Prod.mk.injEq, Except.ok.injEq] at h
            exact ⟨h.2.symm, dmode, rfl, hs, Or.inl ⟨rfl, h.1.symm⟩⟩
          · simp [hw] at h
        | some nd2 =>
          cases nd2 with
          | dir m => simp [hn] at h
          | file m c =>
            simp only [hn] at h
            by_cases hrw : (mayRead proc m && mayWrite proc m) = true
            · simp only [hrw, if_true, Prod.mk.injEq, Except.ok.injEq] at h
              have hr : mayRead proc m = true := by
                simp only [Bool.and_eq_true] at hrw
                exact hrw.1
              exact ⟨h.2.symm, dmode, rfl, hs, Or.inr ⟨m, c, rfl, hr, h.1.symm⟩⟩
            · simp [hrw] at h
      · simp [hs] at h

theorem osOpenFile_rdonly_file (proc : Proc) (fs : FS) (p : Path) (perm dmode mode : Nat)
    (c : List Char) (hst : osStat proc fs p.dropLast = .ok (.dir dmode))
    (hs : maySearch proc dmode = true) (hn : fs.nodes p = some (.file mode c))
    (hr : mayRead proc mode = true) :
    osOpenFile proc fs p .O_RDONLY perm = (fs, .ok p) := by
  simp [osOpenFile, hst, hs, hn, hr]

theorem osOpenFile_rdonly_missing (proc : Proc) (fs : FS) (p : Path) (perm dmode : Nat)
    (hst : osStat proc fs p.dropLast = .ok (.dir dmode))
    (hs : maySearch proc dmode = true) (hn : fs.nodes p = none) :
    osOpenFile proc fs p .O_RDONLY perm = (fs, .error .ENOENT) := by
  simp [osOpenFile, hst, hs, hn]

/-- `LoadSession` when the parent directory is there and the file is not. -/
theorem LoadSession_missing {S : Type} (codec : SessionCodec S) (io : IOFaults)
    (proc : Proc) (fs fs0 : FS) (s : jsonSessionStorage) (phone : GoString) (dmode : Nat)
    (hmk : osMkdirAll proc fs s.path.dropLast osModeDir = (fs0, none))
    (hst : osStat proc fs0 s.path.dropLast = .ok (.dir dmode))
    (hs : maySearch proc dmode = true) (hn : fs0.nodes s.path = none) :
    s.LoadSession codec io proc fs phone = ⟨fs0, none, none⟩ := by
  simp [jsonSessionStorage.LoadSession, jsonSessionStorage.openFile, hmk,
    osOpenFile_rdonly_missing proc fs0 s.path _ dmode hst hs hn, isNotExist]

/-- `LoadSession` when the file is there and readable: the entry of the decoded
registry, or the decode error. -/
theorem LoadSession_file {S : Type} (codec : SessionCodec S) (io : IOFaults)
    (proc : Proc) (fs fs0 : FS) (s : jsonSessionStorage) (phone : GoString)
    (dmode mode : Nat) (c : List Char) (hio : io.read = none)
    (hmk : osMkdirAll proc fs s.path.dropLast osModeDir = (fs0, none))
    (hst : osStat proc fs0 s.path.dropLast = .ok (.dir dmode))
    (hs : maySearch proc dmode = true) (hn : fs0.nodes s.path = some (.file mode c))
    (hr : mayRead proc mode = true) :
    s.LoadSession codec io proc fs phone =
      match decodeRegistry codec c with
      | .error err => ⟨fs0, none, some (.wrapped err "decode json")⟩
      | .ok contents => ⟨fs0, goMapLookup contents phone, none⟩ := by
  simp only [jsonSessionStorage.LoadSession, jsonSessionStorage.openFile, hmk,
    osOpenFile_rdonly_file proc fs0 s.path _ dmode mode c hst hs hn hr, fileDecode, fileRead,
    hio, hn]
  cases decodeRegistry codec c with
  | error err => rfl
  | ok contents =>
    simp only []
    cases goMapLookup contents phone <;> rfl

/-- The state reached by a successful `jsonSessionStorage.open(O_RDWR|O_CREATE)`. -/
theorem openFile_create_ok (proc : Proc) (fs fs1 : FS) (s : jsonSessionStorage)
    (file : Path) (h : s.openFile proc fs .O_RDWR_CREATE = (fs1, .ok file)) :
    file = s.path ∧ ∃ fs0 dmode mode c,
      osMkdirAll proc fs s.path.dropLast osModeDir = (fs0, none) ∧
      osStat proc fs0 s.path.dropLast = .ok (.dir dmode) ∧ maySearch proc dmode = true ∧
      fs1.nodes s.path = some (.file mode c) ∧ mayRead proc mode = true ∧
      (∀ q, q ≠ s.path → fs1.nodes q = fs0.nodes q) ∧
      ((fs0.nodes s.path = none ∧ c = []) ∨ fs0.nodes s.path = some (.file mode c)) := by
  unfold jsonSessionStorage.openFile at h
  cases hmk : osMkdirAll proc fs s.path.dropLast osModeDir with
  | mk fs0 oerr =>
    cases oerr with
    | some err => simp [hmk] at h
    | none =>
      simp only [hmk] at h
      cases hop : osOpenFile proc fs0 s.path .O_RDWR_CREATE 0o644 with
      | mk fs2 r =>
        cases r with
        | error e => simp [hop] at h
        | ok f =>
          simp only [hop, Prod.mk.injEq, Except.ok.injEq] at h
          obtain ⟨hfs, hfile⟩ := h
          subst hfs
          obtain ⟨hf, dmode, hst, hs, hcase⟩ := osOpenFile_create_ok proc fs0 fs2 s.path f _ hop
          refine ⟨hfile ▸ hf, fs0, dmode, ?_⟩
          rcases hcase with ⟨hn, hset⟩ | ⟨mode, c, hn, hr, hsame⟩
          · refine ⟨0o644 % 512, [], rfl, hst, hs, ?_, ?_, ?_, Or.inl ⟨hn, rfl⟩⟩
            · rw [hset]
              exact FS.set_nodes_same _ _ _
            · cases proc with
              | mk priv => cases priv <;> rfl
            · intro q hq
              rw [hset]
              exact FS.set_nodes_other _ _ _ _ hq
          · subst hsame
            exact ⟨mode, c, rfl, hst, hs, hn, hr, fun _ _ => rfl, Or.inr hn⟩

/-- What a successful `UpdateSession` did: it created the parent directories as needed,
found the file missing, empty or holding a registry that decodes, applied the one change
and left the encoding of the changed registry in the file, touching no other node. -/
theorem UpdateSession_ok {S : Type} (codec : SessionCodec S) (io : IOFaults) (proc : Proc)
    (fs fs2 : FS) (s : jsonSessionStorage) (phone : GoString) (v : Option S)
    (h : s.UpdateSession codec io proc fs phone v = .ret ⟨fs2, none⟩) :
    ∃ (fs0 : FS) (dmode mode : Nat) (contents contents1 : GoMap S),
      osMkdirAll proc fs s.path.dropLast osModeDir = (fs0, none) ∧
      osStat proc fs0 s.path.dropLast = .ok (.dir dmode) ∧ maySearch proc dmode = true ∧
      ((fs0.nodes s.path = none ∧ contents = some []) ∨
        (∃ c, fs0.nodes s.path = some (.file mode c) ∧
          ((c = [] ∧ contents = some []) ∨ (c ≠ [] ∧ decodeRegistry codec c = .ok contents)))) ∧
      (match v with
        | some x => goMapAssign contents phone x
        | none => Run.ret (goMapDelete contents phone)) = .ret contents1 ∧
      fs2.nodes s.path = some (.file mode (encodeRegistry codec contents1)) ∧
      mayRead proc mode = true ∧
      (∀ q, q ≠ s.path → fs2.nodes q = fs0.nodes q) := by
  unfold jsonSessionStorage.UpdateSession at h
  cases hop : s.openFile proc fs .O_RDWR_CREATE with
  | mk fs1 r =>
    cases r with
    | error e => simp [hop] at h
    | ok file =>
      obtain ⟨hfile, fs0, dmode, mode, c, hmk, hst, hs, hn1, hr, hframe, hcase⟩ :=
        openFile_create_ok proc fs fs1 s file hop
      subst hfile
      simp only [hop] at h
      cases hstat : io.stat with
      | some e => simp [fileSize, hstat] at h
      | none =>
        have hsize : fileSize io fs1 s.path = .ok c.length := by
          simp [fileSize, hstat, hn1]
        simp only [hsize] at h
        -- the registry read from the file
        cases hdec : (if c.length > 0 then fileDecode codec io fs1 s.path
            else (Except.ok (some []) : Except GoError (GoMap S))) with
        | error e => simp [hdec] at h
        | ok contents =>
          simp only [hdec] at h
          cases hupd : (match v with
              | some x => goMapAssign contents phone x
              | none => Run.ret (goMapDelete contents phone)) with
          | panicked msg => simp [hupd] at h
          | ret contents1 =>
            simp only [hupd] at h
            cases htr : io.truncate with
            | some e => simp [fileTruncate, htr] at h
            | none =>
              have htrunc : fileTruncate io fs1 s.path =
                  (fs1.set s.path (.file mode []), none) := by
                simp [fileTruncate, htr, hn1]
              simp only [htrunc] at h
              cases hsk : io.seek with
              | some e => simp [fileSeekStart, hsk] at h
              | none =>
                have hseek : fileSeekStart io s.path = none := by simp [fileSeekStart, hsk]
                simp only [hseek] at h
                cases hw : io.write with
                | some ne =>
                  simp [fileWrite, FS.set_nodes_same, hw] at h
                | none =>
                  have hwrite : fileWrite io (fs1.set s.path (.file mode [])) s.path
                      (encodeRegistry codec contents1) =
                      ((fs1.set s.path (.file mode [])).set s.path
                        (.file mode (encodeRegistry codec contents1)), none) := by
                    simp [fileWrite, FS.set_nodes_same, hw]
                  simp only [hwrite, Run.ret.injEq, UpdateResult.mk.injEq, and_true] at h
                  subst h
                  refine ⟨fs0, dmode, mode, contents, contents1, hmk, hst, hs, ?_, hupd,
                    FS.set_nodes_same _ _ _, hr, ?_⟩
                  · by_cases hc : c = []
                    · subst hc
                      have hcont : contents = some [] := by
                        simp at hdec
                        exact hdec.symm
                      rcases hcase with ⟨hn, _⟩ | hn
                      · exact Or.inl ⟨hn, hcont⟩
                      · exact Or.inr ⟨[], hn, Or.inl ⟨rfl, hcont⟩⟩
                    · have hpos : c.length > 0 := List.length_pos.mpr hc
                      rcases hcase with ⟨_, hnil⟩ | hn
                      · exact absurd hnil hc
                      · refine Or.inr ⟨c, hn, Or.inr ⟨hc, ?_⟩⟩
                        simp only [hpos, if_true, fileDecode, fileRead] at hdec
                        cases hrd : io.read with
                        | some e => simp [hrd] at hdec
                        | none =>
                          simpa [hrd, hn1] using hdec
                  · intro q hq
                    rw [FS.set_nodes_other _ _ _ _ hq, FS.set_nodes_other _ _ _ _ hq]
                    exact hframe q hq

/-- What holds of the empty map and is kept by every map assignment of the decoder
holds of the map it returns. -/
theorem decodeMembers_inv {S : Type} (codec : SessionCodec S) (P : Entries S → Prop)
    (hP : ∀ acc key v, P acc → P (entriesInsert acc (utf8Encode key) v))
    (fuel : Nat) (text : List Char) (acc m : Entries S) (rest : List Char)
    (h : decodeMembers codec fuel text acc = .ok (m, rest)) (hacc : P acc) : P m := by
  induction fuel generalizing text acc with
  | zero => simp [decodeMembers] at h
  | succ f ih =>
    cases text with
    | nil => simp [decodeMembers] at h
    | cons q t1 =>
      simp only [decodeMembers] at h
      split at h
      · split at h
        · simp at h
        · split at h
          · simp at h
          · split at h
            · split at h
              · simp at h
              · split at h
                · simp at h
                · split at h
                  · exact ih _ _ h (hP _ _ _ hacc)
                  · split at h
                    · simp only [Except.ok.injEq, Prod.mk.injEq] at h
                      rw [← h.1]
                      exact hP _ _ _ hacc
                    · simp at h
            · simp at h
      · simp at h

theorem decodeRegistry_inv {S : Type} (codec : SessionCodec S) (P : Entries S → Prop)
    (hP : ∀ acc key v, P acc → P (entriesInsert acc (utf8Encode key) v)) (h0 : P [])
    (text : List Char) (m : GoMap S) (h : decodeRegistry codec text = .ok m) :
    ∀ e, m = some e → P e := by
  unfold decodeRegistry at h
  cases hv : decodeValue codec text with
  | error e => simp [hv] at h
  | ok r =>
    obtain ⟨m1, rest⟩ := r
    simp only [hv, Except.ok.injEq] at h
    subst h
    unfold decodeValue at hv
    split at hv
    · simp at hv
    · split at hv
      · split at hv
        · simp at hv
        · split at hv
          · simp only [Except.ok.injEq, Prod.mk.injEq] at hv
            intro e he
            rw [← hv.1] at he
            rw [← Option.some.inj he]
            exact h0
          · split at hv
            · simp at hv
            · rename_i m2 rest2 hdm
              simp only [Except.ok.injEq, Prod.mk.injEq] at hv
              intro e he
              rw [← hv.1] at he
              rw [← Option.some.inj he]
              exact decodeMembers_inv codec P hP _ _ [] m2 rest2 hdm h0
      · split at hv
        · split at hv
          · split at hv
            · simp only [Except.ok.injEq, Prod.mk.injEq] at hv
              intro e he
              rw [← hv.1] at he
              simp at he
            · simp at hv
          · simp at hv
        · simp at hv

/-- The decoder stores every member with a map assignment, so the decoded map has every
key once. -/
theorem decodeRegistry_wf {S : Type} (codec : SessionCodec S) (text : List Char)
    (m : GoMap S) (h : decodeRegistry codec text = .ok m) : m.WF := by
  have hinv := decodeRegistry_inv codec KeysNodup
    (fun acc key v hacc => keysNodup_insert acc (utf8Encode key) v hacc) List.nodup_nil text m h
  cases m with
  | none => trivial
  | some e => exact hinv e rfl

theorem keysValid_delete {S : Type} (m : Entries S) (k : GoString) (h : KeysValid m) :
    KeysValid (entriesDelete m k) := by
  intro kv hkv
  exact h kv (List.mem_filter.mp hkv).1

theorem keysValid_insert {S : Type} (m : Entries S) (k : GoString) (v : S)
    (hk : ValidUTF8 k) (h : KeysValid m) : KeysValid (entriesInsert m k v) := by
  intro kv hkv
  rcases List.mem_cons.mp hkv with rfl | hmem
  · exact hk
  · exact keysValid_delete m k h kv hmem

/-- The keys of a decoded map are valid UTF-8: they are unquoted from the text. -/
theorem decodeRegistry_valid {S : Type} (codec : SessionCodec S) (text : List Char)
    (m : GoMap S) (h : decodeRegistry codec text = .ok m) : m.KeysValid := by
  have hinv := decodeRegistry_inv codec KeysValid
    (fun acc key v hacc => keysValid_insert acc (utf8Encode key) v ⟨key, rfl⟩ hacc)
    (fun kv hkv => absurd hkv (List.not_mem_nil kv)) text m h
  cases m with
  | none => trivial
  | some e => exact hinv e rfl
theorem goMap_update_wf {S : Type} (contents contents1 : GoMap S) (phone : GoString)
    (v : Option S) (hwf : contents.WF)
    (h : (match v with
        | some x => goMapAssign contents phone x
        | none => Run.ret (goMapDelete contents phone)) = .ret contents1) :
    contents1.WF := by
  cases v with
  | none =>
    simp only [Run.ret.injEq] at h
    subst h
    cases contents with
    | none => trivial
    | some m => exact keysNodup_delete m phone hwf
  | some x =>
    cases contents with
    | none => simp [goMapAssign] at h
    | some m =>
      simp only [goMapAssign, Run.ret.injEq] at h
      subst h
      exact keysNodup_insert m phone x hwf

theorem goMap_update_valid {S : Type} (contents contents1 : GoMap S) (phone : GoString)
    (v : Option S) (hval : contents.KeysValid) (hphone : ValidUTF8 phone)
    (h : (match v with
        | some x => goMapAssign contents phone x
        | none => Run.ret (goMapDelete contents phone)) = .ret contents1) :
    contents1.KeysValid := by
  cases v with
  | none =>
    simp only [Run.ret.injEq] at h
    subst h
    cases contents with
    | none => trivial
    | some m => exact keysValid_delete m phone hval
  | some x =>
    cases contents with
    | none => simp [goMapAssign] at h
    | some m =>
      simp only [goMapAssign, Run.ret.injEq] at h
      subst h
      exact keysValid_insert m phone x hphone hval

theorem goMap_update_same {S : Type} (contents contents1 : GoMap S) (phone : GoString)
    (v : Option S)
    (h : (match v with
        | some x => goMapAssign contents phone x
        | none => Run.ret (goMapDelete contents phone)) = .ret contents1) :
    goMapLookup contents1 phone = v := by
  cases v with
  | none =>
    simp only [Run.ret.injEq] at h
    subst h
    cases contents with
    | none => rfl
    | some m => exact entriesLookup_delete_same m phone
  | some x =>
    cases contents with
    | none => simp [goMapAssign] at h
    | some m =>
      simp only [goMapAssign, Run.ret.injEq] at h
      subst h
      exact entriesLookup_insert_same m phone x

theorem goMap_update_other {S : Type} (contents contents1 : GoMap S) (phone q : GoString)
    (v : Option S) (hq : q ≠ phone)
    (h : (match v with
        | some x => goMapAssign contents phone x
        | none => Run.ret (goMapDelete contents phone)) = .ret contents1) :
    goMapLookup contents1 q = goMapLookup contents q := by
  cases v with
  | none =>
    simp only [Run.ret.injEq] at h
    subst h
    cases contents with
    | none => rfl
    | some m => exact entriesLookup_delete_other m phone q hq
  | some x =>
    cases contents with
    | none => simp [goMapAssign] at h
    | some m =>
      simp only [goMapAssign, Run.ret.injEq] at h
      subst h
      exact entriesLookup_insert_other m phone q x hq

theorem decodeRegistry_nil {S : Type} (codec : SessionCodec S) :
    decodeRegistry codec [] = .error .eof := rfl

/-- The effect of a successful `UpdateSession` for an identity that is valid UTF-8, as
seen through `LoadSession`: there are a registry `contents` read before the change and
a registry `contents1` holding the change such that a load before the call, when it
returns no error, answers from `contents`, and a load after the call returns no error
and answers from `contents1`. -/
theorem UpdateSession_effect {S : Type} (codec : SessionCodec S) (hrt : codec.RoundTrips)
    (io : IOFaults) (proc : Proc) (fs fs2 : FS) (s : jsonSessionStorage)
    (phone : GoString) (v : Option S) (hphone : ValidUTF8 phone)
    (h : s.UpdateSession codec io proc fs phone v = .ret ⟨fs2, none⟩) :
    ∃ contents contents1 : GoMap S,
      (match v with
        | some x => goMapAssign contents phone x
        | none => Run.ret (goMapDelete contents phone)) = .ret contents1 ∧
      (∀ q, (s.LoadSession codec IOFaults.none proc fs q).err = none →
        (s.LoadSession codec IOFaults.none proc fs q).session = goMapLookup contents q) ∧
      (∀ q, (s.LoadSession codec IOFaults.none proc fs2 q).session = goMapLookup contents1 q ∧
        (s.LoadSession codec IOFaults.none proc fs2 q).err = none) := by
  obtain ⟨fs0, dmode, mode, contents, contents1, hmk, hst, hs, hcase, hupd, hn2, hr, hframe⟩ :=
    UpdateSession_ok codec io proc fs fs2 s phone v h
  refine ⟨contents, contents1, hupd, ?_, ?_⟩
  · intro q herr
    rcases hcase with ⟨hn, hc⟩ | ⟨c, hn, hc⟩
    · rw [LoadSession_missing codec _ proc fs fs0 s q dmode hmk hst hs hn, hc]
      rfl
    · rw [LoadSession_file codec _ proc fs fs0 s q dmode mode c rfl hmk hst hs hn hr] at herr ⊢
      rcases hc with ⟨hnil, _⟩ | ⟨_, hdec⟩
      · subst hnil
        simp [decodeRegistry_nil] at herr
      · simp only [hdec]
  · intro q
    -- the path is not the root: the root is a directory, the path holds a file
    have hpath : s.path ≠ [] := by
      intro e
      have h1 : fs0.nodes [] = fs2.nodes [] ∨ True := Or.inr trivial
      rw [e] at hst hn2
      simp only [List.dropLast_nil, osStat] at hst
      rcases hcase with ⟨hn, _⟩ | ⟨c, hn, _⟩
      · rw [e] at hn
        simp [hn] at hst
      · rw [e] at hn
        simp [hn, walk] at hst
    have hlen := length_dropLast_lt s.path hpath
    have hst2 : osStat proc fs2 s.path.dropLast = .ok (.dir dmode) := by
      rw [← hst]
      apply osStat_congr
      intro r hr2
      apply hframe
      intro e
      rw [e] at hr2
      omega
    have hmk2 := osMkdirAll_of_dir proc fs2 s.path.dropLast osModeDir dmode hst2
    have hwf0 : contents.WF := by
      rcases hcase with ⟨_, hc⟩ | ⟨c, _, hc⟩
      · rw [hc]
        exact List.nodup_nil
      · rcases hc with ⟨_, hc⟩ | ⟨_, hdec⟩
        · rw [hc]
          exact List.nodup_nil
        · exact decodeRegistry_wf codec c contents hdec
    have hval0 : contents.KeysValid := by
      rcases hcase with ⟨_, hc⟩ | ⟨c, _, hc⟩
      · rw [hc]
        exact fun kv hkv => absurd hkv (List.not_mem_nil kv)
      · rcases hc with ⟨_, hc⟩ | ⟨_, hdec⟩
        · rw [hc]
          exact fun kv hkv => absurd hkv (List.not_mem_nil kv)
        · exact decodeRegistry_valid codec c contents hdec
    have hwf1 := goMap_update_wf contents contents1 phone v hwf0 hupd
    have hval1 := goMap_update_valid contents contents1 phone v hval0 hphone hupd
    obtain ⟨m2, hdec2, _, hlook⟩ :=
      decodeRegistry_encodeRegistry codec hrt contents1 hwf1 hval1
    rw [LoadSession_file codec _ proc fs2 fs2 s q dmode mode _ rfl hmk2 hst2 hs hn2 hr]
    simp only [hdec2, hlook, and_self]

/-- Read-your-write for one call. -/
theorem LoadSession_after_update {S : Type} (codec : SessionCodec S)
    (hrt : codec.RoundTrips) (io : IOFaults) (proc : Proc) (fs fs2 : FS)
    (s : jsonSessionStorage) (phone : GoString) (v : Option S) (hphone : ValidUTF8 phone)
    (h : s.UpdateSession codec io proc fs phone v = .ret ⟨fs2, none⟩) :
    (s.LoadSession codec IOFaults.none proc fs2 phone).session = v ∧
    (s.LoadSession codec IOFaults.none proc fs2 phone).err = none := by
  obtain ⟨contents, contents1, hupd, _, hafter⟩ :=
    UpdateSession_effect codec hrt io proc fs fs2 s phone v hphone h
  rw [(hafter phone).1, goMap_update_same contents contents1 phone v hupd]
  exact ⟨rfl, (hafter phone).2⟩

/-- An update of an identity that is valid UTF-8 leaves what is loaded for another
identity unchanged, from any state in which that load returns no error. -/
theorem LoadSession_other_after_update {S : Type} (codec : SessionCodec S)
    (hrt : codec.RoundTrips) (io : IOFaults) (proc : Proc) (fs fs2 : FS)
    (s : jsonSessionStorage) (p q : GoString) (v : Option S) (hq : q ≠ p)
    (hp : ValidUTF8 p) (h : s.UpdateSession codec io proc fs p v = .ret ⟨fs2, none⟩)
    (hload : (s.LoadSession codec IOFaults.none proc fs q).err = none) :
    (s.LoadSession codec IOFaults.none proc fs2 q).session =
      (s.LoadSession codec IOFaults.none proc fs q).session ∧
    (s.LoadSession codec IOFaults.none proc fs2 q).err = none := by
  obtain ⟨contents, contents1, hupd, hbefore, hafter⟩ :=
    UpdateSession_effect codec hrt io proc fs fs2 s p v hp h
  rw [(hafter q).1, hbefore q hload, goMap_update_other contents contents1 p q v hq hupd]
  exact ⟨rfl, (hafter q).2⟩

theorem runUpdates_cons {S : Type} (codec : SessionCodec S) (io : IOFaults) (proc : Proc)
    (s : jsonSessionStorage) (p : GoString) (v : Option S)
    (ops : List (GoString × Option S)) (fs fs2 : FS)
    (h : runUpdates codec io proc s ((p, v) :: ops) fs = some fs2) :
    ∃ fs1, s.UpdateSession codec io proc fs p v = .ret ⟨fs1, none⟩ ∧
      runUpdates codec io proc s ops fs1 = some fs2 := by
  simp only [runUpdates] at h
  split at h
  · rename_i fs1 heq
    exact ⟨fs1, heq, h⟩
  · simp at h

/-- Updates of other identities that are valid UTF-8, however many, leave a loaded
value unchanged. -/
theorem LoadSession_after_other_updates {S : Type} (codec : SessionCodec S)
    (hrt : codec.RoundTrips) (io : IOFaults) (proc : Proc) (s : jsonSessionStorage)
    (ops : List (GoString × Option S)) (fs fs2 : FS) (phone : GoString)
    (hvalid : ∀ op ∈ ops, ValidUTF8 op.1)
    (hrun : runUpdates codec io proc s ops fs = some fs2)
    (hother : lastWrite ops phone = none)
    (hload : (s.LoadSession codec IOFaults.none proc fs phone).err = none) :
    (s.LoadSession codec IOFaults.none proc fs2 phone).session =
      (s.LoadSession codec IOFaults.none proc fs phone).session ∧
    (s.LoadSession codec IOFaults.none proc fs2 phone).err = none := by
  induction ops generalizing fs with
  | nil =>
    simp only [runUpdates, Option.some.injEq] at hrun
    subst hrun
    exact ⟨rfl, hload⟩
  | cons op ops ih =>
    obtain ⟨p, v⟩ := op
    obtain ⟨fs1, hupd, hrest⟩ := runUpdates_cons codec io proc s p v ops fs fs2 hrun
    simp only [lastWrite] at hother
    cases hl : lastWrite ops phone with
    | some w => simp [hl] at hother
    | none =>
      simp only [hl] at hother
      have hne : phone ≠ p := by
        intro e
        simp [e] at hother
      have h1 := LoadSession_other_after_update codec hrt io proc fs fs1 s p phone v hne
        (hvalid (p, v) (List.mem_cons_self _ _)) hupd hload
      have h2 := ih fs1 (fun op hop => hvalid op (List.mem_cons_of_mem _ hop)) hrest hl h1.2
      exact ⟨h2.1.trans h1.1, h2.2⟩

/-- The example codec round-trips. -/
theorem tokenCodec_roundTrips : tokenCodec.RoundTrips := by
  intro s rest
  obtain ⟨id⟩ := s
  have henc : tokenCodec.encode ⟨id⟩ ++ rest =
      '{' :: '"' :: 'i' :: 'd' :: '"' :: ':' :: '"' ::
        (appendStringBody id ++ '"' :: '}' :: rest) := by
    simp [tokenCodec, TokenSession.encode, appendStringText, List.append_assoc]
  rw [henc]
  have hdec : ∀ t, tokenCodec.decode t = TokenSession.decode t := fun _ => rfl
  rw [hdec]
  unfold TokenSession.decode
  rw [skipSpace_cons_of_not_space _ _ (by decide)]
  simp only [unquote_appendStringBody, if_true]

theorem demoUpdates_valid : ∀ op ∈ demoUpdates, ValidUTF8 op.1 := by
  intro op hop
  simp only [demoUpdates, List.mem_cons, List.mem_singleton, List.not_mem_nil, or_false] at hop
  rcases hop with rfl | rfl | rfl | rfl <;> exact ⟨_, rfl⟩

/-- C1 (amended): read-your-write on the session registry for identities that are valid
UTF-8.  Assume the session record's JSON encoding round-trips.  After any sequence of
`UpdateSession` calls that all succeed and whose identities are all valid UTF-8, started
from any state of the file system (backing file missing, empty or holding a registry),
`LoadSession(phone)` returns no error and returns the value written by the most recent
update for `phone`: that session, or nil if the last update passed nil.  A single update
followed by a load is the sequence of length one. -/
theorem UpdateSession_read_your_write {S : Type} (codec : SessionCodec S)
    (hrt : codec.RoundTrips) (io : IOFaults) (proc : Proc) (s : jsonSessionStorage)
    (ops : List (GoString × Option S)) (fs fs2 : FS) (phone : GoString) (v : Option S)
    (hvalid : ∀ op ∈ ops, ValidUTF8 op.1)
    (hrun : runUpdates codec io proc s ops fs = some fs2)
    (hlast : lastWrite ops phone = some v) :
    (s.LoadSession codec IOFaults.none proc fs2 phone).session = v ∧
    (s.LoadSession codec IOFaults.none proc fs2 phone).err = none := by
  induction ops generalizing fs with
  | nil => simp [lastWrite] at hlast
  | cons op ops ih =>
    obtain ⟨p, w⟩ := op
    obtain ⟨fs1, hupd, hrest⟩ := runUpdates_cons codec io proc s p w ops fs fs2 hrun
    have hvalid2 : ∀ op ∈ ops, ValidUTF8 op.1 :=
      fun op hop => hvalid op (List.mem_cons_of_mem _ hop)
    simp only [lastWrite] at hlast
    cases hl : lastWrite ops phone with
    | some x =>
      simp only [hl, Option.some.injEq] at hlast
      subst hlast
      exact ih fs1 hvalid2 hrest hl
    | none =>
      simp only [hl] at hlast
      by_cases hp : p = phone
      · simp only [hp, if_true, Option.some.injEq] at hlast
        subst hp hlast
        have h1 := LoadSession_after_update codec hrt io proc fs fs1 s p w
          (hvalid (p, w) (List.mem_cons_self _ _)) hupd
        have h2 := LoadSession_after_other_updates codec hrt io proc s ops fs1 fs2 p hvalid2
          hrest hl h1.2
        exact ⟨h2.1.trans h1.1, h2.2⟩
      · simp [hp] at hlast

theorem UpdateSession_read_your_write_witness :
    tokenCodec.RoundTrips ∧ (∀ op ∈ demoUpdates, ValidUTF8 op.1) ∧
    runUpdates tokenCodec IOFaults.none user demoStorage demoUpdates baseFS = some demoFS ∧
    lastWrite demoUpdates (utf8Encode "+79001234567".toList) =
      some (some ⟨"second".toList⟩) ∧
    (demoStorage.LoadSession tokenCodec IOFaults.none user demoFS
        (utf8Encode "+79001234567".toList)).session = some ⟨"second".toList⟩ ∧
    (demoStorage.LoadSession tokenCodec IOFaults.none user demoFS
        (utf8Encode "+79001234567".toList)).err = none :=
  ⟨tokenCodec_roundTrips, demoUpdates_valid, rfl, rfl,
    UpdateSession_read_your_write tokenCodec tokenCodec_roundTrips IOFaults.none user
      demoStorage demoUpdates baseFS demoFS _ _ demoUpdates_valid rfl rfl⟩

/-- C1 (counterexample): the identity is the Go string `"\xff"`, one byte that is not
valid UTF-8.  `UpdateSession("\xff", v)` on the empty data directory succeeds, and the
encoder writes the key as the escape `\ufffd`; the following `LoadSession("\xff")`
returns no error and no session, since the key read back is the character U+FFFD, under
which the session is found instead. -/
theorem UpdateSession_invalid_identity_not_read_back :
    demoStorage.UpdateSession tokenCodec IOFaults.none user baseFS invalidPhone
      (some ⟨"first".toList⟩) = .ret ⟨invalidFS, none⟩ ∧
    invalidFS.nodes demoStorage.path =
      some (.file 0o644 "\x7b\"\\ufffd\":\x7b\"id\":\"first\"\x7d\x7d\n".toList) ∧
    (demoStorage.LoadSession tokenCodec IOFaults.none user invalidFS invalidPhone).session =
      none ∧
    (demoStorage.LoadSession tokenCodec IOFaults.none user invalidFS invalidPhone).err =
      none ∧
    (demoStorage.LoadSession tokenCodec IOFaults.none user invalidFS
      replacementPhone).session = some ⟨"first".toList⟩ ∧
    invalidPhone ≠ replacementPhone :=
  ⟨rfl, rfl, rfl, rfl, rfl, by decide⟩

/-- C2 (amended): an update of an identity that is valid UTF-8 never affects another
identity.  Assume the session record's JSON encoding round-trips.  If `UpdateSession(p,
v)` succeeds, `p` being valid UTF-8, and `LoadSession(q)`, for an identity `q` other than
`p`, returned no error before the update (as it does on every backing file holding a
valid registry), then `LoadSession(q)` after the update returns no error and exactly the
session, or nil, it returned before; so the identities other than `p` that have a
session are the same before and after. -/
theorem UpdateSession_preserves_other_identities {S : Type} (codec : SessionCodec S)
    (hrt : codec.RoundTrips) (io : IOFaults) (proc : Proc) (fs fs2 : FS)
    (s : jsonSessionStorage) (p q : GoString) (v : Option S) (hq : q ≠ p)
    (hp : ValidUTF8 p)
    (hupd : s.UpdateSession codec io proc fs p v = .ret ⟨fs2, none⟩)
    (hload : (s.LoadSession codec IOFaults.none proc fs q).err = none) :
    (s.LoadSession codec IOFaults.none proc fs2 q).session =
      (s.LoadSession codec IOFaults.none proc fs q).session ∧
    (s.LoadSession codec IOFaults.none proc fs2 q).err = none ∧
    ((s.LoadSession codec IOFaults.none proc fs2 q).session.isSome =
      (s.LoadSession codec IOFaults.none proc fs q).session.isSome) := by
  have h := LoadSession_other_after_update codec hrt io proc fs fs2 s p q v hq hp hupd hload
  exact ⟨h.1, h.2, by rw [h.1]⟩

theorem UpdateSession_preserves_other_identities_witness :
    tokenCodec.RoundTrips ∧
    utf8Encode "+79007654321".toList ≠ utf8Encode "+79001234567".toList ∧
    ValidUTF8 (utf8Encode "+79001234567".toList) ∧
    demoStorage.UpdateSession tokenCodec IOFaults.none user demoFS2
      (utf8Encode "+79001234567".toList) none = .ret ⟨demoFS3, none⟩ ∧
    (demoStorage.LoadSession tokenCodec IOFaults.none user demoFS2
      (utf8Encode "+79007654321".toList)).err = none ∧
    (demoStorage.LoadSession tokenCodec IOFaults.none user demoFS3
        (utf8Encode "+79007654321".toList)).session =
      (demoStorage.LoadSession tokenCodec IOFaults.none user demoFS2
        (utf8Encode "+79007654321".toList)).session ∧
    (demoStorage.LoadSession tokenCodec IOFaults.none user demoFS3
        (utf8Encode "+79007654321".toList)).err = none ∧
    ((demoStorage.LoadSession tokenCodec IOFaults.none user demoFS3
        (utf8Encode "+79007654321".toList)).session.isSome =
      (demoStorage.LoadSession tokenCodec IOFaults.none user demoFS2
        (utf8Encode "+79007654321".toList)).session.isSome) :=
  ⟨tokenCodec_roundTrips, by decide, ⟨_, rfl⟩, rfl, rfl,
    UpdateSession_preserves_other_identities tokenCodec tokenCodec_roundTrips IOFaults.none
      user demoFS2 demoFS3 demoStorage _ _ none (by decide) ⟨_, rfl⟩ rfl rfl⟩

/-- C2 (counterexample): the registry holds a session for the identity U+FFFD, and the
distinct identity `"\xff"`, which is not valid UTF-8, logs in.  `UpdateSession("\xff",
v)` succeeds; the encoder writes both keys, the second as the escape `\ufffd`, the
decoder reads both as U+FFFD and keeps the last, so `LoadSession` of the identity U+FFFD
returns the session of the other identity instead of its own. -/
theorem UpdateSession_invalid_identity_replaces_other :
    invalidPhone ≠ replacementPhone ∧
    (demoStorage.LoadSession tokenCodec IOFaults.none user replacementFS
      replacementPhone).session = some ⟨"first".toList⟩ ∧
    (demoStorage.LoadSession tokenCodec IOFaults.none user replacementFS
      replacementPhone).err = none ∧
    demoStorage.UpdateSession tokenCodec IOFaults.none user replacementFS invalidPhone
      (some ⟨"other".toList⟩) = .ret ⟨collisionFS, none⟩ ∧
    collisionFS.nodes demoStorage.path =
      some (.file 0o644
        "\x7b\"\uFFFD\":\x7b\"id\":\"first\"\x7d,\"\\ufffd\":\x7b\"id\":\"other\"\x7d\x7d\n".toList) ∧
    (demoStorage.LoadSession tokenCodec IOFaults.none user collisionFS
      replacementPhone).session = some ⟨"other".toList⟩ ∧
    (demoStorage.LoadSession tokenCodec IOFaults.none user collisionFS
      replacementPhone).err = none :=
  ⟨by decide, rfl, rfl, rfl, rfl, rfl, rfl⟩

/-- The registry file after the example sequence of updates, and what is loaded from it. -/
theorem demoFS_content :
    demoFS.nodes demoStorage.path =
      some (.file 0o644
        "\x7b\"+79001234567\":\x7b\"id\":\"second\"\x7d,\"+79007654321\":\x7b\"id\":\"other\"\x7d\x7d\n".toList) ∧
    (demoStorage.LoadSession tokenCodec IOFaults.none user demoFS
      (utf8Encode "+79007654321".toList)).session = some ⟨"other".toList⟩ := by
  constructor
  · rfl
  · rfl

/-! ## Theorems: `LoadSession` and a missing file -/

/-- C3 (amended): whenever nothing exists at the configured path and its parent
directory exists and can be searched by the process, `LoadSession` returns
`(nil, nil)` for every identity and leaves the file system as it was. -/
theorem LoadSession_missing_file {S : Type} (codec : SessionCodec S) (io : IOFaults)
    (proc : Proc) (fs : FS) (s : jsonSessionStorage) (phone : GoString)
    (h : NoFileAt proc fs s.path) :
    (s.LoadSession codec io proc fs phone).session = none ∧
    (s.LoadSession codec io proc fs phone).err = none ∧
    (s.LoadSession codec io proc fs phone).fs = fs := by
  obtain ⟨dmode, hst, hs, hn⟩ := h
  have hmk := osMkdirAll_of_dir proc fs s.path.dropLast osModeDir dmode hst
  rw [LoadSession_missing codec io proc fs fs s phone dmode hmk hst hs hn]
  exact ⟨rfl, rfl, rfl⟩

theorem LoadSession_missing_file_witness :
    NoFileAt user baseFS demoStorage.path ∧
    (demoStorage.LoadSession tokenCodec IOFaults.none user baseFS
      (utf8Encode "+79001234567".toList)).session = none ∧
    (demoStorage.LoadSession tokenCodec IOFaults.none user baseFS
      (utf8Encode "+79001234567".toList)).err = none ∧
    (demoStorage.LoadSession tokenCodec IOFaults.none user baseFS
      (utf8Encode "+79001234567".toList)).fs = baseFS :=
  ⟨⟨0o755, rfl, rfl, rfl⟩,
    LoadSession_missing_file tokenCodec IOFaults.none user baseFS demoStorage _
      ⟨0o755, rfl, rfl, rfl⟩⟩

/-- C3 (counterexample): `/data` is a regular file, so no file exists at
`/data/sessions.json`; `os.MkdirAll` fails with `ENOTDIR`, which is not
`os.ErrNotExist`, and `LoadSession` returns that error instead of `(nil, nil)`. -/
theorem LoadSession_parent_not_directory :
    dataIsFileFS.nodes demoStorage.path = none ∧
    (demoStorage.LoadSession tokenCodec IOFaults.none user dataIsFileFS
      (utf8Encode "+79001234567".toList)).session = none ∧
    (demoStorage.LoadSession tokenCodec IOFaults.none user dataIsFileFS
      (utf8Encode "+79001234567".toList)).err =
      some (.wrapped (.pathError "mkdir" ["data"] .ENOTDIR) "create parent directory") := by
  exact ⟨rfl, rfl, rfl⟩

/-- When the parent directory is missing as well, `os.MkdirAll(dir, os.ModeDir)` creates
it without any permission bit: an unprivileged process is then refused the search of
its own new directory and `LoadSession` returns the `EACCES` of the open, while a
privileged process gets `(nil, nil)`. -/
theorem LoadSession_parent_missing :
    rootOnlyFS.nodes demoStorage.path.dropLast = none ∧
    (demoStorage.LoadSession tokenCodec IOFaults.none user rootOnlyFS
      (utf8Encode "+79001234567".toList)).fs.nodes ["data"] = some (.dir 0) ∧
    (demoStorage.LoadSession tokenCodec IOFaults.none user rootOnlyFS
      (utf8Encode "+79001234567".toList)).err =
      some (.wrapped (.pathError "open" ["data", "sessions.json"] .EACCES) "open file") ∧
    (demoStorage.LoadSession tokenCodec IOFaults.none superuser rootOnlyFS
      (utf8Encode "+79001234567".toList)).err = none ∧
    (demoStorage.LoadSession tokenCodec IOFaults.none superuser rootOnlyFS
      (utf8Encode "+79001234567".toList)).session = none := by
  exact ⟨rfl, rfl, rfl, rfl, rfl⟩

/-! ## Theorems: failures of `UpdateSession` -/

theorem openFile_create_of_fileAt (proc : Proc) (fs : FS) (s : jsonSessionStorage)
    (mode : Nat) (content : List Char) (h : FileAt proc fs s.path mode content) :
    s.openFile proc fs .O_RDWR_CREATE =
      if mayRead proc mode && mayWrite proc mode then (fs, .ok s.path)
      else (fs, .error (.wrapped (.pathError "open" s.path .EACCES) "open file")) := by
  obtain ⟨dmode, hst, hs, hn⟩ := h
  have hmk := osMkdirAll_of_dir proc fs s.path.dropLast osModeDir dmode hst
  by_cases hrw : (mayRead proc mode && mayWrite proc mode) = true
  · simp only [jsonSessionStorage.openFile, hmk, osOpenFile, hst, hs, hn, if_true, hrw]
  · simp only [jsonSessionStorage.openFile, hmk, osOpenFile, hst, hs, hn, if_true, hrw,
      Bool.false_eq_true, if_false]

/-- How far a failing `UpdateSession` got on an existing backing file, told by the
message of the error it returns: before the truncation the file system is untouched;
a failed seek leaves the file empty; a failed write leaves a prefix of the new
encoding. -/
theorem UpdateSession_failure_state {S : Type} (codec : SessionCodec S) (io : IOFaults)
    (proc : Proc) (fs fs2 : FS) (s : jsonSessionStorage) (phone : GoString) (v : Option S)
    (mode : Nat) (content : List Char) (err : GoError)
    (hfile : FileAt proc fs s.path mode content)
    (h : s.UpdateSession codec io proc fs phone v = .ret ⟨fs2, some err⟩) :
    ∃ cause msg, err = .wrapped cause msg ∧
      ((beforeTruncation msg ∧ fs2 = fs) ∨
       (msg = "seek to the start of file" ∧ fs2 = fs.set s.path (.file mode [])) ∨
       (msg = "encode json" ∧ ∃ (contents1 : GoMap S) (n : Nat),
          fs2 = (fs.set s.path (.file mode [])).set s.path
            (.file mode ((encodeRegistry codec contents1).take n)))) := by
  have hn : fs.nodes s.path = some (.file mode content) := by
    obtain ⟨_, _, _, hn⟩ := hfile
    exact hn
  unfold jsonSessionStorage.UpdateSession at h
  rw [openFile_create_of_fileAt proc fs s mode content hfile] at h
  by_cases hrw : (mayRead proc mode && mayWrite proc mode) = true
  · simp only [hrw, if_true] at h
    cases hstat : io.stat with
    | some e =>
      simp only [fileSize, hstat, Run.ret.injEq, UpdateResult.mk.injEq, Option.some.injEq] at h
      exact ⟨_, _, h.2.symm, Or.inl ⟨Or.inr (Or.inr (Or.inl rfl)), h.1.symm⟩⟩
    | none =>
      have hsize : fileSize io fs s.path = .ok content.length := by
        simp [fileSize, hstat, hn]
      simp only [hsize] at h
      cases hdec : (if content.length > 0 then fileDecode codec io fs s.path
          else (Except.ok (some []) : Except GoError (GoMap S))) with
      | error e =>
        simp only [hdec, Run.ret.injEq, UpdateResult.mk.injEq, Option.some.injEq] at h
        exact ⟨_, _, h.2.symm, Or.inl ⟨Or.inr (Or.inr (Or.inr (Or.inl rfl))), h.1.symm⟩⟩
      | ok contents =>
        simp only [hdec] at h
        cases hupd : (match v with
            | some x => goMapAssign contents phone x
            | none => Run.ret (goMapDelete contents phone)) with
        | panicked msg => simp [hupd] at h
        | ret contents1 =>
          simp only [hupd] at h
          cases htr : io.truncate with
          | some e =>
            simp only [fileTruncate, htr, Run.ret.injEq, UpdateResult.mk.injEq,
              Option.some.injEq] at h
            exact ⟨_, _, h.2.symm,
              Or.inl ⟨Or.inr (Or.inr (Or.inr (Or.inr rfl))), h.1.symm⟩⟩
          | none =>
            have htrunc : fileTruncate io fs s.path =
                (fs.set s.path (.file mode []), none) := by
              simp [fileTruncate, htr, hn]
            simp only [htrunc] at h
            cases hsk : io.seek with
            | some e =>
              simp only [fileSeekStart, hsk, Run.ret.injEq, UpdateResult.mk.injEq,
                Option.some.injEq] at h
              exact ⟨_, _, h.2.symm, Or.inr (Or.inl ⟨rfl, h.1.symm⟩)⟩
            | none =>
              have hseek : fileSeekStart io s.path = none := by simp [fileSeekStart, hsk]
              simp only [hseek] at h
              cases hw : io.write with
              | some ne =>
                obtain ⟨n, e⟩ := ne
                simp only [fileWrite, FS.set_nodes_same, hw, Run.ret.injEq,
                  UpdateResult.mk.injEq, Option.some.injEq] at h
                exact ⟨_, _, h.2.symm, Or.inr (Or.inr ⟨rfl, contents1, n, h.1.symm⟩)⟩
              | none =>
                simp [fileWrite, FS.set_nodes_same, hw] at h
  · simp only [hrw, Bool.false_eq_true, if_false, Run.ret.injEq, UpdateResult.mk.injEq,
      Option.some.injEq] at h
    exact ⟨_, _, h.2.symm, Or.inl ⟨Or.inr (Or.inl rfl), h.1.symm⟩⟩

/-- C5 (amended): if `UpdateSession` on an existing backing file returns an error
raised before the truncation took effect (creating the parent directory, open, stat,
decode or the truncation itself), the file system is unchanged, so `LoadSession` reads
back the same registry as before the call. -/
theorem UpdateSession_failure_before_truncation {S : Type} (codec : SessionCodec S)
    (io io2 : IOFaults) (proc : Proc) (fs fs2 : FS) (s : jsonSessionStorage)
    (phone q : GoString) (v : Option S) (mode : Nat) (content : List Char)
    (cause : GoError) (msg : String)
    (hfile : FileAt proc fs s.path mode content)
    (h : s.UpdateSession codec io proc fs phone v = .ret ⟨fs2, some (.wrapped cause msg)⟩)
    (hmsg : beforeTruncation msg) :
    fs2 = fs ∧
    (s.LoadSession codec io2 proc fs2 q).session = (s.LoadSession codec io2 proc fs q).session ∧
    (s.LoadSession codec io2 proc fs2 q).err = (s.LoadSession codec io2 proc fs q).err := by
  obtain ⟨cause1, msg1, herr, hcase⟩ :=
    UpdateSession_failure_state codec io proc fs fs2 s phone v mode content _ hfile h
  simp only [GoError.wrapped.injEq] at herr
  obtain ⟨_, hm⟩ := herr
  subst hm
  rcases hcase with ⟨_, hfs⟩ | ⟨hm, _⟩ | ⟨hm, _⟩
  · subst hfs
    exact ⟨rfl, rfl, rfl⟩
  · subst hm
    simp [beforeTruncation] at hmsg
  · subst hm
    simp [beforeTruncation] at hmsg

theorem UpdateSession_failure_before_truncation_witness :
    FileAt user oneSessionFS demoStorage.path 0o644
      "\x7b\"+79001234567\":\x7b\"id\":\"first\"\x7d\x7d\n".toList ∧
    demoStorage.UpdateSession tokenCodec truncateFails user oneSessionFS
        (utf8Encode "+79007654321".toList) (some ⟨"other".toList⟩) =
      .ret ⟨oneSessionFS, some (.wrapped
        (.pathError "truncate" ["data", "sessions.json"] .EPERM) "truncate file")⟩ ∧
    beforeTruncation "truncate file" ∧
    oneSessionFS = oneSessionFS ∧
    (demoStorage.LoadSession tokenCodec IOFaults.none user oneSessionFS
        (utf8Encode "+79001234567".toList)).session =
      (demoStorage.LoadSession tokenCodec IOFaults.none user oneSessionFS
        (utf8Encode "+79001234567".toList)).session ∧
    (demoStorage.LoadSession tokenCodec IOFaults.none user oneSessionFS
        (utf8Encode "+79001234567".toList)).err =
      (demoStorage.LoadSession tokenCodec IOFaults.none user oneSessionFS
        (utf8Encode "+79001234567".toList)).err :=
  ⟨⟨0o755, rfl, rfl, rfl⟩, rfl, Or.inr (Or.inr (Or.inr (Or.inr rfl))),
    UpdateSession_failure_before_truncation tokenCodec truncateFails IOFaults.none user
      oneSessionFS oneSessionFS demoStorage (utf8Encode "+79007654321".toList) (utf8Encode "+79001234567".toList)
      (some ⟨"other".toList⟩) 0o644 "\x7b\"+79001234567\":\x7b\"id\":\"first\"\x7d\x7d\n".toList
      (.pathError "truncate" ["data", "sessions.json"] .EPERM) "truncate file"
      ⟨0o755, rfl, rfl, rfl⟩ rfl (Or.inr (Or.inr (Or.inr (Or.inr rfl))))⟩

/-- C5 (counterexample): the registry holds a session for one identity; a login of a
second identity fails in the write after five bytes.  `UpdateSession` returns the
error, and the file is left holding `{"+79`, neither the prior registry nor the updated
one: `LoadSession` for the first identity, which returned its session before the call,
now returns a decode error. -/
theorem UpdateSession_failed_write_loses_registry :
    (demoStorage.LoadSession tokenCodec IOFaults.none user oneSessionFS
      (utf8Encode "+79001234567".toList)).session = some ⟨"first".toList⟩ ∧
    (demoStorage.LoadSession tokenCodec IOFaults.none user oneSessionFS
      (utf8Encode "+79001234567".toList)).err = none ∧
    demoStorage.UpdateSession tokenCodec writeFails user oneSessionFS
        (utf8Encode "+79007654321".toList) (some ⟨"other".toList⟩) =
      .ret ⟨brokenFS, some (.wrapped
        (.pathError "write" ["data", "sessions.json"] .ENOSPC) "encode json")⟩ ∧
    brokenFS.nodes demoStorage.path = some (.file 0o644 "\x7b\"+79".toList) ∧
    (demoStorage.LoadSession tokenCodec IOFaults.none user brokenFS
      (utf8Encode "+79001234567".toList)).session = none ∧
    (demoStorage.LoadSession tokenCodec IOFaults.none user brokenFS
      (utf8Encode "+79001234567".toList)).err = some (.wrapped .jsonDecode "decode json") := by
  exact ⟨rfl, rfl, rfl, rfl, rfl, rfl⟩

/-! ## Theorems: `LoadSession` and malformed content -/

theorem decodeMembers_sound {S : Type} (codec : SessionCodec S) (fuel : Nat)
    (text : List Char) (acc m : Entries S) (rest : List Char)
    (h : decodeMembers codec fuel text acc = .ok (m, rest)) : MembersText codec text := by
  induction fuel generalizing text acc with
  | zero => simp [decodeMembers] at h
  | succ f ih =>
    cases text with
    | nil => simp [decodeMembers] at h
    | cons q t1 =>
      simp only [decodeMembers] at h
      split at h
      · rename_i hq
        subst hq
        split at h
        · simp at h
        · rename_i key t2 hkey
          split at h
          · simp at h
          · rename_i colon t3 hcolon
            split at h
            · rename_i hc
              subst hc
              split at h
              · simp at h
              · rename_i s t4 hval
                split at h
                · simp at h
                · rename_i sep t5 hsep
                  split at h
                  · rename_i hs
                    subst hs
                    exact MembersText.more t1 key t2 t3 s t4 t5 hkey hcolon hval hsep
                      (ih _ _ h)
                  · split at h
                    · rename_i hs
                      subst hs
                      exact MembersText.last t1 key t2 t3 s t4 t5 hkey hcolon hval hsep
                    · simp at h
            · simp at h
      · simp at h

/-- Whatever the decoder accepts begins with `null` or with a complete object of
session records. -/
theorem decodeRegistry_sound {S : Type} (codec : SessionCodec S) (text : List Char)
    (m : GoMap S) (h : decodeRegistry codec text = .ok m) : BeginsWithRegistry codec text := by
  unfold decodeRegistry at h
  cases hv : decodeValue codec text with
  | error e => simp [hv] at h
  | ok r =>
    unfold decodeValue at hv
    split at hv
    · simp at hv
    · rename_i c t1 hskip
      split at hv
      · rename_i hc
        subst hc
        refine Or.inr ⟨t1, hskip, ?_⟩
        split at hv
        · simp at hv
        · rename_i c2 t2 hskip2
          split at hv
          · rename_i hc2
            subst hc2
            exact Or.inl ⟨t2, hskip2⟩
          · split at hv
            · simp at hv
            · rename_i m2 rest2 hdm
              rw [hskip2]
              exact Or.inr (decodeMembers_sound codec _ _ [] m2 rest2 hdm)
      · split at hv
        · rename_i hc
          subst hc
          split at hv
          · rename_i u l1 l2 rest
            split at hv
            · rename_i hull
              obtain ⟨h1, h2, h3⟩ := hull
              subst h1 h2 h3
              exact Or.inl ⟨rest, hskip⟩
            · simp at hv
          · simp at hv
        · simp at hv

/-- C4 (amended): for every identity and every existing backing file whose content does
not begin, after optional white space, with the literal `null` or with a complete JSON
object mapping strings to session records (an empty file, a truncated object, an array,
a number, a string), `LoadSession` returns a nil session and a non-nil error.  What
follows the first value is not examined. -/
theorem LoadSession_malformed_content {S : Type} (codec : SessionCodec S) (io : IOFaults)
    (proc : Proc) (fs : FS) (s : jsonSessionStorage) (phone : GoString) (mode : Nat)
    (content : List Char) (hfile : FileAt proc fs s.path mode content)
    (hbad : ¬ BeginsWithRegistry codec content) :
    (s.LoadSession codec io proc fs phone).session = none ∧
    (s.LoadSession codec io proc fs phone).err ≠ none := by
  obtain ⟨dmode, hst, hs, hn⟩ := hfile
  have hmk := osMkdirAll_of_dir proc fs s.path.dropLast osModeDir dmode hst
  by_cases hr : mayRead proc mode = true
  · cases hio : io.read with
    | none =>
      rw [LoadSession_file codec io proc fs fs s phone dmode mode content hio hmk hst hs hn hr]
      cases hdec : decodeRegistry codec content with
      | error e => exact ⟨rfl, by simp⟩
      | ok m => exact absurd (decodeRegistry_sound codec content m hdec) hbad
    | some e =>
      simp [jsonSessionStorage.LoadSession, jsonSessionStorage.openFile, hmk,
        osOpenFile_rdonly_file proc fs s.path _ dmode mode content hst hs hn hr, fileDecode,
        fileRead, hio]
  · simp [jsonSessionStorage.LoadSession, jsonSessionStorage.openFile, hmk, osOpenFile,
      hst, hs, hn, hr, isNotExist]

theorem LoadSession_malformed_content_witness :
    FileAt user (fsWithRegistry "") demoStorage.path 0o644 [] ∧
    ¬ BeginsWithRegistry tokenCodec [] ∧
    (demoStorage.LoadSession tokenCodec IOFaults.none user (fsWithRegistry "")
      (utf8Encode "+79001234567".toList)).session = none ∧
    (demoStorage.LoadSession tokenCodec IOFaults.none user (fsWithRegistry "")
      (utf8Encode "+79001234567".toList)).err ≠ none :=
  have hbad : ¬ BeginsWithRegistry tokenCodec [] := by
    intro h
    rcases h with ⟨rest, h⟩ | ⟨t, h, _⟩
    · exact List.noConfusion h
    · exact List.noConfusion h
  ⟨⟨0o755, rfl, rfl, rfl⟩, hbad,
    LoadSession_malformed_content tokenCodec IOFaults.none user (fsWithRegistry "")
      demoStorage _ 0o644 [] ⟨0o755, rfl, rfl, rfl⟩ hbad⟩

/-- Malformed contents that `LoadSession` rejects: the empty file with `io.EOF`, a
truncated object, an array and an object with a trailing comma with a decode error. -/
theorem LoadSession_malformed_examples :
    (demoStorage.LoadSession tokenCodec IOFaults.none user (fsWithRegistry "")
      (utf8Encode "+79001234567".toList)).err = some (.wrapped .eof "decode json") ∧
    (demoStorage.LoadSession tokenCodec IOFaults.none user
      (fsWithRegistry "\x7b\"+79001234567\":\x7b\"id\":\"first\"\x7d")
      (utf8Encode "+79001234567".toList)).err = some (.wrapped .jsonDecode "decode json") ∧
    (demoStorage.LoadSession tokenCodec IOFaults.none user (fsWithRegistry "[]")
      (utf8Encode "+79001234567".toList)).err = some (.wrapped .jsonDecode "decode json") ∧
    (demoStorage.LoadSession tokenCodec IOFaults.none user
      (fsWithRegistry "\x7b\"+79001234567\":\x7b\"id\":\"first\"\x7d,\x7d")
      (utf8Encode "+79001234567".toList)).err = some (.wrapped .jsonDecode "decode json") := by
  exact ⟨rfl, rfl, rfl, rfl⟩

/-- C4 (counterexample): on a backing file holding `{}xyz`, a valid object followed by
trailing garbage, and on one holding the literal `null`, `LoadSession` returns
`(nil, nil)`: the decoder reads the first JSON value of the stream and never looks at
what follows it, and `null` decodes into a nil map. -/
theorem LoadSession_accepts_trailing_garbage_and_null :
    (demoStorage.LoadSession tokenCodec IOFaults.none user (fsWithRegistry "\x7b\x7dxyz")
      (utf8Encode "+79001234567".toList)).session = none ∧
    (demoStorage.LoadSession tokenCodec IOFaults.none user (fsWithRegistry "\x7b\x7dxyz")
      (utf8Encode "+79001234567".toList)).err = none ∧
    (demoStorage.LoadSession tokenCodec IOFaults.none user (fsWithRegistry "null")
      (utf8Encode "+79001234567".toList)).session = none ∧
    (demoStorage.LoadSession tokenCodec IOFaults.none user (fsWithRegistry "null")
      (utf8Encode "+79001234567".toList)).err = none := by
  exact ⟨rfl, rfl, rfl, rfl⟩

/-! ## Theorems: digits and numbers in `time.Parse` -/

theorem digitChar_mod (n : Nat) : digitChar n = digitChar (n % 10) := by
  simp [digitChar]

theorem digit_facts : ∀ d, d < 10 →
    isDigitChar (digitChar d) = true ∧ digitVal (digitChar d) = (d : Int) ∧
    digitChar d ≠ '-' ∧ digitChar d ≠ '+' := by
  decide

theorem isDigitChar_digitChar (n : Nat) : isDigitChar (digitChar n) = true := by
  rw [digitChar_mod]
  exact (digit_facts (n % 10) (Nat.mod_lt _ (by decide))).1

theorem digitVal_digitChar (n : Nat) : digitVal (digitChar n) = ((n % 10 : Nat) : Int) := by
  rw [digitChar_mod]
  exact (digit_facts (n % 10) (Nat.mod_lt _ (by decide))).2.1

theorem digitChar_ne_minus (n : Nat) : digitChar n ≠ '-' := by
  rw [digitChar_mod]
  exact (digit_facts (n % 10) (Nat.mod_lt _ (by decide))).2.2.1

theorem digitChar_ne_plus (n : Nat) : digitChar n ≠ '+' := by
  rw [digitChar_mod]
  exact (digit_facts (n % 10) (Nat.mod_lt _ (by decide))).2.2.2

/-- Two digits are read back as the number they write. -/
theorem getnum_pad2 (n : Nat) (rest : List Char) (fixed : Bool) (h : n < 100) :
    getnum (pad2 n ++ rest) fixed = some ((n : Int), rest) := by
  simp only [pad2, List.cons_append, List.nil_append, getnum, isDigitChar_digitChar, if_true,
    digitVal_digitChar]
  congr 2
  omega

theorem leadingInt_digit (n : Nat) (s : List Char) (x : Int) :
    leadingInt (digitChar n :: s) x = leadingInt s (x * 10 + ((n % 10 : Nat) : Int)) := by
  simp only [leadingInt, isDigitChar_digitChar, if_true, digitVal_digitChar]

/-- Four digits are read back as the year they write. -/
theorem atoi_pad4 (n : Nat) (h : n < 10000) : atoi (pad4 n) = some (n : Int) := by
  have h1 := digitChar_ne_minus (n / 1000)
  have h2 := digitChar_ne_plus (n / 1000)
  simp only [pad4, atoi, h1, h2, if_false]
  rw [leadingInt_digit, leadingInt_digit, leadingInt_digit, leadingInt_digit]
  simp only [leadingInt]
  congr 1
  omega

theorem not_digit_of_sign (c : Char) (h : c = '+' ∨ c = '-') : isDigitChar c = false := by
  rcases h with rfl | rfl <;> decide

theorem takeWhile_pad3 (n : Nat) (c : Char) (rest : List Char) (hc : isDigitChar c = false) :
    (pad3 n ++ c :: rest).takeWhile isDigitChar = pad3 n ∧
    (pad3 n ++ c :: rest).dropWhile isDigitChar = c :: rest := by
  simp [pad3, List.takeWhile_cons, List.dropWhile_cons, isDigitChar_digitChar, hc]

/-- Three digits after the separator are read as milliseconds. -/
theorem parseNanoseconds_pad3 (n : Nat) (h : n < 1000) :
    parseNanoseconds (pad3 n) = some ((n : Int) * 1000000) := by
  have h1 := digitChar_ne_minus (n / 100)
  have h2 := digitChar_ne_plus (n / 100)
  have hat : atoi (pad3 n) = some (n : Int) := by
    simp only [pad3, atoi, h1, h2, if_false]
    rw [leadingInt_digit, leadingInt_digit, leadingInt_digit]
    simp only [leadingInt]
    congr 1
    omega
  have htake : (pad3 n).take 9 = pad3 n := by simp [pad3]
  have hlen : (pad3 n).length = 3 := by simp [pad3]
  simp only [parseNanoseconds, htake, hat, hlen]
  have : ¬ ((n : Int) < 0) := by omega
  simp [this]

/-! ## Theorems: `time.Date` computes the civil calendar -/

theorem isLeap_cast (y : Nat) : isLeap (y : Int) = isLeapYear y := by
  rw [Bool.eq_iff_iff]
  simp only [isLeap, isLeapYear, Bool.and_eq_true, Bool.or_eq_true, beq_iff_eq, bne_iff_ne,
    ne_eq]
  omega

theorem daysBeforeYear_closed (y : Nat) :
    (daysBeforeYear y : Int) = 365 * y + (y + 3) / 4 - (y + 99) / 100 + (y + 399) / 400 := by
  induction y with
  | zero => rfl
  | succ y ih =>
    have hlen : (yearLength y : Int) =
        if y % 4 = 0 ∧ (y % 100 ≠ 0 ∨ y % 400 = 0) then 366 else 365 := by
      simp only [yearLength, isLeapYear, Bool.and_eq_true, Bool.or_eq_true, beq_iff_eq,
        bne_iff_ne, ne_eq]
      split <;> rfl
    simp only [daysBeforeYear, Nat.cast_add, ih, hlen]
    split <;> omega

/-- The cycle arithmetic of `daysSinceEpoch` counts the days year by year. -/
theorem daysSinceEpoch_cast (y : Nat) :
    daysSinceEpoch (y : Int) = (daysBeforeYear y : Int) + 106751990353566 := by
  rw [daysBeforeYear_closed]
  simp only [daysSinceEpoch, absoluteZeroYear]
  omega

theorem daysBeforeYear_1970 : (daysBeforeYear 1970 : Int) = 719528 := by
  rw [daysBeforeYear_closed]
  norm_num

/-- The table `daysBefore` with the leap day counts the days month by month. -/
theorem daysBefore_cast (y m : Nat) (h1 : 1 ≤ m) (h2 : m ≤ 12) :
    daysBefore ((m : Int) - 1) + (if isLeap (y : Int) = true ∧ (m : Int) ≥ 3 then 1 else 0) =
      (daysInMonths y (m - 1) : Int) := by
  rw [isLeap_cast]
  interval_cases m <;> cases hl : isLeapYear y <;>
    simp [daysBefore, daysInMonths, monthLength, hl]

theorem daysIn_cast (y m : Nat) (h1 : 1 ≤ m) (h2 : m ≤ 12) :
    daysIn (m : Int) (y : Int) = (monthLength y m : Int) := by
  unfold daysIn
  rw [isLeap_cast]
  interval_cases m <;> cases hl : isLeapYear y <;>
    simp [daysBefore, monthLength, hl]

theorem norm_id (hi lo base : Int) (h0 : 0 ≤ lo) (h1 : lo < base) :
    norm hi lo base = (hi, lo) := by
  have hn1 : ¬ lo < 0 := by omega
  have hn2 : ¬ lo ≥ base := by omega
  simp [norm, hn1, hn2]

theorem wrapInt64_abs (a : Int) (h0 : 0 ≤ a) (h1 : -(2 ^ 63) ≤ a + absoluteToUnix)
    (h2 : a + absoluteToUnix < 2 ^ 63) :
    wrapInt64 (wrapInt64 a + absoluteToUnix) = a + absoluteToUnix := by
  simp only [wrapInt64, absoluteToUnix] at *
  norm_num at *
  omega

theorem UTC_lookup (sec : Int) : UTC.lookup sec = ⟨0, alpha, omega⟩ := rfl

theorem daysInMonths_le (y m : Nat) (h : m ≤ 12) : daysInMonths y m ≤ 366 := by
  interval_cases m <;> cases hl : isLeapYear y <;> simp [daysInMonths, monthLength, hl]

theorem daysBeforeYear_mono (y : Nat) (h : y ≤ 9999) :
    (daysBeforeYear y : Int) ≤ 3652060 := by
  rw [daysBeforeYear_closed]
  omega

theorem civilDays_eq (y m d : Nat) : civilDays y m d =
    (daysBeforeYear y : Int) + daysInMonths y (m - 1) + (d - 1) - 719528 := by
  unfold civilDays
  rw [daysBeforeYear_1970]

theorem civilDays_bounds (year month day : Nat) (hd : ValidDate year month day) :
    -719528 ≤ civilDays year month day ∧ civilDays year month day ≤ 3652457 := by
  obtain ⟨hy, hm1, hm12, hd1, hdm⟩ := hd
  have hml : monthLength year month ≤ 31 := by
    simp only [monthLength]
    split_ifs <;> omega
  have hdim := daysInMonths_le year (month - 1) (by omega)
  have hyb := daysBeforeYear_mono year hy
  rw [civilDays_eq]
  constructor <;> omega

theorem zoneAdjust_UTC (unix : Int) : zoneAdjust UTC unix = unix := by
  simp [zoneAdjust, UTC_lookup]

/-- For a valid date and time `time.Date` takes the civil seconds of the fields, counted
day by day from 1970-01-01, and adjusts them by the zone offset of the location. -/
theorem Date_civil (year month day hour min sec : Nat) (nsec : Int) (loc : Location)
    (hd : ValidDate year month day) (hc : ValidClock hour min sec)
    (hn0 : 0 ≤ nsec) (hn1 : nsec < 1000000000) :
    Date year month day hour min sec nsec loc =
      ⟨zoneAdjust loc (civilSeconds year month day hour min sec), nsec, loc⟩ := by
  obtain ⟨hy, hm1, hm12, hd1, hdm⟩ := hd
  obtain ⟨hh, hmi, hs⟩ := hc
  have hml : monthLength year month ≤ 31 := by
    simp only [monthLength]
    split_ifs <;> omega
  have hdb := daysBefore_cast year month hm1 hm12
  have hdim := daysInMonths_le year (month - 1) (by omega)
  have hyb := daysBeforeYear_mono year hy
  have hse := daysSinceEpoch_cast year
  have hmcast : ((month : Int) - 1 + 1) = month := by omega
  unfold Date
  rw [norm_id (year : Int) ((month : Int) - 1) 12 (by omega) (by omega)]
  simp only []
  rw [norm_id (sec : Int) nsec 1000000000 hn0 hn1]
  simp only []
  rw [norm_id (min : Int) (sec : Int) 60 (by omega) (by omega)]
  simp only []
  rw [norm_id (hour : Int) (min : Int) 60 (by omega) (by omega)]
  simp only []
  rw [norm_id (day : Int) (hour : Int) 24 (by omega) (by omega)]
  simp only [hmcast]
  have hsum : daysSinceEpoch (year : Int) + daysBefore ((month : Int) - 1) +
      (if isLeap (year : Int) = true ∧ (month : Int) ≥ 3 then 1 else 0) + ((day : Int) - 1) =
      civilDays year month day + 106751991073094 := by
    rw [civilDays_eq, hse, ← hdb]
    omega
  rw [hsum]
  obtain ⟨hcd0, hcd1⟩ := civilDays_bounds year month day ⟨hy, hm1, hm12, hd1, hdm⟩
  rw [wrapInt64_abs _ (by omega) (by simp only [absoluteToUnix]; norm_num; omega)
    (by simp only [absoluteToUnix]; norm_num; omega)]
  have hciv : (civilDays year month day + 106751991073094) * 86400 +
      ((hour : Int) * 3600 + (min : Int) * 60 + (sec : Int)) + absoluteToUnix =
      civilSeconds year month day hour min sec := by
    simp only [civilSeconds, absoluteToUnix]
    omega
  rw [hciv]

/-! ## Theorems: `time.Parse` on well-formed timestamps -/

theorem offsetTimestampText_eq (year month day hour min sec milli : Nat) (west : Bool)
    (offHour offMin : Nat) :
    offsetTimestampText year month day hour min sec milli west offHour offMin =
      pad4 year ++ '-' :: (pad2 month ++ '-' :: (pad2 day ++ 'T' :: (pad2 hour ++ ':' ::
        (pad2 min ++ ':' :: (pad2 sec ++ '.' :: (pad3 milli ++ (if west then '-' else '+') ::
          (pad2 offHour ++ ':' :: (pad2 offMin ++ [])))))))) := by
  simp [offsetTimestampText, List.append_assoc]

theorem parseStd_year (next : Option Std) (st : ParseState) (year : Nat) (rest : List Char)
    (h : year < 10000) :
    parseStd .stdLongYear next st (pad4 year ++ rest) = .ok ({ st with year := year }, rest) := by
  have hat := atoi_pad4 year h
  simp only [pad4] at hat
  simp only [parseStd, pad4, List.cons_append, List.nil_append, isDigitChar_digitChar, if_true,
    hat]

theorem parseStd_month (next : Option Std) (st : ParseState) (month : Nat)
    (rest : List Char) (h1 : 1 ≤ month) (h2 : month ≤ 12) :
    parseStd .stdZeroMonth next st (pad2 month ++ rest) =
      .ok ({ st with month := month }, rest) := by
  have hr : ¬ ((month : Int) ≤ 0 ∨ 12 < (month : Int)) := by omega
  simp only [parseStd, getnum_pad2 month rest true (by omega), hr, if_false]

theorem parseStd_day (next : Option Std) (st : ParseState) (day : Nat) (rest : List Char)
    (h : day < 100) :
    parseStd .stdZeroDay next st (pad2 day ++ rest) = .ok ({ st with day := day }, rest) := by
  simp only [parseStd, getnum_pad2 day rest true h]

theorem parseStd_hour (next : Option Std) (st : ParseState) (hour : Nat) (rest : List Char)
    (h : hour ≤ 23) :
    parseStd .stdHour next st (pad2 hour ++ rest) = .ok ({ st with hour := hour }, rest) := by
  have hr : ¬ ((hour : Int) < 0 ∨ 24 ≤ (hour : Int)) := by omega
  simp only [parseStd, getnum_pad2 hour rest false (by omega), hr, if_false]

theorem parseStd_minute (next : Option Std) (st : ParseState) (min : Nat) (rest : List Char)
    (h : min ≤ 59) :
    parseStd .stdZeroMinute next st (pad2 min ++ rest) = .ok ({ st with min := min }, rest) := by
  have hr : ¬ ((min : Int) < 0 ∨ 60 ≤ (min : Int)) := by omega
  simp only [parseStd, getnum_pad2 min rest true (by omega), hr, if_false]

theorem parseStd_second (digits : Nat) (st : ParseState) (sec : Nat) (rest : List Char)
    (h : sec ≤ 59) :
    parseStd .stdZeroSecond (some (.stdFracSecond9 digits)) st (pad2 sec ++ rest) =
      .ok ({ st with sec := sec }, rest) := by
  have hr : ¬ ((sec : Int) < 0 ∨ 60 ≤ (sec : Int)) := by omega
  simp only [parseStd, getnum_pad2 sec rest true (by omega), hr, if_false]

theorem parseStd_frac (digits : Nat) (next : Option Std) (st : ParseState) (milli : Nat)
    (c : Char) (rest : List Char) (h : milli ≤ 999) (hc : isDigitChar c = false) :
    parseStd (.stdFracSecond9 digits) next st ('.' :: (pad3 milli ++ c :: rest)) =
      .ok ({ st with nsec := (milli : Int) * 1000000 }, c :: rest) := by
  obtain ⟨ht, hdrop⟩ := takeWhile_pad3 milli c rest hc
  have hp := parseNanoseconds_pad3 milli (by omega)
  have hsep : commaOrPeriod '.' = true := by decide
  have hform : pad3 milli ++ c :: rest =
      digitChar (milli / 100) :: ([digitChar (milli / 10), digitChar milli] ++ c :: rest) := by
    simp [pad3]
  rw [hform] at ht hdrop ⊢
  simp only [parseStd, hsep, isDigitChar_digitChar, Bool.and_self, if_true, ht, hp, hdrop]

theorem parseStd_zone (next : Option Std) (st : ParseState) (west : Bool)
    (offHour offMin : Nat) (rest : List Char) (h1 : offHour ≤ 24) (h2 : offMin ≤ 60) :
    parseStd .stdNumColonTZ next st
        ((if west then '-' else '+') :: (pad2 offHour ++ ':' :: (pad2 offMin ++ rest))) =
      .ok ({ st with zoneOffset := offsetSeconds west offHour offMin }, rest) := by
  have hh := getnum_pad2 offHour [] true (by omega)
  have hm := getnum_pad2 offMin [] true (by omega)
  simp only [pad2, List.cons_append, List.nil_append] at hh hm
  have hr1 : ¬ ((offHour : Int) > 24) := by omega
  have hr2 : ¬ ((offMin : Int) > 60) := by omega
  cases west
  · simp only [parseStd, pad2, List.cons_append, List.nil_append, if_true, hh, hm, hr1, hr2,
      if_false, offsetSeconds, Bool.false_eq_true]
  · have hne : ('-' : Char) ≠ '+' := by decide
    simp only [parseStd, pad2, List.cons_append, List.nil_append, if_true, hh, hm, hr1, hr2,
      if_false, offsetSeconds, hne]

theorem skip_one (c : Char) (value : List Char) : skip (c :: value) [c] = some value := by
  simp [skip]

theorem skip_none (value : List Char) : skip value [] = some value := by
  cases value <;> rfl

/-! ## Theorems: `DateTimeMilliOffset.UnmarshalJSON` -/

/-- Characters the JSON encoder writes as they are. -/
theorem appendStringBody_plain (text : List Char)
    (h : ∀ c ∈ text, appendStringChar c = [c]) : appendStringBody text = text := by
  induction text with
  | nil => rfl
  | cons c cs ih =>
    simp only [appendStringBody, h c (List.mem_cons_self _ _),
      ih (fun d hd => h d (List.mem_cons_of_mem _ hd))]
    rfl

theorem plain_digit_facts : ∀ d, d < 10 → appendStringChar (digitChar d) = [digitChar d] := by
  decide

theorem plain_digitChar (n : Nat) : appendStringChar (digitChar n) = [digitChar n] := by
  rw [digitChar_mod]
  exact plain_digit_facts (n % 10) (Nat.mod_lt _ (by decide))

theorem plain_pad2 (n : Nat) : ∀ c ∈ pad2 n, appendStringChar c = [c] := by
  intro c hc
  simp only [pad2, List.mem_cons, List.mem_singleton, List.not_mem_nil, or_false] at hc
  rcases hc with rfl | rfl <;> exact plain_digitChar _

theorem plain_pad3 (n : Nat) : ∀ c ∈ pad3 n, appendStringChar c = [c] := by
  intro c hc
  simp only [pad3, List.mem_cons, List.mem_singleton, List.not_mem_nil, or_false] at hc
  rcases hc with rfl | rfl | rfl <;> exact plain_digitChar _

theorem plain_pad4 (n : Nat) : ∀ c ∈ pad4 n, appendStringChar c = [c] := by
  intro c hc
  simp only [pad4, List.mem_cons, List.mem_singleton, List.not_mem_nil, or_false] at hc
  rcases hc with rfl | rfl | rfl | rfl <;> exact plain_digitChar _

/-- A text without characters that need escaping is unquoted to itself. -/
theorem jsonUnmarshalString_plain (text : List Char)
    (h : ∀ c ∈ text, appendStringChar c = [c]) :
    jsonUnmarshalString (jsonQuote text) = .ok text := by
  have hu := unquote_appendStringBody text []
  rw [appendStringBody_plain text h] at hu
  have hs : skipSpace ('"' :: (text ++ ['"'])) = '"' :: (text ++ ['"']) :=
    skipSpace_cons_of_not_space _ _ (by decide)
  simp only [jsonUnmarshalString, jsonQuote, hs, if_true, hu]
  rfl

theorem plain_offsetTimestampText (year month day hour min sec milli : Nat) (west : Bool)
    (offHour offMin : Nat) :
    ∀ c ∈ offsetTimestampText year month day hour min sec milli west offHour offMin,
      appendStringChar c = [c] := by
  intro c hc
  simp only [offsetTimestampText, List.mem_append, List.mem_cons] at hc
  have hsep : ∀ d : Char, d = '-' ∨ d = 'T' ∨ d = ':' ∨ d = '.' ∨ d = '+' →
      appendStringChar d = [d] := by
    intro d hd
    rcases hd with rfl | rfl | rfl | rfl | rfl <;> decide
  rcases hc with ((((((((h | h | h) | h | h) | h | h) | h | h) | h | h) | h | h) | h | h) | h | h)
  all_goals first
    | exact plain_pad4 _ c h
    | exact plain_pad2 _ c h
    | exact plain_pad3 _ c h
    | (subst h; cases west <;> decide)

/-- `time.Parse` collects the fields of a well-formed offset timestamp. -/
theorem timeParse_offsetTimestamp (localLocation : Location)
    (year month day hour min sec milli : Nat) (west : Bool) (offHour offMin : Nat)
    (hd : ValidDate year month day) (hc : ValidClock hour min sec) (hms : milli ≤ 999)
    (hoh : offHour ≤ 24) (hom : offMin ≤ 60) :
    timeParse localLocation layoutDateTimeMilliOffset
        (offsetTimestampText year month day hour min sec milli west offHour offMin) =
      parseFinish ⟨year, month, day, hour, min, sec, (milli : Int) * 1000000,
        offsetSeconds west offHour offMin⟩ UTC localLocation := by
  obtain ⟨hy, hm1, hm12, hd1, hdm⟩ := hd
  obtain ⟨hh, hmi, hs⟩ := hc
  have hml : monthLength year month ≤ 31 := by
    simp only [monthLength]
    split_ifs <;> omega
  have hsign : isDigitChar (if west then '-' else '+') = false := by
    cases west <;> decide
  rw [offsetTimestampText_eq]
  simp only [timeParse, layoutDateTimeMilliOffset, parseChunks, skip_none, skip_one,
    List.head?_cons, Option.map_some', List.head?_nil, Option.map_none',
    parseStd_year _ _ year _ (by omega), parseStd_month _ _ month _ hm1 hm12,
    parseStd_day _ _ day _ (by omega), parseStd_hour _ _ hour _ hh,
    parseStd_minute _ _ min _ hmi, parseStd_second _ _ sec _ hs,
    parseStd_frac _ _ _ milli _ _ hms hsign, parseStd_zone _ _ west offHour offMin _ hoh hom,
    ParseState.init, if_true]

/-- C8: for every JSON string of the form `YYYY-MM-DDTHH:MM:SS.mmm+hh:mm` or `-hh:mm`
with a valid calendar date, a valid time of day and an offset of at most `24:60`,
whatever the machine's local time zone, `DateTimeMilliOffset.UnmarshalJSON` succeeds
and the decoded time is the instant obtained from the written civil date and time,
counted in seconds from 1970-01-01T00:00:00, minus the written offset, with the written
milliseconds as its fraction. -/
theorem DateTimeMilliOffset_UnmarshalJSON_instant (env : TimeEnv)
    (year month day hour min sec milli : Nat) (west : Bool) (offHour offMin : Nat)
    (hd : ValidDate year month day) (hc : ValidClock hour min sec) (hms : milli ≤ 999)
    (hoh : offHour ≤ 24) (hom : offMin ≤ 60) :
    ∃ t : Time,
      DateTimeMilliOffset.UnmarshalJSON env (jsonQuote
        (offsetTimestampText year month day hour min sec milli west offHour offMin)) = .ok t ∧
      t.sec = civilSeconds year month day hour min sec - offsetSeconds west offHour offMin ∧
      t.nsec = (milli : Int) * 1000000 := by
  have hparse := timeParse_offsetTimestamp env.localLocation year month day hour min sec milli
    west offHour offMin hd hc hms hoh hom
  have hjson := jsonUnmarshalString_plain _
    (plain_offsetTimestampText year month day hour min sec milli west offHour offMin)
  have hdate := Date_civil year month day hour min sec ((milli : Int) * 1000000) UTC hd hc
    (by omega) (by omega)
  obtain ⟨hy, hm1, hm12, hd1, hdm⟩ := hd
  have hdin := daysIn_cast year month hm1 hm12
  have hday : ¬ ((day : Int) < 1 ∨ (day : Int) > daysIn (month : Int) (year : Int)) := by
    rw [hdin]
    omega
  have hoff : offsetSeconds west offHour offMin ≠ -1 := by
    unfold offsetSeconds
    split <;> omega
  have hmneg : ¬ ((month : Int) < 0) := by omega
  have hdneg : ¬ ((day : Int) < 0) := by omega
  have hfin : parseFinish ⟨year, month, day, hour, min, sec, (milli : Int) * 1000000,
        offsetSeconds west offHour offMin⟩ UTC env.localLocation =
      .ok ⟨civilSeconds year month day hour min sec - offsetSeconds west offHour offMin,
        (milli : Int) * 1000000,
        if (env.localLocation.lookup (civilSeconds year month day hour min sec -
            offsetSeconds west offHour offMin)).offset = offsetSeconds west offHour offMin
        then env.localLocation else FixedZone "" (offsetSeconds west offHour offMin)⟩ := by
    simp only [parseFinish, hmneg, hdneg, if_false, hday, hoff, ne_eq, not_false_eq_true,
      if_true, hdate, zoneAdjust_UTC]
    split <;> rfl
  refine ⟨⟨civilSeconds year month day hour min sec - offsetSeconds west offHour offMin,
    (milli : Int) * 1000000,
    if (env.localLocation.lookup (civilSeconds year month day hour min sec -
        offsetSeconds west offHour offMin)).offset = offsetSeconds west offHour offMin
    then env.localLocation else FixedZone "" (offsetSeconds west offHour offMin)⟩, ?_, rfl, rfl⟩
  simp only [DateTimeMilliOffset.UnmarshalJSON, hjson, hparse, hfin]

theorem DateTimeMilliOffset_UnmarshalJSON_instant_witness :
    ValidDate 2021 6 15 ∧ ValidClock 10 30 0 ∧ 123 ≤ 999 ∧ 3 ≤ 24 ∧ 0 ≤ 60 ∧
    ∃ t : Time,
      DateTimeMilliOffset.UnmarshalJSON ⟨UTC, fun _ => .error (.other "unknown time zone")⟩
        (jsonQuote (offsetTimestampText 2021 6 15 10 30 0 123 false 3 0)) = .ok t ∧
      t.sec = civilSeconds 2021 6 15 10 30 0 - offsetSeconds false 3 0 ∧
      t.nsec = (123 : Nat) * 1000000 :=
  ⟨by decide, by decide, by decide, by decide, by decide,
    DateTimeMilliOffset_UnmarshalJSON_instant _ 2021 6 15 10 30 0 123 false 3 0
      (by decide) (by decide) (by decide) (by decide) (by decide)⟩

/-- The spec's example P6: `"2021-06-15T10:30:00.123+03:00"` decodes to the instant
2021-06-15T07:30:00.123Z, which is 1623742200.123 seconds after the Unix epoch. -/
theorem DateTimeMilliOffset_example :
    jsonQuote (offsetTimestampText 2021 6 15 10 30 0 123 false 3 0) =
      "\"2021-06-15T10:30:00.123+03:00\"".toList ∧
    DateTimeMilliOffset.UnmarshalJSON ⟨UTC, fun _ => .error (.other "unknown time zone")⟩
        "\"2021-06-15T10:30:00.123+03:00\"".toList =
      .ok ⟨1623742200, 123000000, FixedZone "" 10800⟩ ∧
    Date 2021 6 15 7 30 0 123000000 UTC = ⟨1623742200, 123000000, UTC⟩ ∧
    civilSeconds 2021 6 15 7 30 0 = 1623742200 := by
  refine ⟨rfl, rfl, rfl, ?_⟩
  simp only [civilSeconds, civilDays_eq, daysBeforeYear_closed]
  norm_num [daysInMonths, monthLength, isLeapYear]

/-! ## Theorems: `absDate` and `absClock` invert `Date` -/

theorem monthDayCheck_ok : monthDayCheck = true := by
  decide!

/-- The month and day computed by `absDate` are those of the day of the year. -/
theorem monthDay_table (leap : Bool) (m d : Nat) (hm1 : 1 ≤ m) (hm : m ≤ 12) (hd1 : 1 ≤ d)
    (hd : d ≤ monthLengthOf leap m) :
    monthDay leap (daysBeforeMonthOf leap m + (d : Int) - 1) = ((m : Int), (d : Int)) := by
  have hml : monthLengthOf leap m ≤ 31 := by
    simp only [monthLengthOf]
    split_ifs <;> omega
  have h := monthDayCheck_ok
  simp only [monthDayCheck, List.all_eq_true, List.mem_range] at h
  have h1 := h leap (by cases leap <;> simp) m (by omega) d (by omega)
  simp only [Bool.or_eq_true, Bool.not_eq_true', Bool.and_eq_false_iff, decide_eq_false_iff_not,
    decide_eq_true_eq] at h1
  rcases h1 with (h1 | h1) | h1
  · rcases h1 with h1 | h1
    · exact absurd hm1 h1
    · exact absurd hd1 h1
  · exact absurd hd h1
  · exact h1

theorem monthLength_eq (y m : Nat) : monthLength y m = monthLengthOf (isLeapYear y) m := rfl

theorem monthDay_valid (year month day : Nat) (hd : ValidDate year month day) :
    monthDay (isLeap (year : Int)) ((daysInMonths year (month - 1) : Int) + (day : Int) - 1) =
      ((month : Int), (day : Int)) := by
  obtain ⟨hy, hm1, hm12, hd1, hdm⟩ := hd
  rw [← daysBefore_cast year month hm1 hm12, isLeap_cast]
  exact monthDay_table (isLeapYear year) month day hm1 hm12 hd1
    (by rw [← monthLength_eq]; exact hdm)

/-- The cycle arithmetic of `absDate` on a day count split into whole cycles, years and
a day of the year; the year is leap exactly when it is the last of its four-year cycle
and that cycle is not the last of a century, unless the century is the last of four. -/
theorem daysToYear_cycles (a b c e yday : Int) (hb0 : 0 ≤ b) (hb : b ≤ 3) (hc0 : 0 ≤ c)
    (hc : c ≤ 24) (he0 : 0 ≤ e) (he : e ≤ 3) (hy0 : 0 ≤ yday)
    (hy : yday < 365 ∨ (yday = 365 ∧ e = 3 ∧ (c ≠ 24 ∨ b = 3))) :
    daysToYear (146097 * a + 36524 * b + 1461 * c + 365 * e + yday) =
      (400 * a + 100 * b + 4 * c + e, yday) := by
  have h400 : (146097 * a + 36524 * b + 1461 * c + 365 * e + yday) / 146097 = a := by omega
  have hd1 : 146097 * a + 36524 * b + 1461 * c + 365 * e + yday - 146097 * a =
      36524 * b + 1461 * c + 365 * e + yday := by omega
  have hr100 : 1461 * c + 365 * e + yday < 36524 ∨
      (1461 * c + 365 * e + yday = 36524 ∧ b = 3) := by omega
  have h100 : (36524 * b + 1461 * c + 365 * e + yday) / 36524 -
      (36524 * b + 1461 * c + 365 * e + yday) / 36524 / 4 = b := by
    rcases hr100 with hr | ⟨hr, hb3⟩
    · have hj : (36524 * b + 1461 * c + 365 * e + yday) / 36524 = b := by omega
      rw [hj]
      omega
    · have hj : (36524 * b + 1461 * c + 365 * e + yday) / 36524 = 4 := by omega
      rw [hj]
      omega
  have hd2 : 36524 * b + 1461 * c + 365 * e + yday - 36524 * b =
      1461 * c + 365 * e + yday := by omega
  have h4 : (1461 * c + 365 * e + yday) / 1461 = c := by omega
  have hd3 : 1461 * c + 365 * e + yday - 1461 * c = 365 * e + yday := by omega
  have h1 : (365 * e + yday) / 365 - (365 * e + yday) / 365 / 4 = e := by
    rcases hy with hy | ⟨hy, he3, _⟩
    · have hj : (365 * e + yday) / 365 = e := by omega
      rw [hj]
      omega
    · have hj : (365 * e + yday) / 365 = 4 := by omega
      rw [hj]
      omega
  have hd4 : 365 * e + yday - 365 * e = yday := by omega
  simp only [daysToYear, h400, hd1, h100, hd2, h4, hd3, h1, hd4]

theorem daysInMonths_add_le (y m : Nat) (h1 : 1 ≤ m) (h2 : m ≤ 12) :
    daysInMonths y (m - 1) + monthLength y m ≤ yearLength y := by
  interval_cases m <;> cases hl : isLeapYear y <;>
    simp [daysInMonths, monthLength, yearLength, hl]

theorem yearLength_cases (y : Nat) :
    (isLeapYear y = true ∧ yearLength y = 366) ∨ (isLeapYear y = false ∧ yearLength y = 365) := by
  cases hl : isLeapYear y <;> simp [yearLength, hl]

theorem isLeapYear_iff (y : Nat) :
    isLeapYear y = true ↔ y % 4 = 0 ∧ (y % 100 ≠ 0 ∨ y % 400 = 0) := by
  simp only [isLeapYear, Bool.and_eq_true, Bool.or_eq_true, beq_iff_eq, bne_iff_ne, ne_eq]

/-- The day count of January 1 of a year in cycles, and when the year is leap. -/
theorem daysSinceEpoch_cycles (year : Nat) :
    ∃ a b c e : Int, 0 ≤ b ∧ b ≤ 3 ∧ 0 ≤ c ∧ c ≤ 24 ∧ 0 ≤ e ∧ e ≤ 3 ∧
      daysSinceEpoch (year : Int) = 146097 * a + 36524 * b + 1461 * c + 365 * e ∧
      400 * a + 100 * b + 4 * c + e + absoluteZeroYear = (year : Int) ∧
      (isLeapYear year = true ↔ (e = 3 ∧ (c ≠ 24 ∨ b = 3))) := by
  refine ⟨((year : Int) + 292277022399) / 400, ((year : Int) + 292277022399) % 400 / 100,
    ((year : Int) + 292277022399) % 100 / 4, ((year : Int) + 292277022399) % 4,
    by omega, by omega, by omega, by omega, by omega, by omega, ?_, ?_, ?_⟩
  · simp only [daysSinceEpoch, absoluteZeroYear]
    omega
  · simp only [absoluteZeroYear]
    omega
  · rw [isLeapYear_iff]
    omega

/-- `absDate` gives back the date from which `Date` computed the day count, whatever the
time of day. -/
theorem absDate_valid (year month day : Nat) (secs : Int) (hd : ValidDate year month day)
    (hs0 : 0 ≤ secs) (hs1 : secs < 86400) :
    absDate ((civilDays year month day + 106751991073094) * 86400 + secs) =
      ((year : Int), (month : Int), (day : Int)) := by
  have hmd := monthDay_valid year month day hd
  obtain ⟨hy, hm1, hm12, hd1, hdm⟩ := hd
  have hsum := daysInMonths_add_le year month hm1 hm12
  obtain ⟨a, b, c, e, hb0, hb, hc0, hc, he0, he, hcyc, hyear, hleap⟩ :=
    daysSinceEpoch_cycles year
  have hdiv : ((civilDays year month day + 106751991073094) * 86400 + secs) / 86400 =
      146097 * a + 36524 * b + 1461 * c + 365 * e +
        ((daysInMonths year (month - 1) : Int) + (day : Int) - 1) := by
    rw [civilDays_eq, ← hcyc, daysSinceEpoch_cast]
    omega
  have hyd : (daysInMonths year (month - 1) : Int) + (day : Int) - 1 < 365 ∨
      ((daysInMonths year (month - 1) : Int) + (day : Int) - 1 = 365 ∧ e = 3 ∧
        (c ≠ 24 ∨ b = 3)) := by
    rcases yearLength_cases year with ⟨hl, hlen⟩ | ⟨hl, hlen⟩
    · have := hleap.mp hl
      omega
    · omega
  have hcy := daysToYear_cycles a b c e
    ((daysInMonths year (month - 1) : Int) + (day : Int) - 1) hb0 hb hc0 hc he0 he (by omega) hyd
  simp only [absDate, hdiv, hcy, hyear, hmd]

theorem absClock_valid (days : Int) (hour min sec : Nat) (hc : ValidClock hour min sec) :
    absClock (days * 86400 + ((hour : Int) * 3600 + (min : Int) * 60 + (sec : Int))) =
      ((hour : Int), (min : Int), (sec : Int)) := by
  obtain ⟨hh, hm, hs⟩ := hc
  have h1 : (days * 86400 + ((hour : Int) * 3600 + (min : Int) * 60 + (sec : Int))) % 86400 =
      (hour : Int) * 3600 + (min : Int) * 60 + (sec : Int) := by omega
  have h2 : ((hour : Int) * 3600 + (min : Int) * 60 + (sec : Int)) / 3600 = hour := by omega
  have h3 : ((hour : Int) * 3600 + (min : Int) * 60 + (sec : Int) - (hour : Int) * 3600) / 60 =
      min := by omega
  simp only [absClock, h1, h2, h3]
  congr 2
  omega

/-! ## Theorems: zone lookup and `time.Date` in a location -/

theorem lookupFrom_stop (sec offset start : Int) (tx : List (Int × Int)) :
    sec < (lookupFrom sec offset start tx).stop ∨ (lookupFrom sec offset start tx).stop = omega := by
  induction tx generalizing offset start with
  | nil => exact Or.inr rfl
  | cons p tx ih =>
    obtain ⟨w, o⟩ := p
    simp only [lookupFrom]
    split
    · exact Or.inl (by assumption)
    · exact ih o w

theorem lookupFrom_start (sec offset start : Int) (tx : List (Int × Int)) (h : start ≤ sec) :
    (lookupFrom sec offset start tx).start ≤ sec := by
  induction tx generalizing offset start with
  | nil => exact h
  | cons p tx ih =>
    obtain ⟨w, o⟩ := p
    simp only [lookupFrom]
    split
    · exact h
    · exact ih o w (by omega)

/-- The span found by the lookup is the initial one or starts at a transition. -/
theorem lookupFrom_mem (sec offset start : Int) (tx : List (Int × Int)) :
    ((lookupFrom sec offset start tx).start = start ∧
      (lookupFrom sec offset start tx).offset = offset) ∨
    ((lookupFrom sec offset start tx).start, (lookupFrom sec offset start tx).offset) ∈ tx := by
  induction tx generalizing offset start with
  | nil => exact Or.inl ⟨rfl, rfl⟩
  | cons p tx ih =>
    obtain ⟨w, o⟩ := p
    simp only [lookupFrom]
    split
    · exact Or.inl ⟨rfl, rfl⟩
    · rcases ih o w with ⟨h1, h2⟩ | h
      · right
        rw [h1, h2]
        exact List.mem_cons_self _ _
      · right
        exact List.mem_cons_of_mem _ h

/-- Every time within the span found by the lookup is given the same span, the
transitions being in increasing order. -/
theorem lookupFrom_stable (sec sec2 offset start : Int) (tx : List (Int × Int))
    (hs : tx.Pairwise (fun a b => a.1 < b.1)) (hstart : ∀ p ∈ tx, start < p.1)
    (h1 : (lookupFrom sec offset start tx).start ≤ sec2)
    (h2 : sec2 < (lookupFrom sec offset start tx).stop) (h0 : start ≤ sec) :
    lookupFrom sec2 offset start tx = lookupFrom sec offset start tx := by
  induction tx generalizing offset start with
  | nil => rfl
  | cons p tx ih =>
    obtain ⟨w, o⟩ := p
    have hw : start < w := hstart (w, o) (List.mem_cons_self _ _)
    rw [List.pairwise_cons] at hs
    simp only [lookupFrom] at h1 h2 ⊢
    by_cases hsec : sec < w
    · simp only [hsec, if_true] at h1 h2 ⊢
      simp only [h2, if_true]
    · simp only [hsec, if_false] at h1 h2 ⊢
      have hle := lookupFrom_start sec o w tx (by omega)
      have hge : w ≤ (lookupFrom sec o w tx).start := by
        rcases lookupFrom_mem sec o w tx with ⟨hst, _⟩ | hmem
        · omega
        · have := hs.1 _ hmem
          simp only at this
          omega
      have hsec2 : ¬ sec2 < w := by omega
      simp only [hsec2, if_false]
      exact ih o w hs.2 (fun q hq => hs.1 q hq) h1 h2 (by omega)

theorem lookup_stable (l : Location) (sec sec2 : Int) (hs : l.Sorted)
    (halpha : ∀ p ∈ l.tx, alpha < p.1) (h0 : alpha ≤ sec)
    (h1 : (l.lookup sec).start ≤ sec2) (h2 : sec2 < (l.lookup sec).stop) :
    l.lookup sec2 = l.lookup sec :=
  lookupFrom_stable sec sec2 l.firstOffset alpha l.tx hs halpha h1 h2 h0

/-- When the clock reading taken as UTC, moved back by the offset in force there, stays
in the same span, `time.Date` returns the instant at which the clock shows that
reading. -/
theorem zoneAdjust_same_span (l : Location) (unix : Int) (hs : l.Sorted)
    (halpha : ∀ p ∈ l.tx, alpha < p.1) (h0 : alpha ≤ unix)
    (h1 : (l.lookup unix).start ≤ unix - (l.lookup unix).offset)
    (h2 : unix - (l.lookup unix).offset < (l.lookup unix).stop) :
    zoneAdjust l unix + (l.lookup (zoneAdjust l unix)).offset = unix := by
  have hz : zoneAdjust l unix = unix - (l.lookup unix).offset := by
    unfold zoneAdjust
    by_cases ho : (l.lookup unix).offset = 0
    · simp [ho]
    · have hc : ¬ (unix - (l.lookup unix).offset < (l.lookup unix).start ∨
          unix - (l.lookup unix).offset ≥ (l.lookup unix).stop) := by omega
      simp [ho, hc]
  rw [hz, lookup_stable l unix _ hs halpha h0 h1 h2]
  omega

theorem alpha_eq : alpha = -9223372036854775808 := by
  norm_num [alpha]

theorem omega_eq : omega = 9223372036854775807 := by
  norm_num [omega]

theorem lookup_start_le (l : Location) (sec : Int) (h : alpha ≤ sec) :
    (l.lookup sec).start ≤ sec :=
  lookupFrom_start sec l.firstOffset alpha l.tx h

theorem lookup_stop (l : Location) (sec : Int) :
    sec < (l.lookup sec).stop ∨ (l.lookup sec).stop = omega :=
  lookupFrom_stop sec l.firstOffset alpha l.tx

theorem lookup_mem (l : Location) (sec : Int) :
    ((l.lookup sec).start = alpha ∧ (l.lookup sec).offset = l.firstOffset) ∨
    ((l.lookup sec).start, (l.lookup sec).offset) ∈ l.tx :=
  lookupFrom_mem sec l.firstOffset alpha l.tx

/-! ## Theorems: midnight in `Europe/Moscow` -/

theorem europeMoscow_sorted : europeMoscow.Sorted := by
  unfold Location.Sorted
  decide!

theorem europeMoscow_east : europeMoscow.EastOfUTC := by
  unfold Location.EastOfUTC
  decide!

theorem europeMoscow_alpha : ∀ p ∈ europeMoscow.tx, alpha < p.1 := by
  decide!

theorem moscowCandidateDays_ok : moscowCandidateDays.all moscowDayOK = true := by
  decide!

theorem moscowSkippedDays_ok :
    moscowDayOK (-19540) = true ∧ moscowDayOK (-14439) = true ∧ moscowDayOK 4108 = true ∧
    moscowDayOK 4473 = true ∧ moscowDayOK 4838 = true ∧ moscowDayOK 5204 = true := by
  decide!

theorem candidate_of_span (w o k : Int) (ho0 : 0 < o) (ho1 : o < 86400) (h1 : w ≤ 86400 * k)
    (h2 : 86400 * k < w + o) : (w + o - 1) / 86400 = k := by
  omega

/-- In Moscow the instant `time.Date` gives for midnight of any day from the year 0 to
the year 9999 shows the clock at midnight of that day, plus the skip on the six days
whose midnight was skipped. -/
theorem moscow_midnight (k : Int) (hk0 : -719528 ≤ k) (hk1 : k ≤ 3652457) :
    zoneAdjust europeMoscow (86400 * k) +
      (europeMoscow.lookup (zoneAdjust europeMoscow (86400 * k))).offset =
        86400 * k + moscowSkipOfDay k := by
  have hok : ∀ j, moscowDayOK j = true →
      zoneAdjust europeMoscow (86400 * j) +
        (europeMoscow.lookup (zoneAdjust europeMoscow (86400 * j))).offset =
          86400 * j + moscowSkipOfDay j := by
    intro j hj
    simpa [moscowDayOK] using hj
  by_cases hskip : k = -19540 ∨ k = -14439 ∨ k = 4108 ∨ k = 4473 ∨ k = 4838 ∨ k = 5204
  · obtain ⟨h1, h2, h3, h4, h5, h6⟩ := moscowSkippedDays_ok
    rcases hskip with rfl | rfl | rfl | rfl | rfl | rfl
    · exact hok _ h1
    · exact hok _ h2
    · exact hok _ h3
    · exact hok _ h4
    · exact hok _ h5
    · exact hok _ h6
  · have hzero : moscowSkipOfDay k = 0 := by
      unfold moscowSkipOfDay
      split_ifs <;> omega
    have halpha : alpha ≤ 86400 * k := by
      rw [alpha_eq]
      omega
    have hspan := lookup_mem europeMoscow (86400 * k)
    have hstart := lookup_start_le europeMoscow (86400 * k) halpha
    have hstop := lookup_stop europeMoscow (86400 * k)
    have hoff : 0 < (europeMoscow.lookup (86400 * k)).offset ∧
        (europeMoscow.lookup (86400 * k)).offset < 86400 := by
      rcases hspan with ⟨_, h⟩ | h
      · rw [h]
        exact europeMoscow_east.1
      · exact europeMoscow_east.2 _ h
    have hstop2 : 86400 * k - (europeMoscow.lookup (86400 * k)).offset <
        (europeMoscow.lookup (86400 * k)).stop := by
      rcases hstop with h | h
      · omega
      · rw [h, omega_eq]
        omega
    by_cases hin : (europeMoscow.lookup (86400 * k)).start ≤
        86400 * k - (europeMoscow.lookup (86400 * k)).offset
    · rw [zoneAdjust_same_span europeMoscow (86400 * k) europeMoscow_sorted
        europeMoscow_alpha halpha hin hstop2, hzero]
      omega
    · have hmem : ((europeMoscow.lookup (86400 * k)).start,
          (europeMoscow.lookup (86400 * k)).offset) ∈ europeMoscow.tx := by
        rcases hspan with ⟨h, _⟩ | h
        · exfalso
          apply hin
          rw [h, alpha_eq]
          omega
        · exact h
      have hk : ((europeMoscow.lookup (86400 * k)).start +
          (europeMoscow.lookup (86400 * k)).offset - 1) / 86400 = k :=
        candidate_of_span _ _ k hoff.1 hoff.2 hstart (by omega)
      have hcand : k ∈ moscowCandidateDays := by
        unfold moscowCandidateDays
        rw [List.mem_map]
        exact ⟨_, hmem, hk⟩
      exact hok k (List.all_eq_true.mp moscowCandidateDays_ok k hcand)

/-! ## Theorems: `Date.UnmarshalJSON` -/

theorem dateText_eq (year month day : Nat) :
    dateText year month day = pad4 year ++ '-' :: (pad2 month ++ '-' :: (pad2 day ++ [])) := by
  simp [dateText, List.append_assoc]

theorem plain_dateText (year month day : Nat) :
    ∀ c ∈ dateText year month day, appendStringChar c = [c] := by
  intro c hc
  simp only [dateText, List.mem_append, List.mem_cons] at hc
  rcases hc with ((h | h | h) | h | h)
  all_goals first
    | exact plain_pad4 _ c h
    | exact plain_pad2 _ c h
    | (subst h; decide)

/-- `time.ParseInLocation` collects the fields of a well-formed calendar date. -/
theorem timeParseInLocation_dateText (loc : Location) (year month day : Nat)
    (hd : ValidDate year month day) :
    timeParseInLocation layoutDate (dateText year month day) loc =
      parseFinish ⟨year, month, day, 0, 0, 0, 0, -1⟩ loc loc := by
  obtain ⟨hy, hm1, hm12, hd1, hdm⟩ := hd
  have hml : monthLength year month ≤ 31 := by
    simp only [monthLength]
    split_ifs <;> omega
  rw [dateText_eq]
  simp only [timeParseInLocation, layoutDate, parseChunks, skip_none, skip_one,
    List.head?_cons, Option.map_some', List.head?_nil, Option.map_none',
    parseStd_year _ _ year _ (by omega), parseStd_month _ _ month _ hm1 hm12,
    parseStd_day _ _ day _ (by omega), ParseState.init, if_true]

theorem civilSeconds_midnight (year month day : Nat) :
    civilSeconds year month day 0 0 0 = 86400 * civilDays year month day := by
  simp only [civilSeconds]
  omega

/-- What `Date.UnmarshalJSON` returns for a valid calendar date once the location is
resolved: `time.Date` of midnight of that date in the location. -/
theorem Date_UnmarshalJSON_value (env : TimeEnv) (loc : Location) (year month day : Nat)
    (hd : ValidDate year month day) (hloc : env.loadLocation "Europe/Moscow" = .ok loc) :
    Date.UnmarshalJSON env (jsonQuote (dateText year month day)) =
      .ok ⟨zoneAdjust loc (86400 * civilDays year month day), 0, loc⟩ := by
  have hparse := timeParseInLocation_dateText loc year month day hd
  have hjson := jsonUnmarshalString_plain _ (plain_dateText year month day)
  have hdate := Date_civil year month day 0 0 0 0 loc hd (by decide) (by omega) (by omega)
  obtain ⟨hy, hm1, hm12, hd1, hdm⟩ := hd
  have hdin := daysIn_cast year month hm1 hm12
  have hday : ¬ ((day : Int) < 1 ∨ (day : Int) > daysIn (month : Int) (year : Int)) := by
    rw [hdin]
    omega
  have hmneg : ¬ ((month : Int) < 0) := by omega
  have hdneg : ¬ ((day : Int) < 0) := by omega
  have hfin : parseFinish ⟨year, month, day, 0, 0, 0, 0, -1⟩ loc loc =
      .ok ⟨zoneAdjust loc (86400 * civilDays year month day), 0, loc⟩ := by
    simp only [parseFinish, hmneg, hdneg, if_false, hday, ne_eq, not_true_eq_false]
    rw [← civilSeconds_midnight]
    exact congrArg Except.ok hdate
  simp only [Date.UnmarshalJSON, dateLocation, hloc, hjson, hparse, hfin]

/-- Valid dates with the same day number are the same date. -/
theorem civilDays_inj (y1 m1 d1 y2 m2 d2 : Nat) (h1 : ValidDate y1 m1 d1)
    (h2 : ValidDate y2 m2 d2) (h : civilDays y1 m1 d1 = civilDays y2 m2 d2) :
    y1 = y2 ∧ m1 = m2 ∧ d1 = d2 := by
  have e1 := absDate_valid y1 m1 d1 0 h1 (by omega) (by omega)
  have e2 := absDate_valid y2 m2 d2 0 h2 (by omega) (by omega)
  rw [h, e2] at e1
  simp only [Prod.mk.injEq, Nat.cast_inj] at e1
  exact ⟨e1.1.symm, e1.2.1.symm, e1.2.2.symm⟩

theorem civilDays_skipped :
    civilDays 1916 7 3 = -19540 ∧ civilDays 1930 6 21 = -14439 ∧ civilDays 1981 4 1 = 4108 ∧
    civilDays 1982 4 1 = 4473 ∧ civilDays 1983 4 1 = 4838 ∧ civilDays 1984 4 1 = 5204 := by
  simp only [civilDays_eq, daysBeforeYear_closed]
  norm_num [daysInMonths, monthLength, isLeapYear]

/-- The six days of `moscowSkipOfDay` are the six dates of `moscowMidnightSkip`. -/
theorem moscowSkip_of_date (year month day : Nat) (hd : ValidDate year month day) :
    moscowSkipOfDay (civilDays year month day) = moscowMidnightSkip year month day := by
  obtain ⟨c1, c2, c3, c4, c5, c6⟩ := civilDays_skipped
  have hinj : ∀ y m d k, ValidDate y m d → civilDays y m d = k →
      (civilDays year month day = k ↔ (year = y ∧ month = m ∧ day = d)) := by
    intro y m d k hv hk
    constructor
    · intro h
      exact civilDays_inj year month day y m d hd hv (h.trans hk.symm)
    · rintro ⟨rfl, rfl, rfl⟩
      exact hk
  have i1 := hinj 1916 7 3 _ (by decide) c1
  have i2 := hinj 1930 6 21 _ (by decide) c2
  have i3 := hinj 1981 4 1 _ (by decide) c3
  have i4 := hinj 1982 4 1 _ (by decide) c4
  have i5 := hinj 1983 4 1 _ (by decide) c5
  have i6 := hinj 1984 4 1 _ (by decide) c6
  simp only [moscowSkipOfDay, moscowMidnightSkip, i1, i2, i3, i4, i5, i6]
  split_ifs <;> first | rfl | omega

/-- C9 (amended): given that the time zone resolves to `Europe/Moscow` of the IANA
database, for every JSON string `YYYY-MM-DD` naming a valid calendar date
`Date.UnmarshalJSON` succeeds, and the decoded time is presented in `Europe/Moscow`, has
no fraction, and shows the clock of Moscow at 00:00:00 of that date, except on the six
dates whose midnight the clock of Moscow skipped (1916-07-03, 1930-06-21 and April 1 of
1981 to 1984), where it shows the first instant of the date, 00:01:02 or 01:00:00.  The
result does not depend on the machine's local time zone: every environment with the
same zone database gives the same time. -/
theorem Date_UnmarshalJSON_moscow_midnight (env : TimeEnv) (year month day : Nat)
    (hd : ValidDate year month day)
    (hloc : env.loadLocation "Europe/Moscow" = .ok europeMoscow) :
    ∃ t : Time,
      Date.UnmarshalJSON env (jsonQuote (dateText year month day)) = .ok t ∧
      t.loc = europeMoscow ∧ t.nsec = 0 ∧
      t.localSeconds = civilSeconds year month day 0 0 0 + moscowMidnightSkip year month day ∧
      ∀ env2 : TimeEnv, env2.loadLocation = env.loadLocation →
        Date.UnmarshalJSON env2 (jsonQuote (dateText year month day)) = .ok t := by
  obtain ⟨hb0, hb1⟩ := civilDays_bounds year month day hd
  refine ⟨⟨zoneAdjust europeMoscow (86400 * civilDays year month day), 0, europeMoscow⟩,
    Date_UnmarshalJSON_value env europeMoscow year month day hd hloc, rfl, rfl, ?_, ?_⟩
  · rw [civilSeconds_midnight, ← moscowSkip_of_date year month day hd]
    exact moscow_midnight (civilDays year month day) hb0 hb1
  · intro env2 h2
    exact Date_UnmarshalJSON_value env2 europeMoscow year month day hd (by rw [h2]; exact hloc)

theorem Date_UnmarshalJSON_moscow_midnight_witness :
    ValidDate 2021 6 15 ∧ (moscowEnv UTC).loadLocation "Europe/Moscow" = .ok europeMoscow ∧
    ∃ t : Time,
      Date.UnmarshalJSON (moscowEnv UTC) (jsonQuote (dateText 2021 6 15)) = .ok t ∧
      t.loc = europeMoscow ∧ t.nsec = 0 ∧
      t.localSeconds = civilSeconds 2021 6 15 0 0 0 + moscowMidnightSkip 2021 6 15 ∧
      ∀ env2 : TimeEnv, env2.loadLocation = (moscowEnv UTC).loadLocation →
        Date.UnmarshalJSON env2 (jsonQuote (dateText 2021 6 15)) = .ok t :=
  ⟨by decide, rfl, Date_UnmarshalJSON_moscow_midnight (moscowEnv UTC) 2021 6 15 (by decide) rfl⟩

/-- The spec's example P7: `"2021-06-15"` decodes to 2021-06-15T00:00:00 in Moscow, the
instant 2021-06-14T21:00:00Z, on a machine in UTC as on one in a zone five and a half
hours east. -/
theorem Date_example :
    jsonQuote (dateText 2021 6 15) = "\"2021-06-15\"".toList ∧
    Date.UnmarshalJSON (moscowEnv UTC) "\"2021-06-15\"".toList =
      .ok ⟨1623704400, 0, europeMoscow⟩ ∧
    Date.UnmarshalJSON (moscowEnv (FixedZone "IST" 19800)) "\"2021-06-15\"".toList =
      .ok ⟨1623704400, 0, europeMoscow⟩ ∧
    Time.localSeconds ⟨1623704400, 0, europeMoscow⟩ = 1623715200 ∧
    civilSeconds 2021 6 15 0 0 0 = 1623715200 ∧
    Date 2021 6 14 21 0 0 0 UTC = ⟨1623704400, 0, UTC⟩ := by
  refine ⟨rfl, rfl, rfl, rfl, ?_, rfl⟩
  simp only [civilSeconds, civilDays_eq, daysBeforeYear_closed]
  norm_num [daysInMonths, monthLength, isLeapYear]

/-- C9 (counterexample): `"1981-04-01"` names a valid calendar date, and the time zone
resolves, but the decoded time is not 00:00:00 of that date in Moscow: at midnight the
clocks were put forward to 01:00, so there is no such instant, and the decoder returns
1981-03-31T21:00:00Z, at which the clock of Moscow shows 01:00:00 on 1981-04-01. -/
theorem Date_UnmarshalJSON_skipped_midnight :
    ValidDate 1981 4 1 ∧
    jsonQuote (dateText 1981 4 1) = "\"1981-04-01\"".toList ∧
    Date.UnmarshalJSON (moscowEnv UTC) "\"1981-04-01\"".toList =
      .ok ⟨354920400, 0, europeMoscow⟩ ∧
    Time.localSeconds ⟨354920400, 0, europeMoscow⟩ = 354934800 ∧
    civilSeconds 1981 4 1 0 0 0 = 354931200 ∧
    civilSeconds 1981 4 1 1 0 0 = 354934800 ∧
    Time.localSeconds ⟨354920400, 0, europeMoscow⟩ ≠ civilSeconds 1981 4 1 0 0 0 := by
  have h0 : civilSeconds 1981 4 1 0 0 0 = 354931200 := by
    simp only [civilSeconds, civilDays_eq, daysBeforeYear_closed]
    norm_num [daysInMonths, monthLength, isLeapYear]
  have h1 : civilSeconds 1981 4 1 1 0 0 = 354934800 := by
    simp only [civilSeconds, civilDays_eq, daysBeforeYear_closed]
    norm_num [daysInMonths, monthLength, isLeapYear]
  have hl : Time.localSeconds ⟨354920400, 0, europeMoscow⟩ = 354934800 := rfl
  refine ⟨by decide, rfl, rfl, hl, h0, h1, ?_⟩
  rw [hl, h0]
  decide

/-! ## Theorems: what `time.Parse` accepts -/

theorem isDigitChar_iff (c : Char) : isDigitChar c = true ↔ 48 ≤ c.toNat ∧ c.toNat ≤ 57 := by
  simp only [isDigitChar, Bool.and_eq_true, decide_eq_true_eq]
  constructor
  · rintro ⟨h1, h2⟩
    exact ⟨h1, h2⟩
  · rintro ⟨h1, h2⟩
    exact ⟨h1, h2⟩

/-- Every digit is the digit character of its value. -/
theorem digit_of_isDigitChar (c : Char) (h : isDigitChar c = true) :
    ∃ d : Nat, d < 10 ∧ c = digitChar d := by
  obtain ⟨h1, h2⟩ := (isDigitChar_iff c).mp h
  refine ⟨c.toNat - 48, by omega, ?_⟩
  have hmod : (c.toNat - 48) % 10 = c.toNat - 48 := Nat.mod_eq_of_lt (by omega)
  unfold digitChar
  rw [hmod, show 48 + (c.toNat - 48) = c.toNat by omega, Char.ofNat_toNat]

theorem digitVal_bounds (c : Char) (h : isDigitChar c = true) :
    0 ≤ digitVal c ∧ digitVal c ≤ 9 := by
  obtain ⟨d, hd, rfl⟩ := digit_of_isDigitChar c h
  rw [digitVal_digitChar]
  omega

theorem getnum_inv (s : List Char) (fixed : Bool) (v : Int) (rest : List Char)
    (h : getnum s fixed = some (v, rest)) : ∃ n : Nat, n ≤ 99 ∧ v = (n : Int) := by
  unfold getnum at h
  cases s with
  | nil => simp at h
  | cons c0 s1 =>
    simp only at h
    by_cases h0 : isDigitChar c0 = true
    · obtain ⟨b0, b1⟩ := digitVal_bounds c0 h0
      simp only [h0, if_true] at h
      cases s1 with
      | nil =>
        simp only at h
        split at h
        · simp at h
        · simp only [Option.some.injEq, Prod.mk.injEq] at h
          exact ⟨(digitVal c0).toNat, by omega, by omega⟩
      | cons c1 s2 =>
        simp only at h
        by_cases h1 : isDigitChar c1 = true
        · obtain ⟨b2, b3⟩ := digitVal_bounds c1 h1
          simp only [h1, if_true, Option.some.injEq, Prod.mk.injEq] at h
          exact ⟨(digitVal c0 * 10 + digitVal c1).toNat, by omega, by omega⟩
        · simp only [h1, Bool.false_eq_true, if_false] at h
          split at h
          · simp at h
          · simp only [Option.some.injEq, Prod.mk.injEq] at h
            exact ⟨(digitVal c0).toNat, by omega, by omega⟩
    · simp [h0] at h

/-- When `leadingInt` uses up its text, the text is all digits and the number has as
many digits. -/
theorem leadingInt_bound (s : List Char) (x q : Int) (hx : 0 ≤ x)
    (h : leadingInt s x = (q, [])) :
    x * 10 ^ s.length ≤ q ∧ q < (x + 1) * 10 ^ s.length := by
  induction s generalizing x with
  | nil =>
    simp only [leadingInt, Prod.mk.injEq, and_true] at h
    subst h
    simp
  | cons c s ih =>
    simp only [leadingInt] at h
    by_cases hc : isDigitChar c = true
    · obtain ⟨b0, b1⟩ := digitVal_bounds c hc
      simp only [hc, if_true] at h
      obtain ⟨i1, i2⟩ := ih (x * 10 + digitVal c) (by omega) h
      have hp : (0 : Int) < 10 ^ s.length := by positivity
      simp only [List.length_cons, pow_succ]
      constructor
      · nlinarith
      · nlinarith
    · simp [hc] at h

theorem atoi_digits_bound (s : List Char) (v : Int) (c : Char) (hc : isDigitChar c = true)
    (h : atoi (c :: s) = some v) : 0 ≤ v ∧ v < 10 ^ (s.length + 1) := by
  have hm : c ≠ '-' := by
    intro e
    rw [e] at hc
    exact absurd hc (by decide)
  have hp : c ≠ '+' := by
    intro e
    rw [e] at hc
    exact absurd hc (by decide)
  simp only [atoi, hm, hp, if_false] at h
  split at h
  · rename_i q hq
    simp only [Option.some.injEq] at h
    subst h
    have := leadingInt_bound (c :: s) 0 q (by omega) hq
    simp only [List.length_cons, zero_mul, zero_add, one_mul] at this
    exact this
  · simp at h

theorem parseStd_year_inv (next : Option Std) (st st1 : ParseState) (value rest : List Char)
    (h : parseStd .stdLongYear next st value = .ok (st1, rest)) :
    ∃ y : Nat, y ≤ 9999 ∧ st1 = { st with year := y } := by
  simp only [parseStd] at h
  split at h
  · rename_i c0 c1 c2 c3 rest0
    by_cases hc : isDigitChar c0 = true
    · simp only [hc, if_true] at h
      split at h
      · rename_i year hy
        obtain ⟨b0, b1⟩ := atoi_digits_bound [c1, c2, c3] year c0 hc hy
        simp only [Except.ok.injEq, Prod.mk.injEq] at h
        refine ⟨year.toNat, ?_, ?_⟩
        · simp only [List.length_cons, List.length_nil] at b1
          norm_num at b1
          omega
        · rw [← h.1]
          have : ((year.toNat : Nat) : Int) = year := by omega
          rw [this]
      · simp at h
    · simp [hc] at h
  · simp at h

theorem parseStd_month_inv (next : Option Std) (st st1 : ParseState) (value rest : List Char)
    (h : parseStd .stdZeroMonth next st value = .ok (st1, rest)) :
    ∃ m : Nat, 1 ≤ m ∧ m ≤ 12 ∧ st1 = { st with month := m } := by
  simp only [parseStd] at h
  split at h
  · simp at h
  · rename_i month rest0 hg
    obtain ⟨n, hn, rfl⟩ := getnum_inv _ _ _ _ hg
    split at h
    · simp at h
    · simp only [Except.ok.injEq, Prod.mk.injEq] at h
      exact ⟨n, by omega, by omega, h.1.symm⟩

theorem parseStd_day_inv (next : Option Std) (st st1 : ParseState) (value rest : List Char)
    (h : parseStd .stdZeroDay next st value = .ok (st1, rest)) :
    ∃ d : Nat, d ≤ 99 ∧ st1 = { st with day := d } := by
  simp only [parseStd] at h
  split at h
  · simp at h
  · rename_i day rest0 hg
    obtain ⟨n, hn, rfl⟩ := getnum_inv _ _ _ _ hg
    simp only [Except.ok.injEq, Prod.mk.injEq] at h
    exact ⟨n, hn, h.1.symm⟩

theorem parseStd_hour_inv (next : Option Std) (st st1 : ParseState) (value rest : List Char)
    (h : parseStd .stdHour next st value = .ok (st1, rest)) :
    ∃ n : Nat, n ≤ 23 ∧ st1 = { st with hour := n } := by
  simp only [parseStd] at h
  split at h
  · simp at h
  · rename_i hour rest0 hg
    obtain ⟨n, hn, rfl⟩ := getnum_inv _ _ _ _ hg
    split at h
    · simp at h
    · simp only [Except.ok.injEq, Prod.mk.injEq] at h
      exact ⟨n, by omega, h.1.symm⟩

theorem parseStd_minute_inv (next : Option Std) (st st1 : ParseState) (value rest : List Char)
    (h : parseStd .stdZeroMinute next st value = .ok (st1, rest)) :
    ∃ n : Nat, n ≤ 59 ∧ st1 = { st with min := n } := by
  simp only [parseStd] at h
  split at h
  · simp at h
  · rename_i min rest0 hg
    obtain ⟨n, hn, rfl⟩ := getnum_inv _ _ _ _ hg
    split at h
    · simp at h
    · simp only [Except.ok.injEq, Prod.mk.injEq] at h
      exact ⟨n, by omega, h.1.symm⟩

theorem parseStd_second_inv (digits : Nat) (st st1 : ParseState) (value rest : List Char)
    (h : parseStd .stdZeroSecond (some (.stdFracSecond9 digits)) st value = .ok (st1, rest)) :
    ∃ n : Nat, n ≤ 59 ∧ st1 = { st with sec := n } := by
  simp only [parseStd] at h
  split at h
  · simp at h
  · rename_i sec rest0 hg
    obtain ⟨n, hn, rfl⟩ := getnum_inv _ _ _ _ hg
    split at h
    · simp at h
    · simp only [Except.ok.injEq, Prod.mk.injEq] at h
      exact ⟨n, by omega, h.1.symm⟩

theorem parseNanoseconds_bound (c : Char) (s : List Char) (ns : Int)
    (hc : isDigitChar c = true) (h : parseNanoseconds (c :: s) = some ns) :
    0 ≤ ns ∧ ns < 1000000000 := by
  simp only [parseNanoseconds, List.take_succ_cons] at h
  split at h
  · simp at h
  · rename_i v hv
    obtain ⟨b0, b1⟩ := atoi_digits_bound _ v c hc hv
    split at h
    · simp at h
    · simp only [Option.some.injEq] at h
      subst h
      have hlen : (List.take 8 s).length ≤ 8 := by
        rw [List.length_take]
        exact Nat.min_le_left _ _
      simp only [List.length_cons]
      generalize (List.take 8 s).length = n at hlen b1
      have hp : (0 : Int) < 10 ^ (9 - (n + 1)) := by positivity
      have hsplit : (10 : Int) ^ (n + 1) * 10 ^ (9 - (n + 1)) = 1000000000 := by
        rw [← pow_add]
        have : n + 1 + (9 - (n + 1)) = 9 := by omega
        rw [this]
        norm_num
      constructor
      · positivity
      · nlinarith

theorem parseStd_frac_inv (digits : Nat) (next : Option Std) (st st1 : ParseState)
    (value rest : List Char)
    (h : parseStd (.stdFracSecond9 digits) next st value = .ok (st1, rest)) :
    st1 = st ∨ ∃ ns : Int, 0 ≤ ns ∧ ns < 1000000000 ∧ st1 = { st with nsec := ns } := by
  simp only [parseStd] at h
  split at h
  · rename_i sep c rest1
    by_cases hc : (commaOrPeriod sep && isDigitChar c) = true
    · simp only [hc, if_true] at h
      have hd : isDigitChar c = true := by
        simp only [Bool.and_eq_true] at hc
        exact hc.2
      rw [List.takeWhile_cons_of_pos hd] at h
      split at h
      · simp at h
      · rename_i ns hns
        simp only [Except.ok.injEq, Prod.mk.injEq] at h
        obtain ⟨b0, b1⟩ := parseNanoseconds_bound c _ ns hd hns
        exact Or.inr ⟨ns, b0, b1, h.1.symm⟩
    · simp only [hc, Bool.false_eq_true, if_false, Except.ok.injEq, Prod.mk.injEq] at h
      exact Or.inl h.1.symm
  · simp only [Except.ok.injEq, Prod.mk.injEq] at h
    exact Or.inl h.1.symm

theorem parseStd_zone_inv (next : Option Std) (st st1 : ParseState) (value rest : List Char)
    (h : parseStd .stdNumColonTZ next st value = .ok (st1, rest)) :
    ∃ (west : Bool) (offHour offMin : Nat), offHour ≤ 24 ∧ offMin ≤ 60 ∧
      st1 = { st with zoneOffset := offsetSeconds west offHour offMin } := by
  simp only [parseStd] at h
  split at h
  · rename_i sign h0 h1 colon m0 m1 rest0
    split at h
    · split at h
      · rename_i hr r1 mm r2 hg1 hg2
        obtain ⟨a, ha, rfl⟩ := getnum_inv _ _ _ _ hg1
        obtain ⟨b, hb, rfl⟩ := getnum_inv _ _ _ _ hg2
        split at h
        · simp at h
        · split at h
          · simp at h
          · split at h
            · simp only [Except.ok.injEq, Prod.mk.injEq] at h
              refine ⟨false, a, b, by omega, by omega, ?_⟩
              rw [← h.1]
              simp [offsetSeconds]
            · split at h
              · simp only [Except.ok.injEq, Prod.mk.injEq] at h
                refine ⟨true, a, b, by omega, by omega, ?_⟩
                rw [← h.1]
                simp [offsetSeconds]
              · simp at h
      · simp at h
    · simp at h
  · simp at h

theorem parseChunks_cons_inv (d l : Location) (pre : List Char) (std : Std)
    (rest : List (List Char × Std)) (st : ParseState) (value : List Char) (t : Time)
    (h : parseChunks d l ((pre, std) :: rest) st value = .ok t) :
    ∃ (value1 : List Char) (st1 : ParseState) (value2 : List Char),
      parseStd std (rest.head?.map Prod.snd) st value1 = .ok (st1, value2) ∧
        parseChunks d l rest st1 value2 = .ok t := by
  simp only [parseChunks] at h
  split at h
  · simp at h
  · rename_i value1 hs
    split at h
    · simp at h
    · rename_i st1 value2 hp
      exact ⟨value1, st1, value2, hp, h⟩

theorem parseChunks_nil_inv (d l : Location) (st : ParseState) (value : List Char) (t : Time)
    (h : parseChunks d l [] st value = .ok t) : parseFinish st d l = .ok t := by
  simp only [parseChunks] at h
  split at h
  · exact h
  · simp at h

theorem offsetSeconds_ne (west : Bool) (offHour offMin : Nat) :
    offsetSeconds west offHour offMin ≠ -1 := by
  unfold offsetSeconds
  split <;> omega

theorem parseFinish_offset (localLocation : Location) (year month day hour min sec : Nat)
    (nsec : Int) (west : Bool) (offHour offMin : Nat)
    (hd : ValidDate year month day) (hc : ValidClock hour min sec)
    (hn0 : 0 ≤ nsec) (hn1 : nsec < 1000000000) :
    parseFinish ⟨year, month, day, hour, min, sec, nsec, offsetSeconds west offHour offMin⟩
        UTC localLocation =
      .ok (offsetTime localLocation year month day hour min sec nsec
        (offsetSeconds west offHour offMin)) := by
  have hdate := Date_civil year month day hour min sec nsec UTC hd hc hn0 hn1
  obtain ⟨hy, hm1, hm12, hd1, hdm⟩ := hd
  have hdin := daysIn_cast year month hm1 hm12
  have hday : ¬ ((day : Int) < 1 ∨ (day : Int) > daysIn (month : Int) (year : Int)) := by
    rw [hdin]
    omega
  have hoff := offsetSeconds_ne west offHour offMin
  have hmneg : ¬ ((month : Int) < 0) := by omega
  have hdneg : ¬ ((day : Int) < 0) := by omega
  simp only [parseFinish, hmneg, hdneg, if_false, hday, hoff, ne_eq, not_false_eq_true,
    if_true, hdate, zoneAdjust_UTC, offsetTime]
  split <;> rfl

theorem parseFinish_day_inv (st : ParseState) (d l : Location) (t : Time) (year month day : Nat)
    (hy : st.year = year) (hm : st.month = month) (hday : st.day = day)
    (hy1 : year ≤ 9999) (hm1 : 1 ≤ month) (hm12 : month ≤ 12)
    (h : parseFinish st d l = .ok t) : ValidDate year month day := by
  have hdin := daysIn_cast year month hm1 hm12
  have hmneg : ¬ ((month : Int) < 0) := by omega
  have hdneg : ¬ ((day : Int) < 0) := by omega
  simp only [parseFinish, hy, hm, hday, hmneg, hdneg, if_false, hdin] at h
  split at h
  · simp at h
  · rename_i hv
    exact ⟨hy1, hm1, hm12, by omega, by omega⟩

/-- Every text `time.Parse` accepts in the layout of offset timestamps has a valid
date, a valid time of day, a fraction below a second and an offset, and the time is
built from them. -/
theorem timeParse_offset_inv (localLocation : Location) (str : List Char) (t : Time)
    (h : timeParse localLocation layoutDateTimeMilliOffset str = .ok t) :
    ∃ (year month day hour min sec : Nat) (nsec : Int) (west : Bool) (offHour offMin : Nat),
      ValidDate year month day ∧ ValidClock hour min sec ∧ 0 ≤ nsec ∧ nsec < 1000000000 ∧
      offHour ≤ 24 ∧ offMin ≤ 60 ∧
      t = offsetTime localLocation year month day hour min sec nsec
        (offsetSeconds west offHour offMin) := by
  simp only [timeParse, layoutDateTimeMilliOffset] at h
  obtain ⟨_, st1, v1, p1, h⟩ := parseChunks_cons_inv _ _ _ _ _ _ _ _ h
  obtain ⟨_, st2, v2, p2, h⟩ := parseChunks_cons_inv _ _ _ _ _ _ _ _ h
  obtain ⟨_, st3, v3, p3, h⟩ := parseChunks_cons_inv _ _ _ _ _ _ _ _ h
  obtain ⟨_, st4, v4, p4, h⟩ := parseChunks_cons_inv _ _ _ _ _ _ _ _ h
  obtain ⟨_, st5, v5, p5, h⟩ := parseChunks_cons_inv _ _ _ _ _ _ _ _ h
  obtain ⟨_, st6, v6, p6, h⟩ := parseChunks_cons_inv _ _ _ _ _ _ _ _ h
  obtain ⟨_, st7, v7, p7, h⟩ := parseChunks_cons_inv _ _ _ _ _ _ _ _ h
  obtain ⟨_, st8, v8, p8, h⟩ := parseChunks_cons_inv _ _ _ _ _ _ _ _ h
  have h := parseChunks_nil_inv _ _ _ _ _ h
  obtain ⟨year, hy, rfl⟩ := parseStd_year_inv _ _ _ _ _ p1
  obtain ⟨month, hm1, hm12, rfl⟩ := parseStd_month_inv _ _ _ _ _ p2
  obtain ⟨day, hd, rfl⟩ := parseStd_day_inv _ _ _ _ _ p3
  obtain ⟨hour, hh, rfl⟩ := parseStd_hour_inv _ _ _ _ _ p4
  obtain ⟨min, hmi, rfl⟩ := parseStd_minute_inv _ _ _ _ _ p5
  simp only [List.head?_cons, Option.map_some'] at p6
  obtain ⟨sec, hs, rfl⟩ := parseStd_second_inv _ _ _ _ _ p6
  obtain ⟨west, offHour, offMin, hoh, hom, rfl⟩ := parseStd_zone_inv _ _ _ _ _ p8
  have hfrac : ∃ nsec : Int, 0 ≤ nsec ∧ nsec < 1000000000 ∧
      st7 = ⟨year, month, day, hour, min, sec, nsec, -1⟩ := by
    rcases parseStd_frac_inv _ _ _ _ _ _ p7 with rfl | ⟨ns, b0, b1, rfl⟩
    · exact ⟨0, by omega, by omega, rfl⟩
    · exact ⟨ns, b0, b1, rfl⟩
  obtain ⟨nsec, hn0, hn1, rfl⟩ := hfrac
  have hvd := parseFinish_day_inv _ _ _ _ year month day rfl rfl rfl hy hm1 hm12 h
  have hfin := parseFinish_offset localLocation year month day hour min sec nsec west offHour
    offMin hvd ⟨hh, hmi, hs⟩ hn0 hn1
  refine ⟨year, month, day, hour, min, sec, nsec, west, offHour, offMin, hvd, ⟨hh, hmi, hs⟩,
    hn0, hn1, hoh, hom, ?_⟩
  have heq : (Except.ok t : Except GoError Time) = .ok (offsetTime localLocation year month day
      hour min sec nsec (offsetSeconds west offHour offMin)) := by
    rw [← h, ← hfin]
  exact Except.ok.inj heq

/-- Every text `time.ParseInLocation` accepts in the layout of calendar dates names a
valid date, and the time is `time.Date` of its midnight in the location. -/
theorem timeParseInLocation_date_inv (loc : Location) (str : List Char) (t : Time)
    (h : timeParseInLocation layoutDate str loc = .ok t) :
    ∃ year month day : Nat, ValidDate year month day ∧
      t = ⟨zoneAdjust loc (86400 * civilDays year month day), 0, loc⟩ := by
  simp only [timeParseInLocation, layoutDate] at h
  obtain ⟨_, st1, v1, p1, h⟩ := parseChunks_cons_inv _ _ _ _ _ _ _ _ h
  obtain ⟨_, st2, v2, p2, h⟩ := parseChunks_cons_inv _ _ _ _ _ _ _ _ h
  obtain ⟨_, st3, v3, p3, h⟩ := parseChunks_cons_inv _ _ _ _ _ _ _ _ h
  have h := parseChunks_nil_inv _ _ _ _ _ h
  obtain ⟨year, hy, rfl⟩ := parseStd_year_inv _ _ _ _ _ p1
  obtain ⟨month, hm1, hm12, rfl⟩ := parseStd_month_inv _ _ _ _ _ p2
  obtain ⟨day, hd, rfl⟩ := parseStd_day_inv _ _ _ _ _ p3
  have hvd := parseFinish_day_inv _ _ _ _ year month day rfl rfl rfl hy hm1 hm12 h
  refine ⟨year, month, day, hvd, ?_⟩
  have hdate := Date_civil year month day 0 0 0 0 loc hvd (by decide) (by omega) (by omega)
  obtain ⟨_, _, _, hd1, hdm⟩ := hvd
  have hdin := daysIn_cast year month hm1 hm12
  have hday : ¬ ((day : Int) < 1 ∨ (day : Int) > daysIn (month : Int) (year : Int)) := by
    rw [hdin]
    omega
  have hmneg : ¬ ((month : Int) < 0) := by omega
  have hdneg : ¬ ((day : Int) < 0) := by omega
  have hfin : parseFinish ⟨year, month, day, 0, 0, 0, 0, -1⟩ loc loc =
      .ok ⟨zoneAdjust loc (86400 * civilDays year month day), 0, loc⟩ := by
    simp only [parseFinish, hmneg, hdneg, if_false, hday, ne_eq, not_true_eq_false]
    rw [← civilSeconds_midnight]
    exact congrArg Except.ok hdate
  have heq : (Except.ok t : Except GoError Time) =
      .ok ⟨zoneAdjust loc (86400 * civilDays year month day), 0, loc⟩ := by
    rw [← h, ← hfin]
    rfl
  exact Except.ok.inj heq

/-! ## Theorems: what `Time.Format` writes -/

theorem lowDigits_zero (k : Nat) : lowDigits k 0 = List.replicate k '0' := by
  induction k with
  | zero => rfl
  | succ k ih =>
    simp only [lowDigits, Nat.zero_div, ih, List.replicate_succ]
    rfl

theorem digitsRev_low (k : Nat) : ∀ (fuel u : Nat), u < 10 ^ k → 1 ≤ k → k ≤ fuel →
    (digitsRev fuel u).length ≤ k ∧
      digitsRev fuel u ++ List.replicate (k - (digitsRev fuel u).length) '0' =
        lowDigits k u := by
  induction k with
  | zero =>
    intro fuel u _ h1 _
    omega
  | succ k ih =>
    intro fuel u hu _ hf
    obtain ⟨f, rfl⟩ : ∃ f, fuel = f + 1 := ⟨fuel - 1, by omega⟩
    by_cases hlt : u < 10
    · have hdiv : u / 10 = 0 := by omega
      simp only [digitsRev, hlt, if_true, List.length_singleton, lowDigits, hdiv,
        lowDigits_zero, Nat.add_sub_cancel, List.singleton_append, and_true]
      omega
    · have hk : 1 ≤ k := by
        rcases Nat.eq_zero_or_pos k with rfl | hpos
        · simp at hu
          omega
        · exact hpos
      have hu2 : u / 10 < 10 ^ k := by
        rw [pow_succ] at hu
        omega
      obtain ⟨hl, he⟩ := ih f (u / 10) hu2 hk (by omega)
      simp only [digitsRev, hlt, if_false, List.length_cons, lowDigits, List.cons_append,
        Nat.add_sub_add_right, he, and_true]
      omega

/-- For a number of at most `k` digits `appendInt` writes its `k` low digits. -/
theorem appendInt_low (n k : Nat) (hn : n < 10 ^ k) (hk1 : 1 ≤ k) (hk : k ≤ 20) :
    appendInt (n : Int) k = (lowDigits k n).reverse := by
  obtain ⟨_, he⟩ := digitsRev_low k 20 n hn hk1 hk
  have hneg : ¬ ((n : Int) < 0) := by omega
  simp only [appendInt, hneg, if_false, Int.natAbs_ofNat, List.nil_append, List.length_reverse]
  rw [← he, List.reverse_append, List.reverse_replicate]

theorem appendInt_pad2 (n : Nat) (h : n < 100) : appendInt (n : Int) 2 = pad2 n := by
  rw [appendInt_low n 2 (by omega) (by omega) (by omega)]
  simp [lowDigits, pad2]

theorem appendInt_pad4 (n : Nat) (h : n < 10000) : appendInt (n : Int) 4 = pad4 n := by
  rw [appendInt_low n 4 (by omega) (by omega) (by omega)]
  simp [lowDigits, pad4, Nat.div_div_eq_div_mul]

theorem appendInt_nano (n : Nat) (h : n < 1000000000) :
    (appendInt (n : Int) 9).take 3 = pad3 (n / 1000000) := by
  rw [appendInt_low n 9 (by omega) (by omega) (by omega)]
  simp [lowDigits, pad3, Nat.div_div_eq_div_mul]

/-- The layout element `.999` writes the milliseconds of the fraction and drops what is
below a millisecond. -/
theorem appendNano_fracText (n : Nat) (h : n < 1000000000) :
    appendNano (n : Int) 3 = fracText (n / 1000000) := by
  by_cases hz : n = 0
  · subst hz
    rfl
  · have hne : ¬ ((3 : Nat) = 0 ∨ (n : Int) = 0) := by omega
    simp only [appendNano, hne, if_false, appendInt_nano n h, fracText]

theorem fracCheck_ok : (List.range 1000).all fracCheck = true := by
  decide!

theorem fracCheck_of_lt (ms : Nat) (h : ms < 1000) : fracCheck ms = true :=
  List.all_eq_true.mp fracCheck_ok ms (List.mem_range.mpr h)

theorem takeWhile_digits (ds : List Char) (c : Char) (rest : List Char)
    (hall : ds.all isDigitChar = true) (hc : isDigitChar c = false) :
    (ds ++ c :: rest).takeWhile isDigitChar = ds ∧
      (ds ++ c :: rest).dropWhile isDigitChar = c :: rest := by
  induction ds with
  | nil => simp [List.takeWhile, List.dropWhile, hc]
  | cons d ds ih =>
    simp only [List.all_cons, Bool.and_eq_true] at hall
    obtain ⟨i1, i2⟩ := ih hall.2
    simp only [List.cons_append, List.takeWhile_cons, List.dropWhile_cons, hall.1, if_true, i1,
      i2, and_self]

/-- The fraction `Time.Format` writes is read back as the milliseconds it stands for. -/
theorem parseStd_fracText (digits : Nat) (next : Option Std) (st : ParseState) (ms : Nat)
    (c : Char) (rest : List Char) (h : ms < 1000) (hc : c = '+' ∨ c = '-')
    (hst : st.nsec = 0) :
    parseStd (.stdFracSecond9 digits) next st (fracText ms ++ c :: rest) =
      .ok ({ st with nsec := (ms : Int) * 1000000 }, c :: rest) := by
  have hck := fracCheck_of_lt ms h
  have hdig := not_digit_of_sign c hc
  have hsep : commaOrPeriod c = false := by
    rcases hc with rfl | rfl <;> decide
  unfold fracCheck at hck
  split at hck
  · rename_i hft
    have hms : ms = 0 := by simpa using hck
    subst hms
    have hst2 : ({ st with nsec := ((0 : Nat) : Int) * 1000000 } : ParseState) = st := by
      cases st
      simp only [ParseState.mk.injEq, true_and, and_true] at hst ⊢
      omega
    rw [hft, hst2, List.nil_append]
    cases rest with
    | nil => simp only [parseStd]
    | cons r rest1 => simp only [parseStd, hsep, Bool.false_and, Bool.false_eq_true, if_false]
  · rename_i sep ds hft
    simp only [Bool.and_eq_true, beq_iff_eq, Bool.not_eq_true', List.isEmpty_eq_false] at hck
    obtain ⟨⟨⟨⟨h1, h2⟩, h3⟩, h4⟩, _⟩ := hck
    subst h1
    obtain ⟨d, ds2, rfl⟩ : ∃ d ds2, ds = d :: ds2 := by
      cases ds with
      | nil => simp at h2
      | cons d ds2 => exact ⟨d, ds2, rfl⟩
    obtain ⟨ht, hdrop⟩ := takeWhile_digits (d :: ds2) c rest h3 hdig
    have hd : isDigitChar d = true := by
      simp only [List.all_cons, Bool.and_eq_true] at h3
      exact h3.1
    have hsep2 : commaOrPeriod '.' = true := by decide
    rw [hft]
    simp only [List.cons_append] at ht hdrop ⊢
    simp only [parseStd, hsep2, hd, Bool.and_self, if_true, ht, hdrop, h4]

theorem plain_fracText (ms : Nat) (h : ms < 1000) :
    ∀ c ∈ fracText ms, appendStringChar c = [c] := by
  have hck := fracCheck_of_lt ms h
  unfold fracCheck at hck
  split at hck
  · rename_i hft
    rw [hft]
    intro c hc
    exact absurd hc (List.not_mem_nil c)
  · rename_i sep ds hft
    simp only [Bool.and_eq_true, beq_iff_eq, List.all_eq_true] at hck
    obtain ⟨⟨⟨⟨h1, _⟩, _⟩, _⟩, h5⟩ := hck
    subst h1
    rw [hft]
    intro c hc
    rcases List.mem_cons.mp hc with rfl | hmem
    · decide
    · exact h5 c hmem

theorem FixedZone_lookup (name : String) (offset sec : Int) :
    ((FixedZone name offset).lookup sec).offset = offset := rfl

theorem offsetTime_offset (l : Location) (year month day hour min sec : Nat) (nsec offset : Int) :
    ((offsetTime l year month day hour min sec nsec offset).loc.lookup
      (offsetTime l year month day hour min sec nsec offset).sec).offset = offset := by
  simp only [offsetTime]
  split
  · rename_i h
    exact h
  · exact FixedZone_lookup _ _ _

theorem absolute_range (k secs : Int) (hk0 : -719528 ≤ k) (hk1 : k ≤ 3652457) (hs0 : 0 ≤ secs)
    (hs1 : secs < 86400) :
    (k * 86400 + secs + unixToAbsolute) % 2 ^ 64 = (k + 106751991073094) * 86400 + secs := by
  have h : k * 86400 + secs + unixToAbsolute = (k + 106751991073094) * 86400 + secs := by
    simp only [unixToAbsolute]
    omega
  rw [h]
  apply Int.emod_eq_of_lt
  · omega
  · norm_num
    omega

/-- The clock reading of a decoded offset timestamp, in absolute seconds, is the one
written in the text. -/
theorem offsetTime_locabs (l : Location) (year month day hour min sec : Nat)
    (nsec offset : Int) (hd : ValidDate year month day) (hc : ValidClock hour min sec) :
    (offsetTime l year month day hour min sec nsec offset).locabs =
      (offset, (civilDays year month day + 106751991073094) * 86400 +
        ((hour : Int) * 3600 + (min : Int) * 60 + (sec : Int))) := by
  obtain ⟨hk0, hk1⟩ := civilDays_bounds year month day hd
  obtain ⟨hh, hm, hs⟩ := hc
  have hoff := offsetTime_offset l year month day hour min sec nsec offset
  have hsec : (offsetTime l year month day hour min sec nsec offset).sec =
      civilSeconds year month day hour min sec - offset := rfl
  have hr := absolute_range (civilDays year month day)
    ((hour : Int) * 3600 + (min : Int) * 60 + (sec : Int)) hk0 hk1 (by omega) (by omega)
  have hsum : civilSeconds year month day hour min sec - offset + offset + unixToAbsolute =
      civilDays year month day * 86400 + ((hour : Int) * 3600 + (min : Int) * 60 + (sec : Int)) +
        unixToAbsolute := by
    simp only [civilSeconds]
    omega
  rw [hsec] at hoff
  simp only [Time.locabs, hsec, hoff, hsum, hr]

/-- What `Time.Format` writes for the date and clock elements of a time whose clock
reading is a valid date and time. -/
theorem formatStd_fields (t : Time) (year month day hour min sec : Nat)
    (hd : ValidDate year month day) (hc : ValidClock hour min sec)
    (habs : t.locabs.2 = (civilDays year month day + 106751991073094) * 86400 +
      ((hour : Int) * 3600 + (min : Int) * 60 + (sec : Int))) :
    formatStd .stdLongYear t = pad4 year ∧ formatStd .stdZeroMonth t = pad2 month ∧
      formatStd .stdZeroDay t = pad2 day ∧ formatStd .stdHour t = pad2 hour ∧
      formatStd .stdZeroMinute t = pad2 min ∧ formatStd .stdZeroSecond t = pad2 sec := by
  have hdate := absDate_valid year month day
    ((hour : Int) * 3600 + (min : Int) * 60 + (sec : Int)) hd
    (by obtain ⟨hh, hm, hs⟩ := hc; omega) (by obtain ⟨hh, hm, hs⟩ := hc; omega)
  have hclock := absClock_valid (civilDays year month day + 106751991073094) hour min sec hc
  obtain ⟨hy, hm1, hm12, hd1, hdm⟩ := hd
  obtain ⟨hh, hm, hs⟩ := hc
  have hml : monthLength year month ≤ 31 := by
    simp only [monthLength]
    split_ifs <;> omega
  simp only [formatStd, habs, hdate, hclock, appendInt_pad4 year (by omega),
    appendInt_pad2 month (by omega), appendInt_pad2 day (by omega),
    appendInt_pad2 hour (by omega), appendInt_pad2 min (by omega),
    appendInt_pad2 sec (by omega), and_self]

/-- The offset `Time.Format` writes: the sign, whole hours and the remaining minutes of
the offset, which stand for the same offset. -/
theorem formatStd_zone (t : Time) (west : Bool) (offHour offMin : Nat)
    (hoh : offHour ≤ 24) (hom : offMin ≤ 60)
    (hoff : t.locabs.1 = offsetSeconds west offHour offMin) :
    formatStd .stdNumColonTZ t =
      (if (west && decide (0 < offHour * 60 + offMin)) = true then '-' else '+') ::
        (pad2 ((offHour * 60 + offMin) / 60) ++ ':' :: pad2 ((offHour * 60 + offMin) % 60)) ∧
    offsetSeconds (west && decide (0 < offHour * 60 + offMin))
      ((offHour * 60 + offMin) / 60) ((offHour * 60 + offMin) % 60) =
        offsetSeconds west offHour offMin := by
  have hxb : offHour * 60 + offMin ≤ 1500 := by omega
  generalize hx : offHour * 60 + offMin = x at hxb
  have hxi : (offHour : Int) * 60 + (offMin : Int) = (x : Int) := by
    rw [← hx]
    push_cast
    rfl
  have hoffs : offsetSeconds west offHour offMin =
      if west = true then -((x : Int) * 60) else (x : Int) * 60 := by
    simp only [offsetSeconds, hxi]
  have hq : ((x / 60 : Nat) : Int) = (x : Int) / 60 := by omega
  have hr : ((x % 60 : Nat) : Int) = (x : Int) % 60 := by omega
  have hzone : goDiv t.locabs.1 60 =
      if (west && decide (0 < x)) = true then -(x : Int) else (x : Int) := by
    rw [hoff, hoffs]
    cases west
    · have hn : ¬ ((x : Int) * 60 < 0) := by omega
      simp only [Bool.false_eq_true, if_false, goDiv, hn, Bool.false_and]
      omega
    · by_cases hpos : 0 < x
      · have hn : -((x : Int) * 60) < 0 := by omega
        simp only [if_true, goDiv, hn, neg_neg, Bool.true_and, hpos, decide_True]
        omega
      · have hx0 : x = 0 := by omega
        subst hx0
        simp [goDiv]
  have hnn : ¬ ((x : Int) < 0) := by omega
  constructor
  · by_cases hw : (west && decide (0 < x)) = true
    · have hpos : 0 < x := by
        simp only [Bool.and_eq_true, decide_eq_true_eq] at hw
        exact hw.2
      have hneg : -(x : Int) < 0 := by omega
      have habs : (-(x : Int)).natAbs = x := by omega
      simp only [formatStd, hzone, hw, if_true, hneg, habs]
      simp only [goDiv, hnn, if_false, ← hq, ← hr,
        appendInt_pad2 (x / 60) (by omega), appendInt_pad2 (x % 60) (by omega)]
    · have hneg : ¬ ((x : Int) < 0) := by omega
      have habs : ((x : Int)).natAbs = x := by omega
      simp only [formatStd, hzone, hw, if_false, hneg, habs, Bool.false_eq_true]
      simp only [goDiv, hnn, if_false, ← hq, ← hr,
        appendInt_pad2 (x / 60) (by omega), appendInt_pad2 (x % 60) (by omega)]
  · rw [hoffs]
    have hsum : ((x / 60 : Nat) : Int) * 60 + ((x % 60 : Nat) : Int) = (x : Int) := by omega
    cases west
    · simp only [offsetSeconds, Bool.false_and, Bool.false_eq_true, if_false, hsum]
    · by_cases hpos : 0 < x
      · simp only [offsetSeconds, Bool.true_and, hpos, decide_True, if_true, hsum]
      · have hx0 : x = 0 := by omega
        subst hx0
        simp [offsetSeconds]

/-! ## Theorems: re-encoding a decoded value and decoding it again -/

theorem formattedTimestampText_eq (year month day hour min sec milli : Nat) (west : Bool)
    (offHour offMin : Nat) :
    formattedTimestampText year month day hour min sec milli west offHour offMin =
      pad4 year ++ '-' :: (pad2 month ++ '-' :: (pad2 day ++ 'T' :: (pad2 hour ++ ':' ::
        (pad2 min ++ ':' :: (pad2 sec ++ (fracText milli ++ (if west then '-' else '+') ::
          (pad2 offHour ++ ':' :: (pad2 offMin ++ [])))))))) := by
  simp [formattedTimestampText, List.append_assoc]

theorem plain_formattedTimestampText (year month day hour min sec milli : Nat) (west : Bool)
    (offHour offMin : Nat) (hms : milli < 1000) :
    ∀ c ∈ formattedTimestampText year month day hour min sec milli west offHour offMin,
      appendStringChar c = [c] := by
  intro c hc
  simp only [formattedTimestampText, List.mem_append, List.mem_cons] at hc
  have hsep : ∀ d : Char, d = '-' ∨ d = 'T' ∨ d = ':' ∨ d = '+' →
      appendStringChar d = [d] := by
    intro d hd
    rcases hd with rfl | rfl | rfl | rfl <;> decide
  rcases hc with ((((((((h | h | h) | h | h) | h | h) | h | h) | h | h) | h) | h | h) | h | h)
  all_goals first
    | exact plain_pad4 _ c h
    | exact plain_pad2 _ c h
    | exact plain_fracText _ hms c h
    | (subst h; cases west <;> decide)

/-- `time.Parse` collects the fields of an offset timestamp written by `Time.Format`. -/
theorem timeParse_formattedTimestamp (localLocation : Location)
    (year month day hour min sec milli : Nat) (west : Bool) (offHour offMin : Nat)
    (hd : ValidDate year month day) (hc : ValidClock hour min sec) (hms : milli < 1000)
    (hoh : offHour ≤ 24) (hom : offMin ≤ 60) :
    timeParse localLocation layoutDateTimeMilliOffset
        (formattedTimestampText year month day hour min sec milli west offHour offMin) =
      parseFinish ⟨year, month, day, hour, min, sec, (milli : Int) * 1000000,
        offsetSeconds west offHour offMin⟩ UTC localLocation := by
  obtain ⟨hy, hm1, hm12, hd1, hdm⟩ := hd
  obtain ⟨hh, hmi, hs⟩ := hc
  have hml : monthLength year month ≤ 31 := by
    simp only [monthLength]
    split_ifs <;> omega
  have hsign : (if west then '-' else '+') = '+' ∨ (if west then '-' else '+') = '-' := by
    cases west
    · exact Or.inl rfl
    · exact Or.inr rfl
  rw [formattedTimestampText_eq]
  simp only [timeParse, layoutDateTimeMilliOffset, parseChunks, skip_none, skip_one,
    List.head?_cons, Option.map_some', List.head?_nil, Option.map_none',
    parseStd_year _ _ year _ (by omega), parseStd_month _ _ month _ hm1 hm12,
    parseStd_day _ _ day _ (by omega), parseStd_hour _ _ hour _ hh,
    parseStd_minute _ _ min _ hmi, parseStd_second _ _ sec _ hs,
    parseStd_fracText 3 _ ⟨year, month, day, hour, min, sec, 0, -1⟩ milli _ _ hms hsign rfl,
    parseStd_zone _ _ west offHour offMin _ hoh hom,
    ParseState.init, if_true]

/-- What `Time.Format` writes for a decoded offset timestamp: the date and time of the
text it was decoded from, the whole milliseconds of the fraction, and the offset as
hours and minutes. -/
theorem Format_offsetTime (l : Location) (year month day hour min sec nsec : Nat)
    (west : Bool) (offHour offMin : Nat)
    (hd : ValidDate year month day) (hc : ValidClock hour min sec) (hn : nsec < 1000000000)
    (hoh : offHour ≤ 24) (hom : offMin ≤ 60) :
    (offsetTime l year month day hour min sec (nsec : Int)
        (offsetSeconds west offHour offMin)).Format layoutDateTimeMilliOffset =
      formattedTimestampText year month day hour min sec (nsec / 1000000)
        (west && decide (0 < offHour * 60 + offMin))
        ((offHour * 60 + offMin) / 60) ((offHour * 60 + offMin) % 60) := by
  have hloc := offsetTime_locabs l year month day hour min sec (nsec : Int)
    (offsetSeconds west offHour offMin) hd hc
  obtain ⟨f1, f2, f3, f4, f5, f6⟩ := formatStd_fields _ year month day hour min sec hd hc
    (congrArg Prod.snd hloc)
  obtain ⟨fz, _⟩ := formatStd_zone _ west offHour offMin hoh hom (congrArg Prod.fst hloc)
  have fn : formatStd (.stdFracSecond9 3) (offsetTime l year month day hour min sec (nsec : Int)
      (offsetSeconds west offHour offMin)) = fracText (nsec / 1000000) := by
    simp only [formatStd]
    exact appendNano_fracText nsec hn
  rw [formattedTimestampText_eq]
  simp only [Time.Format, layoutDateTimeMilliOffset, f1, f2, f3, f4, f5, f6, fz, fn,
    List.nil_append, List.singleton_append, List.append_nil, List.cons_append,
    List.append_assoc]

/-- Re-encoding a decoded offset timestamp and decoding it again gives the instant
truncated to whole milliseconds, in the same location, unless the offset is 25 hours. -/
theorem DateTimeMilliOffset_reencode (env : TimeEnv) (year month day hour min sec nsec : Nat)
    (west : Bool) (offHour offMin : Nat)
    (hd : ValidDate year month day) (hc : ValidClock hour min sec) (hn : nsec < 1000000000)
    (hoh : offHour ≤ 24) (hom : offMin ≤ 60) (hlt : offHour * 60 + offMin < 1500) :
    DateTimeMilliOffset.UnmarshalJSON env (reencodeDateTimeMilliOffset
        (offsetTime env.localLocation year month day hour min sec (nsec : Int)
          (offsetSeconds west offHour offMin))) =
      .ok (offsetTime env.localLocation year month day hour min sec
        (((nsec / 1000000 : Nat) : Int) * 1000000) (offsetSeconds west offHour offMin)) := by
  have hms : nsec / 1000000 < 1000 := by omega
  have hH : (offHour * 60 + offMin) / 60 ≤ 24 := by omega
  have hM : (offHour * 60 + offMin) % 60 ≤ 60 := by omega
  have htext := Format_offsetTime env.localLocation year month day hour min sec nsec west
    offHour offMin hd hc hn hoh hom
  have hjson := jsonUnmarshalString_plain _ (plain_formattedTimestampText year month day hour
    min sec (nsec / 1000000) (west && decide (0 < offHour * 60 + offMin))
    ((offHour * 60 + offMin) / 60) ((offHour * 60 + offMin) % 60) hms)
  have hparse := timeParse_formattedTimestamp env.localLocation year month day hour min sec
    (nsec / 1000000) (west && decide (0 < offHour * 60 + offMin))
    ((offHour * 60 + offMin) / 60) ((offHour * 60 + offMin) % 60) hd hc hms hH hM
  have hfin := parseFinish_offset env.localLocation year month day hour min sec
    (((nsec / 1000000 : Nat) : Int) * 1000000) (west && decide (0 < offHour * 60 + offMin))
    ((offHour * 60 + offMin) / 60) ((offHour * 60 + offMin) % 60) hd hc (by omega) (by omega)
  have hzone := (formatStd_zone _ west offHour offMin hoh hom (congrArg Prod.fst
    (offsetTime_locabs env.localLocation year month day hour min sec (nsec : Int)
      (offsetSeconds west offHour offMin) hd hc))).2
  rw [hzone] at hfin hparse
  simp only [DateTimeMilliOffset.UnmarshalJSON, reencodeDateTimeMilliOffset, htext, hjson,
    hparse, hfin]

theorem DateTimeMilliOffset_UnmarshalJSON_inv (env : TimeEnv) (data : List Char) (t : Time)
    (h : DateTimeMilliOffset.UnmarshalJSON env data = .ok t) :
    ∃ str, timeParse env.localLocation layoutDateTimeMilliOffset str = .ok t := by
  simp only [DateTimeMilliOffset.UnmarshalJSON] at h
  split at h
  · simp at h
  · rename_i str _
    split at h
    · simp at h
    · rename_i value hv
      simp only [Except.ok.injEq] at h
      subst h
      exact ⟨str, hv⟩

theorem Date_UnmarshalJSON_inv (env : TimeEnv) (data : List Char) (t : Time)
    (h : Date.UnmarshalJSON env data = .ok t) :
    ∃ loc str, env.loadLocation "Europe/Moscow" = .ok loc ∧
      timeParseInLocation layoutDate str loc = .ok t := by
  simp only [Date.UnmarshalJSON, dateLocation] at h
  split at h
  · simp at h
  · rename_i loc hl
    split at h
    · simp at h
    · rename_i str _
      split at h
      · simp at h
      · rename_i value hv
        simp only [Except.ok.injEq] at h
        subst h
        exact ⟨loc, str, hl, hv⟩

theorem moscowSkip_clock (k : Int) : ∃ hour min sec : Nat, ValidClock hour min sec ∧
    moscowSkipOfDay k = (hour : Int) * 3600 + (min : Int) * 60 + (sec : Int) := by
  unfold moscowSkipOfDay
  split_ifs
  · exact ⟨0, 1, 2, by decide, by norm_num⟩
  · exact ⟨1, 0, 0, by decide, by norm_num⟩
  · exact ⟨0, 0, 0, by decide, by norm_num⟩

/-- What `Time.Format` writes for a decoded calendar date in Moscow: the date it was
decoded from. -/
theorem Format_moscowDate (year month day : Nat) (hd : ValidDate year month day) :
    Time.Format ⟨zoneAdjust europeMoscow (86400 * civilDays year month day), 0, europeMoscow⟩
      layoutDate = dateText year month day := by
  obtain ⟨hk0, hk1⟩ := civilDays_bounds year month day hd
  have hmid := moscow_midnight (civilDays year month day) hk0 hk1
  obtain ⟨hour, min, sec, hc, hskip⟩ := moscowSkip_clock (civilDays year month day)
  have hr := absolute_range (civilDays year month day)
    ((hour : Int) * 3600 + (min : Int) * 60 + (sec : Int)) hk0 hk1
    (by obtain ⟨hh, hm, hs⟩ := hc; omega) (by obtain ⟨hh, hm, hs⟩ := hc; omega)
  have habs : (Time.locabs ⟨zoneAdjust europeMoscow (86400 * civilDays year month day), 0,
      europeMoscow⟩).2 = (civilDays year month day + 106751991073094) * 86400 +
        ((hour : Int) * 3600 + (min : Int) * 60 + (sec : Int)) := by
    simp only [Time.locabs]
    rw [hmid, hskip, ← hr]
    congr 1
    omega
  obtain ⟨f1, f2, f3, _, _, _⟩ := formatStd_fields _ year month day hour min sec hd hc habs
  rw [dateText_eq]
  simp only [Time.Format, layoutDate, f1, f2, f3, List.nil_append, List.singleton_append,
    List.append_nil, List.cons_append, List.append_assoc]

/-- Re-encoding a decoded calendar date of Moscow and decoding it again gives the same
time. -/
theorem Date_reencode (env : TimeEnv) (year month day : Nat) (hd : ValidDate year month day)
    (hloc : env.loadLocation "Europe/Moscow" = .ok europeMoscow) :
    Date.UnmarshalJSON env (reencodeDate
        ⟨zoneAdjust europeMoscow (86400 * civilDays year month day), 0, europeMoscow⟩) =
      .ok ⟨zoneAdjust europeMoscow (86400 * civilDays year month day), 0, europeMoscow⟩ := by
  rw [reencodeDate, Format_moscowDate year month day hd]
  exact Date_UnmarshalJSON_value env europeMoscow year month day hd hloc

theorem offsetSeconds_natAbs (west : Bool) (offHour offMin : Nat)
    (h : (offsetSeconds west offHour offMin).natAbs < 90000) : offHour * 60 + offMin < 1500 := by
  unfold offsetSeconds at h
  split at h <;> omega

/-- C10 (amended): re-encoding a decoded value in the layout its decoder reads and
decoding it again succeeds, with these results.  For every input that
`DateTimeMilliOffset.UnmarshalJSON` accepts and whose offset is less than 25 hours (it is
not written `+24:60` or `-24:60`), the second decoding gives the first instant truncated
to whole milliseconds, in the same location: the same time, and an equal instant, exactly
when the fraction has no digit below a millisecond.  For every input that
`Date.UnmarshalJSON` accepts, the time zone being `Europe/Moscow` of the IANA database,
the second decoding gives the same time, hence the same local calendar date. -/
theorem UnmarshalJSON_reencode_round_trip (env : TimeEnv) :
    (∀ (data : List Char) (t : Time),
      DateTimeMilliOffset.UnmarshalJSON env data = .ok t →
      (t.loc.lookup t.sec).offset.natAbs < 90000 →
      ∃ t2 : Time,
        DateTimeMilliOffset.UnmarshalJSON env (reencodeDateTimeMilliOffset t) = .ok t2 ∧
        t2.sec = t.sec ∧ t2.nsec = t.nsec - t.nsec % 1000000 ∧ t2.loc = t.loc ∧
        (t2.Equal t = true ↔ t.nsec % 1000000 = 0) ∧ (t.nsec % 1000000 = 0 → t2 = t)) ∧
    (env.loadLocation "Europe/Moscow" = .ok europeMoscow →
      ∀ (data : List Char) (t : Time), Date.UnmarshalJSON env data = .ok t →
        Date.UnmarshalJSON env (reencodeDate t) = .ok t) := by
  constructor
  · intro data t h hoff
    obtain ⟨str, hp⟩ := DateTimeMilliOffset_UnmarshalJSON_inv env data t h
    obtain ⟨year, month, day, hour, min, sec, nsec, west, offHour, offMin, hd, hc, hn0, hn1,
      hoh, hom, rfl⟩ := timeParse_offset_inv env.localLocation str t hp
    rw [offsetTime_offset] at hoff
    have hlt := offsetSeconds_natAbs west offHour offMin hoff
    lift nsec to Nat using hn0
    have hre := DateTimeMilliOffset_reencode env year month day hour min sec nsec west offHour
      offMin hd hc (by omega) hoh hom hlt
    have hns : ((nsec / 1000000 : Nat) : Int) * 1000000 = (nsec : Int) - (nsec : Int) % 1000000 := by
      omega
    refine ⟨_, hre, rfl, hns, rfl, ?_, ?_⟩
    · simp only [Time.Equal, offsetTime, true_and, decide_eq_true_eq, hns]
      constructor <;> intro hz <;> omega
    · intro hz
      have hz2 : (nsec : Int) % 1000000 = 0 := hz
      have hsame : ((nsec / 1000000 : Nat) : Int) * 1000000 = (nsec : Int) := by omega
      rw [hsame]
  · intro hloc data t h
    obtain ⟨loc, str, hl, hp⟩ := Date_UnmarshalJSON_inv env data t h
    have hle : loc = europeMoscow := by
      rw [hloc] at hl
      exact (Except.ok.inj hl).symm
    subst hle
    obtain ⟨year, month, day, hd, rfl⟩ := timeParseInLocation_date_inv _ str t hp
    exact Date_reencode env year month day hd hloc

theorem UnmarshalJSON_reencode_round_trip_witness :
    (DateTimeMilliOffset.UnmarshalJSON (moscowEnv UTC) "\"2021-06-15T10:30:00.5+03:00\"".toList =
        .ok ⟨1623742200, 500000000, FixedZone "" 10800⟩ ∧
      (((FixedZone "" 10800).lookup 1623742200).offset).natAbs < 90000 ∧
      ∃ t2 : Time,
        DateTimeMilliOffset.UnmarshalJSON (moscowEnv UTC)
          (reencodeDateTimeMilliOffset ⟨1623742200, 500000000, FixedZone "" 10800⟩) = .ok t2 ∧
        t2.sec = 1623742200 ∧ t2.nsec = 500000000 - 500000000 % 1000000 ∧
        t2.loc = FixedZone "" 10800 ∧
        (t2.Equal ⟨1623742200, 500000000, FixedZone "" 10800⟩ = true ↔
          (500000000 : Int) % 1000000 = 0) ∧
        ((500000000 : Int) % 1000000 = 0 → t2 = ⟨1623742200, 500000000, FixedZone "" 10800⟩)) ∧
    ((moscowEnv UTC).loadLocation "Europe/Moscow" = .ok europeMoscow ∧
      Date.UnmarshalJSON (moscowEnv UTC) "\"2021-06-15\"".toList =
        .ok ⟨1623704400, 0, europeMoscow⟩ ∧
      Date.UnmarshalJSON (moscowEnv UTC) (reencodeDate ⟨1623704400, 0, europeMoscow⟩) =
        .ok ⟨1623704400, 0, europeMoscow⟩) :=
  ⟨⟨rfl, by decide,
      (UnmarshalJSON_reencode_round_trip (moscowEnv UTC)).1
        "\"2021-06-15T10:30:00.5+03:00\"".toList ⟨1623742200, 500000000, FixedZone "" 10800⟩
        rfl (by decide)⟩,
    ⟨rfl, rfl,
      (UnmarshalJSON_reencode_round_trip (moscowEnv UTC)).2 rfl "\"2021-06-15\"".toList
        ⟨1623704400, 0, europeMoscow⟩ rfl⟩⟩

/-- Round trips of the spec's examples and of fractions with fewer than three digits:
the re-encoded text and the time decoded from it. -/
theorem reencode_examples :
    reencodeDateTimeMilliOffset ⟨1623742200, 123000000, FixedZone "" 10800⟩ =
      "\"2021-06-15T10:30:00.123+03:00\"".toList ∧
    reencodeDateTimeMilliOffset ⟨1623742200, 500000000, FixedZone "" 10800⟩ =
      "\"2021-06-15T10:30:00.5+03:00\"".toList ∧
    DateTimeMilliOffset.UnmarshalJSON (moscowEnv UTC) "\"2021-06-15T10:30:00+03:00\"".toList =
      .ok ⟨1623742200, 0, FixedZone "" 10800⟩ ∧
    reencodeDateTimeMilliOffset ⟨1623742200, 0, FixedZone "" 10800⟩ =
      "\"2021-06-15T10:30:00+03:00\"".toList ∧
    reencodeDate ⟨1623704400, 0, europeMoscow⟩ = "\"2021-06-15\"".toList ∧
    reencodeDate ⟨354920400, 0, europeMoscow⟩ = "\"1981-04-01\"".toList :=
  ⟨by decide!, by decide!, rfl, by decide!, by decide!, by decide!⟩

/-- C10 (counterexample): `"2021-06-15T10:30:00.123456+03:00"` is accepted and decodes to
an instant with 123456 microseconds; re-encoding it in the layout
`2006-01-02T15:04:05.999-07:00` writes `"2021-06-15T10:30:00.123+03:00"`, which decodes
to an instant with 123 milliseconds, not equal to the first.  And
`"2021-06-15T10:30:00.000-24:60"` is accepted with an offset of 25 hours, re-encoded as
`"2021-06-15T10:30:00-25:00"`, which the decoder rejects. -/
theorem DateTimeMilliOffset_reencode_drops_microseconds :
    DateTimeMilliOffset.UnmarshalJSON (moscowEnv UTC)
        "\"2021-06-15T10:30:00.123456+03:00\"".toList =
      .ok ⟨1623742200, 123456000, FixedZone "" 10800⟩ ∧
    reencodeDateTimeMilliOffset ⟨1623742200, 123456000, FixedZone "" 10800⟩ =
      "\"2021-06-15T10:30:00.123+03:00\"".toList ∧
    DateTimeMilliOffset.UnmarshalJSON (moscowEnv UTC) "\"2021-06-15T10:30:00.123+03:00\"".toList =
      .ok ⟨1623742200, 123000000, FixedZone "" 10800⟩ ∧
    Time.Equal ⟨1623742200, 123000000, FixedZone "" 10800⟩
      ⟨1623742200, 123456000, FixedZone "" 10800⟩ = false ∧
    DateTimeMilliOffset.UnmarshalJSON (moscowEnv UTC)
        "\"2021-06-15T10:30:00.000-24:60\"".toList =
      .ok ⟨1623843000, 0, FixedZone "" (-90000)⟩ ∧
    reencodeDateTimeMilliOffset ⟨1623843000, 0, FixedZone "" (-90000)⟩ =
      "\"2021-06-15T10:30:00-25:00\"".toList ∧
    DateTimeMilliOffset.UnmarshalJSON (moscowEnv UTC) "\"2021-06-15T10:30:00-25:00\"".toList =
      .error (parseError "time zone offset hour out of range") :=
  ⟨rfl, by decide!, rfl, rfl, rfl, by decide!, rfl⟩


end TBank
